import Mathlib

/-!
# Shape manipulation of strided arrays (`numpy/core/src/multiarray/shape.c`)

A shallow embedding of the shape and stride arithmetic of `shape.c`, and theorems about it.

Conventions of the embedding.

* An array header is reduced to what the functions below read and write: its dimension
  list and its stride list (`nd` is the length of the dimension list).
* `npy_intp` values are integers. Arithmetic carried out in `npy_intp` on the layout of
  an existing array is exact: signed overflow is undefined behaviour in C, the model
  describes the runs without it. The products of requested dimensions that nothing has
  validated yet (`s_known` in `_fix_unknown_dimension`, `newsize` in `PyArray_Resize`) are
  kept in a 64-bit word with wrapping multiplication (`wrap_intp`).
* `int` is 32 bits wide and `npy_intp` is wider (the LP64 and LLP64 platforms). A value
  stored in a C `int` is reduced modulo `2 ^ 32` into `[-2 ^ 31, 2 ^ 31)`. That narrowing is
  not undefined behaviour, and it happens in `_attempt_nocopy_reshape`, which keeps products
  of `npy_intp` dimensions in the `int` variables `np` and `op`.
* A function that indexes an array returns `none` for a read or write past the end of the
  array (undefined behaviour in C), `some` of its C result otherwise.
* Allocation of a new header (`PyArray_NewFromDescr`, `PyArray_View`) is taken to succeed and
  the array is taken to be a base-class `ndarray`, so no subclass wrapping happens.
* `PyArray_Resize` is the one function modelled with more of the array object (buffer, rank
  field, flags, reference count) and with a wrapping 64-bit `npy_intp` for its running
  product `newsize`; what the allocator and the code outside `shape.c` do is an input of
  the model (`resize_env`).
-/

namespace Shape

/-- The part of `PyArrayObject_fields` used by the shape functions. -/
structure PyArrayObject where
  dimensions : List Int
  strides : List Int
deriving DecidableEq, Repr

/-- The macro `PyArray_NDIM`: the number of dimensions. -/
def PyArray_NDIM (self : PyArrayObject) : Nat := self.dimensions.length

/-- Conversion of an `npy_intp` value to C `int` (32 bits, two's complement). -/
def toCInt (x : Int) : Int := Int.bmod x 4294967296

/-- The value kept by a signed 64-bit word (`npy_intp`): reduction modulo `2 ^ 64` into
`[-2 ^ 63, 2 ^ 63)`. -/
def wrap_intp (x : Int) : Int := Int.bmod x 18446744073709551616

/-! ## `_attempt_nocopy_reshape` (lines 431-538) -/

/-- Lines 441-448: the axes of length different from 1, as `(olddims, oldstrides)`. -/
def strip_ones : List Int → List Int → List Int × List Int
  | d :: ds, s :: ss =>
    if d ≠ 1 then (d :: (strip_ones ds ss).1, s :: (strip_ones ds ss).2)
    else strip_ones ds ss
  | _, _ => ([], [])

/-- Lines 461-468: `np = 1; for (...) np *= dims[i];` with `np` a C `int`. -/
def int_product (dims : List Int) : Int :=
  dims.foldl (fun np d => toCInt (np * d)) 1

/-- Lines 486-492: the loop `while (np != op)`, which extends the shorter of the two runs.
Returns the final `(nj, oj)`. The fuel bounds the number of iterations; an iteration that
finds `nj`, respectively `oj`, past the end of its array is an out-of-bounds read. -/
def extend_runs (newdims olddims : List Int) : Nat → Int → Int → Nat → Nat → Option (Nat × Nat)
  | fuel, np, op, nj, oj =>
    if np = op then some (nj, oj)
    else
      match fuel with
      | 0 => none
      | fuel + 1 =>
        if np < op then
          match newdims[nj]? with
          | none => none
          | some d => extend_runs newdims olddims fuel (toCInt (np * d)) op (nj + 1) oj
        else
          match olddims[oj]? with
          | none => none
          | some d => extend_runs newdims olddims fuel np (toCInt (op * d)) nj (oj + 1)

/-- Lines 494-508: `for (ok = oi; ok < oj - 1; ok++)`, `n` iterations starting at `ok`.
The result `false` stands for the `return 0` of the loop body. -/
def check_run (olddims oldstrides : List Int) (is_f_order : Bool) : Nat → Nat → Option Bool
  | 0, _ => some true
  | n + 1, ok =>
    if is_f_order then
      match oldstrides[ok + 1]?, olddims[ok]?, oldstrides[ok]? with
      | some s1, some d0, some s0 =>
        if s1 ≠ d0 * s0 then some false
        else check_run olddims oldstrides is_f_order n (ok + 1)
      | _, _, _ => none
    else
      match oldstrides[ok]?, olddims[ok + 1]?, oldstrides[ok + 1]? with
      | some s0, some d1, some s1 =>
        if s0 ≠ d1 * s1 then some false
        else check_run olddims oldstrides is_f_order n (ok + 1)
      | _, _, _ => none

/-- A store `buf[i] = v`; `none` when `i` is past the end of the buffer. -/
def store (buf : List Int) (i : Nat) (v : Int) : Option (List Int) :=
  if i < buf.length then some (buf.set i v) else none

/-- Lines 512-514: `for (nk = ...; nk < nj; nk++) newstrides[nk] = newstrides[nk-1]*newdims[nk-1]`,
`n` iterations starting at `nk`. -/
def fill_f (newdims : List Int) : Nat → Nat → List Int → Option (List Int)
  | 0, _, newstrides => some newstrides
  | n + 1, nk, newstrides =>
    match newstrides[nk - 1]?, newdims[nk - 1]? with
    | some s, some d =>
      match store newstrides nk (s * d) with
      | some newstrides1 => fill_f newdims n (nk + 1) newstrides1
      | none => none
    | _, _ => none

/-- Lines 519-521: `for (nk = ...; nk > ni; nk--) newstrides[nk-1] = newstrides[nk]*newdims[nk]`,
`n` iterations starting at `nk`. -/
def fill_c (newdims : List Int) : Nat → Nat → List Int → Option (List Int)
  | 0, _, newstrides => some newstrides
  | n + 1, nk, newstrides =>
    match newstrides[nk]?, newdims[nk]? with
    | some s, some d =>
      match store newstrides (nk - 1) (s * d) with
      | some newstrides1 => fill_c newdims n (nk - 1) newstrides1
      | none => none
    | _, _ => none

/-- Lines 510-522: the strides of the new run `ni .. nj-1`. -/
def fill_run (newdims oldstrides : List Int) (is_f_order : Bool) (oi oj ni nj : Nat)
    (newstrides : List Int) : Option (List Int) :=
  if is_f_order then
    match oldstrides[oi]? with
    | some s =>
      match store newstrides ni s with
      | some newstrides1 => fill_f newdims (nj - (ni + 1)) (ni + 1) newstrides1
      | none => none
    | none => none
  else
    match oldstrides[oj - 1]? with
    | some s =>
      match store newstrides (nj - 1) s with
      | some newstrides1 => fill_c newdims (nj - 1 - ni) (nj - 1) newstrides1
      | none => none
    | none => none

/-- Lines 482-525: the loop `while (ni < newnd && oi < oldnd)`. The result is the return
value of the function (0 from inside the loop, 1 when the loop ends) and the final contents
of `newstrides`. -/
def reshape_loop (olddims oldstrides newdims : List Int) (is_f_order : Bool) :
    Nat → Nat → Nat → Nat → Nat → List Int → Option (Int × List Int)
  | fuel, oi, oj, ni, nj, newstrides =>
    if ¬ (ni < newdims.length ∧ oi < olddims.length) then some (1, newstrides)
    else
      match fuel with
      | 0 => none
      | fuel + 1 =>
        match newdims[ni]?, olddims[oi]? with
        | some dn, some d =>
          match extend_runs newdims olddims (newdims.length + olddims.length)
              (toCInt dn) (toCInt d) nj oj with
          | none => none
          | some (nj1, oj1) =>
            match check_run olddims oldstrides is_f_order (oj1 - 1 - oi) oi with
            | none => none
            | some false => some (0, newstrides)
            | some true =>
              match fill_run newdims oldstrides is_f_order oi oj1 ni nj1 newstrides with
              | none => none
              | some newstrides1 =>
                reshape_loop olddims oldstrides newdims is_f_order fuel
                  oj1 (oj1 + 1) nj1 (nj1 + 1) newstrides1
        | _, _ => none

/-- The function `_attempt_nocopy_reshape(self, newnd, newdims, newstrides, is_f_order)`, with
`newnd` the length of `newdims` and `newstrides` the caller's buffer as it is on entry.
`some (r, buf)` is the return value `r` with the buffer as the function leaves it. -/
def _attempt_nocopy_reshape (self : PyArrayObject) (newdims newstrides : List Int)
    (is_f_order : Bool) : Option (Int × List Int) :=
  let olddims := (strip_ones self.dimensions self.strides).1
  let oldstrides := (strip_ones self.dimensions self.strides).2
  let np := int_product newdims
  let op := int_product olddims
  if np ≠ op then some (0, newstrides)
  else if np = 0 then some (0, newstrides)
  else reshape_loop olddims oldstrides newdims is_f_order newdims.length 0 1 0 1 newstrides

/-! ## `_fix_unknown_dimension` (lines 540-584) -/

/-- Lines 553-568: the scan of the requested dimensions, from index `i` on. `none` is the
early `return -1` at a second negative entry, `some (i_unknown, s_known)` the state after
the loop. The requested dimensions have not been validated when the function runs, so the
product `s_known *= dimensions[i]` of line 566 is kept in the 64-bit word `npy_intp`, with
wrapping multiplication. -/
def scan_dimensions : List Int → Int → Int → Int → Option (Int × Int)
  | [], _, i_unknown, s_known => some (i_unknown, s_known)
  | d :: ds, i, i_unknown, s_known =>
    if d < 0 then
      if i_unknown = -1 then scan_dimensions ds (i + 1) i s_known
      else none
    else scan_dimensions ds (i + 1) i_unknown (wrap_intp (s_known * d))

/-- The function `_fix_unknown_dimension(newshape, s_original)`: the return value (0 or -1)
and the dimension list as the function leaves it. `%` and `/` of C truncate toward zero. -/
def _fix_unknown_dimension (dimensions : List Int) (s_original : Int) : Int × List Int :=
  match scan_dimensions dimensions 0 (-1) 1 with
  | none => (-1, dimensions)
  | some (i_unknown, s_known) =>
    if i_unknown ≥ 0 then
      if s_known = 0 ∨ Int.tmod s_original s_known ≠ 0 then (-1, dimensions)
      else (0, dimensions.set i_unknown.toNat (Int.tdiv s_original s_known))
    else
      if s_original ≠ s_known then (-1, dimensions)
      else (0, dimensions)

/-! ## `PyArray_Transpose` (lines 756-833) and `PyArray_SwapAxes` (lines 699-751) -/

/-- Lines 766-769: `permutation[i] = n-1-i` for `i < n`. -/
def reversed_axes (n : Nat) : List Int :=
  (List.range n).map (fun i : Nat => (n : Int) - 1 - (i : Int))

/-- Lines 783-786: `axis = axes[i]; if (axis < 0) axis = PyArray_NDIM(ap) + axis;`. -/
def normalize_axis (nd axis : Int) : Int :=
  if axis < 0 then nd + axis else axis

/-- Lines 782-799: the loop over the caller's axes, from index `i` on, with the entries of
`permutation` written so far. `none` is the `return NULL` of an invalid or a repeated axis. -/
def check_axes (nd : Int) : List Int → Int → List Int → List Int → Option (List Int)
  | [], _, _, permutation => some permutation
  | a :: axes, i, reverse_permutation, permutation =>
    let axis := normalize_axis nd a
    if axis < 0 ∨ axis ≥ nd then none
    else if reverse_permutation[axis.toNat]? ≠ some (-1) then none
    else check_axes nd axes (i + 1) (reverse_permutation.set axis.toNat i)
      (permutation ++ [axis])

/-- Lines 765-800: the permutation that `PyArray_Transpose` applies, `none` when it fails. -/
def transpose_permutation (nd : Nat) : Option (List Int) → Option (List Int)
  | none => some (reversed_axes nd)
  | some axes =>
    if axes.length ≠ nd then none
    else check_axes nd axes 0 (List.replicate nd (-1)) []

/-- The function `PyArray_Transpose(ap, permute)`; `permute == NULL` is `none`. The result is
the new header, `none` for `return NULL`. -/
def PyArray_Transpose (ap : PyArrayObject) (permute : Option (List Int)) :
    Option PyArrayObject :=
  match transpose_permutation (PyArray_NDIM ap) permute with
  | none => none
  | some permutation =>
    some { dimensions := permutation.map (fun p => ap.dimensions.getD p.toNat 0)
           strides := permutation.map (fun p => ap.strides.getD p.toNat 0) }

/-- The function `PyArray_SwapAxes(ap, a1, a2)`. -/
def PyArray_SwapAxes (ap : PyArrayObject) (a1 a2 : Int) : Option PyArrayObject :=
  if a1 = a2 then some ap
  else
    let n : Int := PyArray_NDIM ap
    if n ≤ 1 then some ap
    else
      let a1 := if a1 < 0 then a1 + n else a1
      let a2 := if a2 < 0 then a2 + n else a2
      if a1 < 0 ∨ a1 ≥ n then none
      else if a2 < 0 ∨ a2 ≥ n then none
      else
        PyArray_Transpose ap (some ((List.range (PyArray_NDIM ap)).map (fun i : Nat =>
          if (i : Int) = a1 then a2 else if (i : Int) = a2 then a1 else (i : Int))))

/-! ## `PyArray_RemoveAxesInPlace` (lines 1171-1192) and `PyArray_SqueezeSelected`
(lines 644-694) -/

/-- Lines 1179-1185: the in-place compression, `n` iterations starting at `idim`. The
result is `(idim_out, shape, strides)`. A flag array is a list of booleans (`true` for a
non-zero `npy_bool`); an entry past its end reads as not flagged. -/
def compress_axes (flags : List Bool) :
    Nat → Nat → Nat → List Int → List Int → Nat × List Int × List Int
  | 0, _, idim_out, shape, strides => (idim_out, shape, strides)
  | n + 1, idim, idim_out, shape, strides =>
    if ¬ flags.getD idim false then
      compress_axes flags n (idim + 1) (idim_out + 1)
        (shape.set idim_out (shape.getD idim 0)) (strides.set idim_out (strides.getD idim 0))
    else compress_axes flags n (idim + 1) idim_out shape strides

/-- The function `PyArray_RemoveAxesInPlace(arr, flags)`: the header after the call, whose
`nd` is the final `idim_out`. -/
def PyArray_RemoveAxesInPlace (arr : PyArrayObject) (flags : List Bool) : PyArrayObject :=
  let r := compress_axes flags (PyArray_NDIM arr) 0 0 arr.dimensions arr.strides
  { dimensions := r.2.1.take r.1, strides := r.2.2.take r.1 }

/-- Lines 655-668: the check of the flagged axes, `n` iterations starting at `idim`. `none`
is the `return NULL`, `some any_ones` the flag after the loop. -/
def check_flagged (shape : List Int) (axis_flags : List Bool) : Nat → Nat → Bool → Option Bool
  | 0, _, any_ones => some any_ones
  | n + 1, idim, any_ones =>
    if axis_flags.getD idim false then
      if shape.getD idim 0 = 1 then check_flagged shape axis_flags n (idim + 1) true
      else none
    else check_flagged shape axis_flags n (idim + 1) any_ones

/-- The function `PyArray_SqueezeSelected(self, axis_flags)`, `none` for `return NULL`. -/
def PyArray_SqueezeSelected (self : PyArrayObject) (axis_flags : List Bool) :
    Option PyArrayObject :=
  match check_flagged self.dimensions axis_flags (PyArray_NDIM self) 0 false with
  | none => none
  | some false => some self
  | some true => some (PyArray_RemoveAxesInPlace self axis_flags)

/-! ## `PyArray_Squeeze` (lines 592-638) and `_check_ones` (lines 349-382) -/

/-- Lines 603-612: the flags of the unit-length axes, with `any_ones`. -/
def mark_unit_dims : List Int → List Bool × Bool
  | [] => ([], false)
  | d :: shape =>
    if d = 1 then (true :: (mark_unit_dims shape).1, true)
    else (false :: (mark_unit_dims shape).1, (mark_unit_dims shape).2)

/-- The function `PyArray_Squeeze(self)`: the array itself when no axis has length 1,
otherwise a view from which the axes flagged in `unit_dims` have been removed. -/
def PyArray_Squeeze (self : PyArrayObject) : PyArrayObject :=
  if ¬ (mark_unit_dims self.dimensions).2 then self
  else PyArray_RemoveAxesInPlace self (mark_unit_dims self.dimensions).1

/-- Lines 361-377: the loop of `_check_ones` from the state `(j, k)`, with the strides
`strides[0 .. k-1]` written so far. The result is the return value (0, or -1 when `done` was
set) and the strides written. The fuel bounds the number of iterations; every iteration
advances `j` or `k` or ends the loop, so `nd + newnd` is never used up. -/
def check_ones_loop (dims srcstrides newdims : List Int) :
    Nat → Nat → Nat → List Int → Int × List Int
  | fuel, j, k, strides =>
    if ¬ (j < dims.length ∨ k < newdims.length) then (0, strides)
    else
      match fuel with
      | 0 => (-1, strides)
      | fuel + 1 =>
        if j < dims.length ∧ k < newdims.length ∧ newdims.getD k 0 = dims.getD j 0 then
          check_ones_loop dims srcstrides newdims fuel (j + 1) (k + 1)
            (strides ++ [srcstrides.getD j 0])
        else if k < newdims.length ∧ newdims.getD k 0 = 1 then
          check_ones_loop dims srcstrides newdims fuel j (k + 1) (strides ++ [0])
        else if j < dims.length ∧ dims.getD j 0 = 1 then
          check_ones_loop dims srcstrides newdims fuel (j + 1) k strides
        else (-1, strides)

/-- The function `_check_ones(self, newnd, newdims, strides)`, with `newnd` the length of
`newdims`: the return value and the entries `strides[0 ..]` that the function has written,
in order. -/
def _check_ones (self : PyArrayObject) (newdims : List Int) : Int × List Int :=
  check_ones_loop self.dimensions self.strides newdims
    (self.dimensions.length + newdims.length) 0 0 []

/-! ## `PyArray_Newshape` (lines 174-325): the quick check and the unit-axis shortcut -/

/-- Lines 279-283: `for (i = 1; i < ndim; i++) if (dimensions[i] == 1)
strides[i] = strides[i-1] * dimensions[i-1];`, `n` iterations starting at `i`. -/
def fix_strides_f (dimensions : List Int) : Nat → Nat → List Int → List Int
  | 0, _, strides => strides
  | n + 1, i, strides =>
    if dimensions.getD i 0 = 1 then
      fix_strides_f dimensions n (i + 1)
        (strides.set i (strides.getD (i - 1) 0 * dimensions.getD (i - 1) 0))
    else fix_strides_f dimensions n (i + 1) strides

/-- Lines 289-293: `for (i = ndim - 2; i > -1; i--) if (dimensions[i] == 1)
strides[i] = strides[i+1] * dimensions[i+1];`, `n` iterations, the first at `i = n - 1`. -/
def fix_strides_c (dimensions : List Int) : Nat → List Int → List Int
  | 0, strides => strides
  | i + 1, strides =>
    if dimensions.getD i 0 = 1 then
      fix_strides_c dimensions i
        (strides.set i (strides.getD (i + 1) 0 * dimensions.getD (i + 1) 0))
    else fix_strides_c dimensions i strides

/-- Lines 270-295: the strides of the unit-length axes replaced so that contiguity is kept;
`fortran` is `order == NPY_FORTRANORDER`, `elsize` is `PyArray_DESCR(self)->elsize`. -/
def fix_unit_strides (dimensions strides : List Int) (elsize : Int) (fortran : Bool) :
    List Int :=
  let ndim := dimensions.length
  if ndim > 0 then
    if fortran then
      fix_strides_f dimensions (ndim - 1) 1
        (if dimensions.getD 0 0 = 1 then strides.set 0 elsize else strides)
    else
      fix_strides_c dimensions (ndim - 1)
        (if dimensions.getD (ndim - 1) 0 = 1 then strides.set (ndim - 1) elsize else strides)
  else strides

/-- The paths of `PyArray_Newshape(self, newdims, order)` that do not go through
`_fix_unknown_dimension`: the quick check of lines 191-203, which returns a plain view of
`self`, and the unit-axis shortcut of lines 213-216 and 270-303. The result is the header of
the view, `none` when neither applies and the function goes on with the general path. -/
def newshape_shortcut (self : PyArrayObject) (elsize : Int) (dimensions : List Int)
    (fortran : Bool) : Option PyArrayObject :=
  if dimensions.length = PyArray_NDIM self ∧ self.dimensions = dimensions then some self
  else if (_check_ones self dimensions).1 = 0 then
    some { dimensions := dimensions
           strides := fix_unit_strides dimensions (_check_ones self dimensions).2 elsize fortran }
  else none

/-! ## _npy_stride_sort_item_comparator and PyArray_CreateSortedStridePerm (lines 835-897) -/

/-- The struct `npy_stride_sort_item`: an axis number and a stride. -/
structure npy_stride_sort_item where
  perm : Nat
  stride : Int
  deriving DecidableEq, Repr, Inhabited

/-- Lines 839-867. The comparator handed to `qsort`: the strides are replaced by their
absolute values; when they are equal, or one of them is 0, the result is decided by the
axis numbers; otherwise the larger absolute stride goes first. -/
def _npy_stride_sort_item_comparator (a b : npy_stride_sort_item) : Int :=
  let astride := if a.stride < 0 then -a.stride else a.stride
  let bstride := if b.stride < 0 then -b.stride else b.stride
  if astride = bstride ∨ astride = 0 ∨ bstride = 0 then
    (if a.perm < b.perm then -1 else 1)
  else if astride > bstride then -1
  else 1

/-- Lines 883-892, the set-up loop of `PyArray_CreateSortedStridePerm`: entry `i` gets the
axis number `i` and the stride of axis `i`, or 0 when the axis has length 1. -/
def strideperm_setup (ndim : Nat) (shape strides : List Int) : List npy_stride_sort_item :=
  (List.range ndim).map (fun i : Nat =>
    { perm := i, stride := if shape.getD i 0 = 1 then 0 else strides.getD i 0 })

/-- One insertion of the sorting routine `qsort_model`: `x` is placed before the first entry
that the comparator does not put before `x`. -/
def qsort_insert {α : Type} (compar : α → α → Int) (x : α) : List α → List α
  | [] => [x]
  | y :: ys => if compar x y ≤ 0 then x :: y :: ys else y :: qsort_insert compar x ys

/-- The C library routine `qsort`, which is not part of the sources, as an insertion sort
driven by the comparator. The C standard only promises an output that the comparator
regards as ordered; the properties below that depend on `qsort` are therefore also stated
for every such output (`is_qsort_output`). -/
def qsort_model {α : Type} (compar : α → α → Int) : List α → List α
  | [] => []
  | x :: xs => qsort_insert compar x (qsort_model compar xs)

/-- Lines 876-897. `PyArray_CreateSortedStridePerm`: the first `ndim` entries of
`out_strideperm` after the call. -/
def PyArray_CreateSortedStridePerm (ndim : Nat) (shape strides : List Int) :
    List npy_stride_sort_item :=
  qsort_model _npy_stride_sort_item_comparator (strideperm_setup ndim shape strides)

/-! ## PyArray_CreateMultiSortedStridePerm (lines 899-992) -/

/-- Lines 899-903. -/
def s_intp_abs (x : Int) : Int := if x < 0 then -x else x

/-- Lines 942-964, one turn of the loop over the arrays: the pair is `(ambig, shouldswap)`. -/
def vote_step (ax_j0 ax_j1 : Nat) (st : Bool × Bool) (arr : PyArrayObject) : Bool × Bool :=
  if arr.dimensions.getD ax_j0 0 ≠ 1 ∧ arr.dimensions.getD ax_j1 0 ≠ 1 then
    if s_intp_abs (arr.strides.getD ax_j0 0) ≤ s_intp_abs (arr.strides.getD ax_j1 0) then
      (false, false)
    else if st.1 then (false, true)
    else (false, st.2)
  else st

/-- Lines 938-964: `(ambig, shouldswap)` after the loop over the arrays, starting from
`ambig = 1, shouldswap = 0`. -/
def vote (arrays : List PyArrayObject) (ax_j0 ax_j1 : Nat) : Bool × Bool :=
  arrays.foldl (vote_step ax_j0 ax_j1) (true, false)

/-- Lines 937-977, the loop `for (i1 = i0 - 1; i1 >= 0; --i1)`: the first argument is
`i1 + 1`, the second the current `ipos`; the value is the final `ipos`. -/
def find_ipos (arrays : List PyArrayObject) (out_strideperm : List Nat) (ax_j0 : Nat) :
    Nat → Nat → Nat
  | 0, ipos => ipos
  | i1 + 1, ipos =>
    if ¬ (vote arrays ax_j0 (out_strideperm.getD i1 0)).1 then
      if (vote arrays ax_j0 (out_strideperm.getD i1 0)).2 then
        find_ipos arrays out_strideperm ax_j0 i1 i1
      else ipos
    else find_ipos arrays out_strideperm ax_j0 i1 ipos

/-- Lines 981-983, the loop `for (i1 = i0; i1 > ipos; --i1)`: the first argument is
`i1 - ipos`. -/
def shift_loop (ipos : Nat) : Nat → List Nat → List Nat
  | 0, out_strideperm => out_strideperm
  | n + 1, out_strideperm =>
    shift_loop ipos n (out_strideperm.set (ipos + n + 1) (out_strideperm.getD (ipos + n) 0))

/-- Lines 932-986, the body of the loop over `i0`. -/
def insert_axis (arrays : List PyArrayObject) (out_strideperm : List Nat) (i0 : Nat) :
    List Nat :=
  if find_ipos arrays out_strideperm (out_strideperm.getD i0 0) i0 i0 ≠ i0 then
    (shift_loop (find_ipos arrays out_strideperm (out_strideperm.getD i0 0) i0 i0)
      (i0 - find_ipos arrays out_strideperm (out_strideperm.getD i0 0) i0 i0)
      out_strideperm).set
      (find_ipos arrays out_strideperm (out_strideperm.getD i0 0) i0 i0)
      (out_strideperm.getD i0 0)
  else out_strideperm

/-- Lines 930-991, the loop `for (i0 = 1; i0 < ndim; ++i0)`: the first argument counts the
turns that are left. -/
def sort_loop (arrays : List PyArrayObject) : Nat → Nat → List Nat → List Nat
  | 0, _, out_strideperm => out_strideperm
  | n + 1, i0, out_strideperm =>
    sort_loop arrays n (i0 + 1) (insert_axis arrays out_strideperm i0)

/-- Lines 916-992. `PyArray_CreateMultiSortedStridePerm`: the first `ndim` entries of
`out_strideperm` after the call. -/
def PyArray_CreateMultiSortedStridePerm (arrays : List PyArrayObject) (ndim : Nat) :
    List Nat :=
  sort_loop arrays (ndim - 1) 1 (List.range ndim)

/-! ## PyArray_Ravel (lines 998-1073): the flattened view of the KEEPORDER branch -/

/-- Modelled from the spec: the total element count of an array is the product of its
shape (the macro `PyArray_SIZE` is defined in a header that is not part of the sources). -/
def PyArray_SIZE (arr : PyArrayObject) : Int := arr.dimensions.prod

/-- Lines 1033-1039, the loop `for (i = ndim-1; i >= 0; --i)`: the first argument is
`i + 1`, the second the running `stride`; the value says whether the loop ends with
`i < 0`. -/
def ravel_run_check (arr : PyArrayObject) (strideperm : List npy_stride_sort_item) :
    Nat → Int → Bool
  | 0, _ => true
  | i + 1, stride =>
    if (strideperm.getD i default).stride ≠ stride then false
    else ravel_run_check arr strideperm i
      (stride * arr.dimensions.getD (strideperm.getD i default).perm 0)

/-- Lines 1025-1070, the KEEPORDER branch of `PyArray_Ravel` once `strideperm` has been
filled: `some (some v)` is the 1-D view that is returned, `some none` stands for falling
through to `PyArray_Flatten` (a copy), and `none` for rank 0, where `strideperm[ndim-1]`
is read out of bounds. -/
def ravel_keeporder_view (arr : PyArrayObject) (strideperm : List npy_stride_sort_item) :
    Option (Option PyArrayObject) :=
  if PyArray_NDIM arr = 0 then none
  else if ravel_run_check arr strideperm (PyArray_NDIM arr)
      (strideperm.getD (PyArray_NDIM arr - 1) default).stride then
    some (some { dimensions := [PyArray_SIZE arr]
                 strides := [(strideperm.getD (PyArray_NDIM arr - 1) default).stride] })
  else some none

/-- Lines 1025-1070 with the call of `PyArray_CreateSortedStridePerm` at lines 1030-1031. -/
def PyArray_Ravel_keeporder (arr : PyArrayObject) : Option (Option PyArrayObject) :=
  ravel_keeporder_view arr
    (PyArray_CreateSortedStridePerm (PyArray_NDIM arr) arr.dimensions arr.strides)

/-! ## PyArray_Resize (lines 34-162)

Here the running product `newsize` is kept in the signed 64-bit word `npy_intp` with
wrapping multiplication (`wrap_intp`), so that the overflow test of lines 76-79 can be
studied; every other quantity of the function stays below `NPY_MAX_INTP` once that test has
passed. -/

/-- The flag bits of an array that `PyArray_Resize` reads or hands on. -/
structure array_flags where
  c_contiguous : Bool
  f_contiguous : Bool
  owndata : Bool
  writeable : Bool
  deriving DecidableEq, Repr

/-- The fields of the array object and of its dtype that `PyArray_Resize` reads or writes:
`data` is the buffer, byte by byte; `nd` the rank field; `dimensions` and `strides` the two
blocks the header points to; `base` and `weakreflist` say whether the pointer is not NULL;
`ob_refcnt` is the reference count; `elsize` (a C `int` that is never negative) and
`item_refcount` (the dtype flag `NPY_ITEM_REFCOUNT`) belong to the dtype. -/
structure PyArrayObject_fields where
  data : List Nat
  nd : Nat
  dimensions : List Int
  strides : List Int
  base : Bool
  flags : array_flags
  weakreflist : Bool
  ob_refcnt : Int
  elsize : Nat
  item_refcount : Bool
  deriving DecidableEq, Repr

/-- What `PyArray_Resize` obtains from code outside the sources: `onesegment` is the value
of the macro `PyArray_ISONESEGMENT(self)`; `data_ok` and `dims_ok` say whether
`PyDataMem_RENEW` and `PyDimMem_RENEW` return a block; `garbage` gives the indeterminate
byte at each index of a block that has grown; `putzero` is the effect of `_putzero` on the
buffer for a dtype with object references (it stores references to a Python object);
`array_fill_strides` is `_array_fill_strides` of `ctors.c`, from the requested dimensions,
their number, the element size and the flags to the new strides and flags. -/
structure resize_env where
  onesegment : Bool
  data_ok : Bool
  dims_ok : Bool
  garbage : Nat → Nat
  putzero : List Nat → Int → List Nat
  array_fill_strides : List Int → Nat → Int → array_flags → List Int × array_flags

/-- Modelled from the spec: the largest value of the native signed index type, taken to be
the 64-bit `npy_intp` (the constant is defined in a header that is not part of the
sources). -/
def NPY_MAX_INTP : Int := 9223372036854775807

/-- The header of the array as the shape functions see it: the first `nd` entries of the
two blocks. -/
def header (self : PyArrayObject_fields) : PyArrayObject :=
  { dimensions := self.dimensions.take self.nd, strides := self.strides.take self.nd }

/-- Lines 67-80, the loop over the requested dimensions, from the running `newsize`:
`some newsize` when the loop ends or breaks at a zero dimension, `none` when the function
returns NULL (lines 72-74 or line 78). -/
def newsize_loop (largest : Int) : List Int → Int → Option Int
  | [], newsize => some newsize
  | dim :: new_dimensions, newsize =>
    if dim = 0 then some newsize
    else if dim < 0 then none
    else if wrap_intp (newsize * dim) ≤ 0 ∨ wrap_intp (newsize * dim) > largest then none
    else newsize_loop largest new_dimensions (wrap_intp (newsize * dim))

/-- The allocator call `PyDataMem_RENEW(data, sd)` (a `realloc`): `none` is NULL; otherwise
a block of `sd` bytes that starts with the old bytes. -/
def PyDataMem_RENEW (env : resize_env) (data : List Nat) (sd : Int) : Option (List Nat) :=
  if env.data_ok then
    some (data.take sd.toNat ++
      (List.range (sd.toNat - data.length)).map (fun i : Nat => env.garbage (data.length + i)))
  else none

/-- The C library call `memset(data + start, 0, count)`; `none` for a write outside the
buffer. -/
def memset_zero (data : List Nat) (start count : Int) : Option (List Nat) :=
  if 0 ≤ start ∧ 0 ≤ count ∧ start + count ≤ data.length then
    some (data.take start.toNat ++ List.replicate count.toNat 0 ++
      data.drop (start + count).toNat)
  else none

/-- Lines 129-132: `n` calls of `_putzero`, `optr` advancing by `elsize`. -/
def putzero_loop (env : resize_env) (elsize : Int) : Nat → Int → List Nat → List Nat
  | 0, _, data => data
  | n + 1, optr, data => putzero_loop env elsize n (optr + elsize) (env.putzero data optr)

/-- Lines 83-119: the ownership and reference checks and the reallocation of the buffer,
all inside `if (oldsize != newsize)`. `none` when the function returns NULL, which happens
before anything is written. -/
def resize_data (env : resize_env) (self : PyArrayObject_fields) (refcheck : Bool)
    (oldsize newsize : Int) : Option PyArrayObject_fields :=
  if oldsize ≠ newsize then
    if ¬ self.flags.owndata then none
    else if (if refcheck then toCInt self.ob_refcnt else 1) > 2 ∨ self.base ∨
        self.weakreflist then none
    else
      match PyDataMem_RENEW env self.data
          (if newsize = 0 then (self.elsize : Int) else newsize * self.elsize) with
      | none => none
      | some new_data => some { self with data := new_data }
  else some self

/-- Lines 121-138: the new elements are set to zero. `none` for a write outside the
buffer. -/
def resize_fill (env : resize_env) (self : PyArrayObject_fields) (oldsize newsize : Int) :
    Option PyArrayObject_fields :=
  if newsize > oldsize ∧ self.flags.writeable then
    if self.item_refcount then
      some { self with data := (putzero_loop env self.elsize
        (toCInt (newsize - oldsize)).toNat (oldsize * self.elsize) self.data) }
    else
      match memset_zero self.data (oldsize * self.elsize)
          ((newsize - oldsize) * self.elsize) with
      | none => none
      | some data => some { self with data := data }
  else some self

/-- Lines 140-161: the rank field, the two blocks and the flags. The first component says
whether the function returns `None` (true) or NULL (false); `none` for a `memmove` past the
end of a block that was not reallocated. -/
def resize_header (env : resize_env) (self : PyArrayObject_fields)
    (new_dimensions : List Int) : Option (Bool × PyArrayObject_fields) :=
  if self.nd ≠ new_dimensions.length then
    if ¬ env.dims_ok then some (false, { self with nd := new_dimensions.length })
    else some (true,
      { self with
        nd := new_dimensions.length
        dimensions := new_dimensions
        strides := (env.array_fill_strides new_dimensions new_dimensions.length
          self.elsize self.flags).1
        flags := (env.array_fill_strides new_dimensions new_dimensions.length
          self.elsize self.flags).2 })
  else if self.dimensions.length < new_dimensions.length ∨
      self.strides.length < new_dimensions.length then none
  else some (true,
    { self with
      dimensions := new_dimensions ++ self.dimensions.drop new_dimensions.length
      strides := (env.array_fill_strides new_dimensions new_dimensions.length
          self.elsize self.flags).1 ++ self.strides.drop new_dimensions.length
      flags := (env.array_fill_strides new_dimensions new_dimensions.length
          self.elsize self.flags).2 })

/-- Lines 40-162. `PyArray_Resize(self, newshape, refcheck, order)`, the argument `order`
being unused: `some (true, s)` when `None` is returned and `some (false, s)` when NULL is
returned, with the array `s` left behind; `none` for a write outside a block. -/
def PyArray_Resize (env : resize_env) (self : PyArrayObject_fields) (newshape : List Int)
    (refcheck : Bool) : Option (Bool × PyArrayObject_fields) :=
  if ¬ env.onesegment then some (false, self)
  else if self.elsize = 0 then some (false, self)
  else
    match newsize_loop (NPY_MAX_INTP / self.elsize) newshape 1 with
    | none => some (false, self)
    | some newsize =>
      match resize_data env self refcheck (PyArray_SIZE (header self)) newsize with
      | none => some (false, self)
      | some self1 =>
        match resize_fill env self1 (PyArray_SIZE (header self)) newsize with
        | none => none
        | some self2 => resize_header env self2 newshape

/-! ## Notions used to state the properties -/

/-- The product of the non-negative entries of `ds`, started from `s` and multiplied out
in the 64-bit word `npy_intp`, wrapping at every step. -/
def wrapped_product (s : Int) (ds : List Int) : Int :=
  (ds.filter (fun d => decide (0 ≤ d))).foldl (fun a d => wrap_intp (a * d)) s

/-- The byte offset, from the start of the data, of the `k`-th element of a layout when
the elements are counted in C order (last axis fastest): the index along an axis of size `d`
followed by axes of sizes `ds` is `k / prod ds % d`. -/
def byte_offset_c : List Int → List Int → Int → Int
  | d :: ds, s :: ss, k => (k / ds.prod % d) * s + byte_offset_c ds ss k
  | _, _, _ => 0

/-- The byte offset of the `k`-th element of a layout when the elements are counted in
Fortran order (first axis fastest). -/
def byte_offset_f : List Int → List Int → Int → Int
  | d :: ds, s :: ss, k => (k % d) * s + byte_offset_f ds ss (k / d)
  | _, _, _ => 0

/-- The C-contiguous strides of a shape: `strides[i] = elsize * product of the later dims`. -/
def c_contiguous_strides (elsize : Int) : List Int → List Int
  | [] => []
  | _ :: ds => elsize * ds.prod :: c_contiguous_strides elsize ds

/-- The Fortran-contiguous strides of a shape:
`strides[i] = elsize * product of the earlier dims`. -/
def f_contiguous_strides (elsize : Int) : List Int → List Int
  | [] => []
  | d :: ds => elsize :: f_contiguous_strides (elsize * d) ds

/-- What the C standard promises of `qsort`: `out` is a rearrangement of `items` in which the
comparator puts no entry after its successor. -/
def is_qsort_output {α : Type} (compar : α → α → Int) (items out : List α) : Prop :=
  out.Perm items ∧ out.Chain' (fun a b => compar a b ≤ 0)

/-- Entry `a` goes before entry `b` in the order "descending absolute stride, ties in
ascending axis number". -/
def stride_order (a b : npy_stride_sort_item) : Prop :=
  |b.stride| < |a.stride| ∨ (|a.stride| = |b.stride| ∧ a.perm < b.perm)

/-- Axis `a` goes before axis `b` in the order "descending absolute stride of `arr`, ties in
ascending axis number". -/
def axis_order (arr : PyArrayObject) (a b : Nat) : Prop :=
  |arr.strides.getD b 0| < |arr.strides.getD a 0| ∨
    (|arr.strides.getD a 0| = |arr.strides.getD b 0| ∧ a < b)

/-- Array `arr` casts a vote on the pair of axes `(a, b)`: both have a length other than 1
(the test of lines 943-944). -/
def casts_vote (a b : Nat) (arr : PyArrayObject) : Bool :=
  decide (arr.dimensions.getD a 0 ≠ 1 ∧ arr.dimensions.getD b 0 ≠ 1)

/-- Array `arr` has a larger absolute stride on axis `a` than on axis `b`. -/
def larger_stride (a b : Nat) (arr : PyArrayObject) : Bool :=
  decide (|arr.strides.getD b 0| < |arr.strides.getD a 0|)

/-! # Theorems -/

/-! ## `_fix_unknown_dimension` -/

/-- A value in the range of `npy_intp` is not changed by the wrap. -/
theorem wrap_intp_of_range (x : Int) (h0 : -9223372036854775808 ≤ x)
    (h1 : x < 9223372036854775808) : wrap_intp x = x := by
  unfold wrap_intp
  rw [Int.bmod_def]
  omega

/-- The scan once an unknown dimension has been recorded: a further negative entry fails. -/
theorem scan_dimensions_known (ds : List Int) (i u s : Int) (hu : u ≠ -1) :
    scan_dimensions ds i u s =
      if ds.countP (fun d => decide (d < 0)) = 0 then some (u, wrapped_product s ds)
      else none := by
  induction ds generalizing i s with
  | nil => simp [scan_dimensions, wrapped_product]
  | cons d ds ih =>
    by_cases hd : d < 0
    · simp [scan_dimensions, hd, hu, List.countP_cons]
    · have hd1 : 0 ≤ d := by omega
      simp [scan_dimensions, hd, hd1, List.countP_cons, ih, List.filter_cons, wrapped_product]

/-- The scan while no unknown dimension has been recorded. -/
theorem scan_dimensions_unknown (ds : List Int) (i s : Int) (hi : 0 ≤ i) :
    scan_dimensions ds i (-1) s =
      if ds.countP (fun d => decide (d < 0)) = 0 then some (-1, wrapped_product s ds)
      else if ds.countP (fun d => decide (d < 0)) = 1 then
        some (i + (ds.findIdx (fun d => decide (d < 0)) : Nat), wrapped_product s ds)
      else none := by
  induction ds generalizing i s with
  | nil => simp [scan_dimensions, wrapped_product]
  | cons d ds ih =>
    by_cases hd : d < 0
    · have hu : i ≠ -1 := by omega
      have hd1 : ¬ 0 ≤ d := by omega
      simp [scan_dimensions, hd, hd1, List.countP_cons, scan_dimensions_known ds (i + 1) i s hu,
        List.filter_cons, List.findIdx_cons, wrapped_product]
    · have hi1 : 0 ≤ i + 1 := by omega
      have hd1 : 0 ≤ d := by omega
      simp [scan_dimensions, hd, hd1, List.countP_cons, ih (i + 1) _ hi1, List.filter_cons,
        List.findIdx_cons, wrapped_product]
      split_ifs <;> first | (simp; done) | (simp; omega)

/-- While the product of the positive entries stays below `2 ^ 63`, the wrapped product of
the non-negative entries is their product. -/
theorem wrapped_product_eq (ds : List Int) :
    ∀ s : Int, 0 ≤ s →
      s * (ds.filter (fun d => decide (0 < d))).prod < 9223372036854775808 →
      wrapped_product s ds = s * (ds.filter (fun d => decide (0 ≤ d))).prod := by
  induction ds with
  | nil => intro s _ _; simp [wrapped_product]
  | cons d ds ih =>
    intro s hs hfit
    have hP : 0 < (ds.filter (fun d => decide (0 < d))).prod :=
      List.prod_pos (fun a ha => by simpa using (List.mem_filter.mp ha).2)
    have hstep : ∀ t : Int, wrapped_product t (d :: ds) =
        if 0 ≤ d then wrapped_product (wrap_intp (t * d)) ds else wrapped_product t ds := by
      intro t
      unfold wrapped_product
      by_cases h0 : 0 ≤ d
      · rw [List.filter_cons_of_pos (by simpa using h0), List.foldl_cons, if_pos h0]
      · rw [List.filter_cons_of_neg (by simpa using h0), if_neg h0]
    rw [hstep]
    by_cases hneg : d < 0
    · rw [if_neg (by omega), List.filter_cons_of_neg (by simpa using show ¬ 0 ≤ d by omega)]
      rw [List.filter_cons_of_neg (by simpa using show ¬ 0 < d by omega)] at hfit
      exact ih s hs hfit
    · rw [if_pos (by omega), List.filter_cons_of_pos (by simpa using show 0 ≤ d by omega),
        List.prod_cons, ← mul_assoc]
      by_cases hz : d = 0
      · subst hz
        rw [mul_zero, wrap_intp_of_range 0 (by omega) (by omega),
          ih 0 (le_refl _) (by rw [zero_mul]; omega)]
      · have hd : 0 < d := by omega
        rw [List.filter_cons_of_pos (by simpa using hd), List.prod_cons, ← mul_assoc] at hfit
        have hsd : 0 ≤ s * d := mul_nonneg hs hd.le
        have hle : s * d ≤ s * d * (ds.filter (fun d => decide (0 < d))).prod :=
          le_mul_of_one_le_right hsd hP
        rw [wrap_intp_of_range (s * d) (by omega) (by omega), ih (s * d) hsd hfit]

/-- One step of the wrapped product. -/
theorem wrapped_product_cons (t d : Int) (ds : List Int) :
    wrapped_product t (d :: ds) =
      if 0 ≤ d then wrapped_product (wrap_intp (t * d)) ds else wrapped_product t ds := by
  unfold wrapped_product
  by_cases h0 : 0 ≤ d
  · rw [List.filter_cons_of_pos (by simpa using h0), List.foldl_cons, if_pos h0]
  · rw [List.filter_cons_of_neg (by simpa using h0), if_neg h0]

/-- Once the wrapped product is zero it stays zero. -/
theorem wrapped_product_zero (ds : List Int) : wrapped_product 0 ds = 0 := by
  induction ds with
  | nil => simp [wrapped_product]
  | cons d ds ih =>
    rw [wrapped_product_cons]
    split_ifs
    · rw [zero_mul, wrap_intp_of_range 0 (by omega) (by omega), ih]
    · exact ih

/-- A zero entry makes the wrapped product zero, whatever happened before it. -/
theorem wrapped_product_of_zero_mem (ds : List Int) (h : (0 : Int) ∈ ds) :
    ∀ s : Int, wrapped_product s ds = 0 := by
  induction ds with
  | nil => simp at h
  | cons d ds ih =>
    intro s
    rw [wrapped_product_cons]
    by_cases hd : d = 0
    · subst hd
      rw [if_pos le_rfl, mul_zero, wrap_intp_of_range 0 (by omega) (by omega),
        wrapped_product_zero]
    · have hmem : (0 : Int) ∈ ds := by
        rcases List.mem_cons.mp h with h | h
        · exact absurd h.symm hd
        · exact h
      split_ifs
      · exact ih hmem _
      · exact ih hmem _

/-- While the product of the non-negative entries is below `2^63`, the wrapped product is
that product. -/
theorem wrapped_product_fits (ds : List Int)
    (hfit : (ds.filter (fun d => decide (0 ≤ d))).prod < 9223372036854775808) :
    wrapped_product 1 ds = (ds.filter (fun d => decide (0 ≤ d))).prod := by
  by_cases hz : (0 : Int) ∈ ds
  · rw [wrapped_product_of_zero_mem ds hz,
      List.prod_eq_zero (List.mem_filter.mpr ⟨hz, by simp⟩)]
  · have hposeq : ds.filter (fun d => decide (0 < d)) =
        ds.filter (fun d => decide (0 ≤ d)) := by
      apply List.filter_congr
      intro a ha
      have h0 : a ≠ 0 := fun h => hz (h ▸ ha)
      by_cases hp : 0 < a
      · simp [hp, hp.le]
      · have : ¬ 0 ≤ a := by omega
        simp [hp, this]
    rw [wrapped_product_eq ds 1 (by omega) (by rw [one_mul, hposeq]; exact hfit), one_mul]

/-- With no negative entry, the product of the non-negative entries is the whole product. -/
theorem filter_nonneg_of_countP_neg_zero (ds : List Int)
    (h : ds.countP (fun d => decide (d < 0)) = 0) :
    ds.filter (fun d => decide (0 ≤ d)) = ds := by
  rw [List.filter_eq_self]
  rw [List.countP_eq_zero] at h
  intro a ha
  have := h a ha
  simp at this
  simpa using this

/-- Writing at the first negative entry of a list with one negative entry replaces exactly
the negative entry. -/
theorem set_findIdx_neg (ds : List Int) (v : Int)
    (h : ds.countP (fun d => decide (d < 0)) = 1) :
    ds.set (ds.findIdx (fun d => decide (d < 0))) v =
      ds.map (fun d => if d < 0 then v else d) := by
  induction ds with
  | nil => simp at h
  | cons d ds ih =>
    by_cases hd : d < 0
    · have h0 : ds.countP (fun d => decide (d < 0)) = 0 := by
        simpa [List.countP_cons, hd] using h
      rw [List.countP_eq_zero] at h0
      have hmap : ds.map (fun d => if d < 0 then v else d) = ds := by
        conv_rhs => rw [← List.map_id ds]
        apply List.map_congr_left
        intro a ha
        have := h0 a ha
        simp at this
        simp [not_lt.mpr this]
      simp [List.findIdx_cons, hd, hmap]
    · have h1 : ds.countP (fun d => decide (d < 0)) = 1 := by
        simpa [List.countP_cons, hd] using h
      simp [List.findIdx_cons, hd, ih h1]

/-- The product after the replacement of the negative entries by `v`. -/
theorem prod_map_replace_neg (ds : List Int) (v : Int) :
    (ds.map (fun d => if d < 0 then v else d)).prod =
      v ^ ds.countP (fun d => decide (d < 0)) * (ds.filter (fun d => decide (0 ≤ d))).prod := by
  induction ds with
  | nil => simp
  | cons d ds ih =>
    by_cases hd : d < 0
    · have hd1 : ¬ 0 ≤ d := by omega
      simp [List.countP_cons, hd, hd1, List.filter_cons, ih, pow_succ]
      ring
    · have hd1 : 0 ≤ d := by omega
      simp [List.countP_cons, hd, hd1, List.filter_cons, ih]
      ring

/-- The return value of `_fix_unknown_dimension` for every requested shape, in terms of the
product `W` that the function really holds in `s_known` (the wrapped product of the
non-negative entries): it is -1 exactly when there is more than one negative entry, or one
negative entry and `W` is zero or does not divide the source element count, or no negative
entry and `W` differs from the source element count; otherwise it is 0. -/
theorem fix_unknown_dimension_return_value (dimensions : List Int) (s_original : Int) :
    ((_fix_unknown_dimension dimensions s_original).1 = -1 ↔
      (1 < dimensions.countP (fun d => decide (d < 0)) ∨
       (dimensions.countP (fun d => decide (d < 0)) = 1 ∧
         (wrapped_product 1 dimensions = 0 ∨ ¬ wrapped_product 1 dimensions ∣ s_original)) ∨
       (dimensions.countP (fun d => decide (d < 0)) = 0 ∧
         wrapped_product 1 dimensions ≠ s_original))) ∧
    ((_fix_unknown_dimension dimensions s_original).1 = -1 ∨
      (_fix_unknown_dimension dimensions s_original).1 = 0) := by
  refine ⟨?_, ?_⟩
  · unfold _fix_unknown_dimension
    rw [scan_dimensions_unknown dimensions 0 1 le_rfl]
    rcases Nat.lt_trichotomy (dimensions.countP (fun d => decide (d < 0))) 1 with h | h | h
    · have h0 : dimensions.countP (fun d => decide (d < 0)) = 0 := by omega
      simp only [h0, if_true]
      by_cases hs : s_original = wrapped_product 1 dimensions
      · simp [hs]
      · have hs1 : ¬ wrapped_product 1 dimensions = s_original := fun h => hs h.symm
        simp [hs, hs1]
    · simp only [h]
      by_cases hz : wrapped_product 1 dimensions = 0
      · simp [hz]
      · by_cases hdiv : wrapped_product 1 dimensions ∣ s_original
        · simp [hz, hdiv, Int.tmod_eq_zero_of_dvd hdiv]
        · have hm : Int.tmod s_original (wrapped_product 1 dimensions) ≠ 0 :=
            fun hm => hdiv (Int.dvd_of_tmod_eq_zero hm)
          simp [hz, hdiv, hm]
    · have h2 : dimensions.countP (fun d => decide (d < 0)) ≠ 0 := by omega
      have h3 : dimensions.countP (fun d => decide (d < 0)) ≠ 1 := by omega
      simp [h2, h3, h]
  · unfold _fix_unknown_dimension
    split
    · simp
    · split_ifs <;> simp

/-- C5, counterexamples. The requested shape `(-1, 4294967297, 4294967295)` against 6
elements: the product of the other entries is `2^64 - 1`, which does not divide 6, and the
function returns 0, writing -6 (`s_known` holds -1). The requested shape
`(4294967296, 4294967296)` against 0 elements: there is no negative entry, the product
`2^64` differs from 0, and the function returns 0 (`s_known` holds 0). -/
theorem fix_unknown_dimension_accepts_wrapped_product :
    _fix_unknown_dimension [-1, 4294967297, 4294967295] 6 =
      (0, [-6, 4294967297, 4294967295]) ∧
    ([4294967297, 4294967295] : List Int).prod = 2 ^ 64 - 1 ∧
    ¬ (([4294967297, 4294967295] : List Int).prod ∣ 6) ∧
    wrapped_product 1 [-1, 4294967297, 4294967295] = -1 ∧
    _fix_unknown_dimension [4294967296, 4294967296] 0 = (0, [4294967296, 4294967296]) ∧
    ([4294967296, 4294967296] : List Int).prod ≠ 0 ∧
    wrapped_product 1 [4294967296, 4294967296] = 0 := by
  refine ⟨by decide, by decide, ?_, by decide, by decide, by decide, by decide⟩
  intro h
  have : (([4294967297, 4294967295] : List Int).prod : Int) ≤ 6 := Int.le_of_dvd (by decide) h
  revert this
  decide

/-- C5, amended. Take a requested shape and, in case it has at most one negative entry, let
the product of its non-negative entries be below `2^63`, so that `s_known` does not wrap.
Then `_fix_unknown_dimension` returns -1 exactly when the requested shape has more than one
negative entry, or one negative entry and a product of the other entries that is zero or
does not divide the source element count, or no negative entry and a product different from
the source element count; in every other case it returns 0. -/
theorem fix_unknown_dimension_fails_iff (dimensions : List Int) (s_original : Int)
    (hfit : dimensions.countP (fun d => decide (d < 0)) ≤ 1 →
      (dimensions.filter (fun d => decide (0 ≤ d))).prod < 9223372036854775808) :
    ((_fix_unknown_dimension dimensions s_original).1 = -1 ↔
      (1 < dimensions.countP (fun d => decide (d < 0)) ∨
       (dimensions.countP (fun d => decide (d < 0)) = 1 ∧
         ((dimensions.filter (fun d => decide (0 ≤ d))).prod = 0 ∨
          ¬ (dimensions.filter (fun d => decide (0 ≤ d))).prod ∣ s_original)) ∨
       (dimensions.countP (fun d => decide (d < 0)) = 0 ∧ dimensions.prod ≠ s_original))) ∧
    ((_fix_unknown_dimension dimensions s_original).1 = -1 ∨
      (_fix_unknown_dimension dimensions s_original).1 = 0) := by
  obtain ⟨h1, h2⟩ := fix_unknown_dimension_return_value dimensions s_original
  refine ⟨?_, h2⟩
  by_cases hc : dimensions.countP (fun d => decide (d < 0)) ≤ 1
  · have hW : wrapped_product 1 dimensions =
        (dimensions.filter (fun d => decide (0 ≤ d))).prod :=
      wrapped_product_fits dimensions (hfit hc)
    rw [hW] at h1
    refine h1.trans ?_
    constructor
    · rintro (h | h | ⟨h0, h⟩)
      · exact Or.inl h
      · exact Or.inr (Or.inl h)
      · rw [filter_nonneg_of_countP_neg_zero dimensions h0] at h
        exact Or.inr (Or.inr ⟨h0, h⟩)
    · rintro (h | h | ⟨h0, h⟩)
      · exact Or.inl h
      · exact Or.inr (Or.inl h)
      · refine Or.inr (Or.inr ⟨h0, ?_⟩)
        rw [filter_nonneg_of_countP_neg_zero dimensions h0]
        exact h
  · have hgt : 1 < dimensions.countP (fun d => decide (d < 0)) := by omega
    exact ⟨fun _ => Or.inl hgt, fun _ => h1.mpr (Or.inl hgt)⟩

/-- C5, amended, on examples: requesting `(-1, 5)` against 12 elements fails, as do
`(-1, -1)` and `(3, 5)`; requesting `(-1, 3)` does not. -/
theorem fix_unknown_dimension_fails_iff_witness :
    (_fix_unknown_dimension [-1, 5] 12).1 = -1 ∧
    (_fix_unknown_dimension [-1, -1] 12).1 = -1 ∧
    (_fix_unknown_dimension [3, 5] 12).1 = -1 ∧
    (_fix_unknown_dimension [-1, 3] 12).1 = 0 ∧
    ((_fix_unknown_dimension [-1, 5] 12).1 = -1 ↔
      (1 < ([-1, 5] : List Int).countP (fun d => decide (d < 0)) ∨
       (([-1, 5] : List Int).countP (fun d => decide (d < 0)) = 1 ∧
         ((([-1, 5] : List Int).filter (fun d => decide (0 ≤ d))).prod = 0 ∨
          ¬ (([-1, 5] : List Int).filter (fun d => decide (0 ≤ d))).prod ∣ 12)) ∨
       (([-1, 5] : List Int).countP (fun d => decide (d < 0)) = 0 ∧
         ([-1, 5] : List Int).prod ≠ 12))) :=
  ⟨by decide, by decide, by decide, by decide,
    (fix_unknown_dimension_fails_iff [-1, 5] 12 (fun _ => by decide)).1⟩

/-- C4, counterexample. The requested shape `(-1, 4294967296, 4294967296)` against 0
elements has one negative entry, and the product `2^64` of the other entries is not zero
and divides 0; the function returns -1 and leaves the shape as it was, because `s_known`
holds 0. -/
theorem fix_unknown_dimension_refuses_wrapped_zero :
    _fix_unknown_dimension [-1, 4294967296, 4294967296] 0 =
      (-1, [-1, 4294967296, 4294967296]) ∧
    ([-1, 4294967296, 4294967296] : List Int).countP (fun d => decide (d < 0)) = 1 ∧
    ([4294967296, 4294967296] : List Int).prod = 2 ^ 64 ∧
    ([4294967296, 4294967296] : List Int).prod ≠ 0 ∧
    ([4294967296, 4294967296] : List Int).prod ∣ 0 ∧
    wrapped_product 1 [-1, 4294967296, 4294967296] = 0 := by
  refine ⟨by decide, by decide, by decide, by decide, dvd_zero _, by decide⟩

/-- C4, amended. For a requested shape with exactly one negative entry whose other entries
have a non-zero product `P` below `2^63`, so that `s_known` does not wrap, with `P` dividing
the source element count `S ≥ 0`, `_fix_unknown_dimension` returns 0 and leaves the shape
with the negative entry replaced by `S / P` and every other entry unchanged; the resulting
shape has no negative entry and its product is `S`. -/
theorem fix_unknown_dimension_resolves (dimensions : List Int) (s_original : Int)
    (hS : 0 ≤ s_original)
    (hone : dimensions.countP (fun d => decide (d < 0)) = 1)
    (hP : (dimensions.filter (fun d => decide (0 ≤ d))).prod ≠ 0)
    (hfit : (dimensions.filter (fun d => decide (0 ≤ d))).prod < 9223372036854775808)
    (hdvd : (dimensions.filter (fun d => decide (0 ≤ d))).prod ∣ s_original) :
    _fix_unknown_dimension dimensions s_original =
      (0, dimensions.map (fun d =>
        if d < 0 then s_original / (dimensions.filter (fun d => decide (0 ≤ d))).prod else d)) ∧
    (∀ d ∈ (_fix_unknown_dimension dimensions s_original).2, 0 ≤ d) ∧
    (_fix_unknown_dimension dimensions s_original).2.prod = s_original := by
  have hPnn : 0 ≤ (dimensions.filter (fun d => decide (0 ≤ d))).prod := by
    apply List.prod_nonneg
    intro a ha
    simpa using (List.mem_filter.mp ha).2
  have hW : wrapped_product 1 dimensions =
      (dimensions.filter (fun d => decide (0 ≤ d))).prod := wrapped_product_fits dimensions hfit
  have hq : 0 ≤ s_original / (dimensions.filter (fun d => decide (0 ≤ d))).prod :=
    Int.ediv_nonneg hS hPnn
  have heq : _fix_unknown_dimension dimensions s_original =
      (0, dimensions.map (fun d =>
        if d < 0 then s_original / (dimensions.filter (fun d => decide (0 ≤ d))).prod
        else d)) := by
    unfold _fix_unknown_dimension
    rw [scan_dimensions_unknown dimensions 0 1 le_rfl, hW]
    simp only [hone]
    simp [hP, Int.tmod_eq_zero_of_dvd hdvd, Int.tdiv_eq_ediv hS hPnn,
      set_findIdx_neg dimensions _ hone]
  refine ⟨heq, ?_, ?_⟩
  · rw [heq]
    intro d hd
    simp only [List.mem_map] at hd
    obtain ⟨a, _, rfl⟩ := hd
    split_ifs with h
    · exact hq
    · omega
  · rw [heq]
    simp only
    rw [prod_map_replace_neg, hone, pow_one]
    exact Int.ediv_mul_cancel hdvd

/-- C4, amended, at the shape `(-1, 3)` against 12 elements: the result is `(4, 3)`. -/
theorem fix_unknown_dimension_resolves_witness :
    _fix_unknown_dimension [-1, 3] 12 = (0, [4, 3]) ∧
    (∀ d ∈ (_fix_unknown_dimension [-1, 3] 12).2, 0 ≤ d) ∧
    (_fix_unknown_dimension [-1, 3] 12).2.prod = 12 :=
  fix_unknown_dimension_resolves [-1, 3] 12 (by decide) (by decide) (by decide) (by decide)
    (by decide)

/-! ## `PyArray_Transpose` -/

/-- The loop over the axes succeeds exactly when every normalised axis is in range and none
is repeated, and it then yields the normalised axes in order. The invariant: an entry of
`reverse_permutation` is -1 exactly when its axis has not been used. -/
theorem check_axes_eq (n : Nat) (axes : List Int) (i : Int) (rev perm : List Int)
    (hi : 0 ≤ i) (hlen : rev.length = n)
    (hinv : ∀ k : Nat, k < n → (rev[k]? = some (-1) ↔ (k : Int) ∉ perm)) :
    check_axes n axes i rev perm =
      if (∀ a ∈ axes, 0 ≤ normalize_axis n a ∧ normalize_axis n a < n) ∧
          (axes.map (normalize_axis n)).Nodup ∧
          (∀ a ∈ axes, normalize_axis n a ∉ perm) then
        some (perm ++ axes.map (normalize_axis n))
      else none := by
  induction axes generalizing i rev perm with
  | nil => simp [check_axes]
  | cons a axes ih =>
    unfold check_axes
    simp only []
    by_cases hr : normalize_axis n a < 0 ∨ normalize_axis n a ≥ n
    · rw [if_pos hr, if_neg]
      rintro ⟨h, -, -⟩
      have := h a (List.mem_cons_self _ _)
      omega
    · rw [if_neg hr]
      have hr0 : 0 ≤ normalize_axis n a := by omega
      have hr1 : normalize_axis n a < n := by omega
      have hk : (normalize_axis n a).toNat < n := by omega
      have hcast : (((normalize_axis n a).toNat : Nat) : Int) = normalize_axis n a :=
        Int.toNat_of_nonneg hr0
      by_cases hused : rev[(normalize_axis n a).toNat]? = some (-1)
      · rw [if_neg (not_not.mpr hused)]
        have hnot : normalize_axis n a ∉ perm := by
          have := (hinv _ hk).mp hused
          rwa [hcast] at this
        have hi1 : 0 ≤ i + 1 := by omega
        rw [ih (i + 1) (rev.set (normalize_axis n a).toNat i) (perm ++ [normalize_axis n a]) hi1
          (by simpa using hlen)]
        · by_cases hc : (∀ b ∈ axes, 0 ≤ normalize_axis n b ∧ normalize_axis n b < n) ∧
              (axes.map (normalize_axis n)).Nodup ∧
              (∀ b ∈ axes, normalize_axis n b ∉ perm ++ [normalize_axis n a])
          · rw [if_pos hc, if_pos]
            · simp
            · obtain ⟨h1, h2, h3⟩ := hc
              refine ⟨?_, ?_, ?_⟩
              · intro b hb
                rcases List.mem_cons.mp hb with rfl | hb
                · exact ⟨hr0, hr1⟩
                · exact h1 b hb
              · rw [List.map_cons, List.nodup_cons]
                refine ⟨?_, h2⟩
                intro hmem
                obtain ⟨b, hb, hbe⟩ := List.mem_map.mp hmem
                exact h3 b hb (by simp [hbe])
              · intro b hb
                rcases List.mem_cons.mp hb with rfl | hb
                · exact hnot
                · intro hbp
                  exact h3 b hb (by simp [hbp])
          · rw [if_neg hc, if_neg]
            rintro ⟨h1, h2, h3⟩
            apply hc
            rw [List.map_cons, List.nodup_cons] at h2
            refine ⟨fun b hb => h1 b (List.mem_cons_of_mem _ hb), h2.2, ?_⟩
            intro b hb hbp
            rcases List.mem_append.mp hbp with hbp | hbp
            · exact h3 b (List.mem_cons_of_mem _ hb) hbp
            · apply h2.1
              rw [List.mem_singleton] at hbp
              rw [← hbp]
              exact List.mem_map_of_mem _ hb
        · intro k hkn
          rw [List.getElem?_set]
          by_cases hkk : (normalize_axis n a).toNat = k
          · have hlt : (normalize_axis n a).toNat < rev.length := by omega
            rw [if_pos hkk, if_pos hlt]
            have hik : (k : Int) = normalize_axis n a := by rw [← hkk, hcast]
            constructor
            · intro h
              have : i = -1 := by simpa using h
              omega
            · intro h
              exact absurd (by simp [hik]) h
          · rw [if_neg hkk, hinv k hkn]
            have hne : (k : Int) ≠ normalize_axis n a := by
              intro h
              apply hkk
              rw [← h]
              simp
            simp [hne]
      · rw [if_pos hused, if_neg]
        rintro ⟨-, -, h⟩
        apply h a (List.mem_cons_self _ _)
        by_contra hnot
        apply hused
        apply (hinv _ hk).mpr
        rwa [hcast]


/-- The permutation applied for an explicit axes list. -/
theorem transpose_permutation_some (n : Nat) (axes : List Int) :
    transpose_permutation n (some axes) =
      if axes.length = n ∧ (∀ a ∈ axes, 0 ≤ normalize_axis n a ∧ normalize_axis n a < n) ∧
          (axes.map (normalize_axis n)).Nodup then
        some (axes.map (normalize_axis n))
      else none := by
  simp only [transpose_permutation]
  by_cases hl : axes.length = n
  · rw [if_neg (not_not.mpr hl),
      check_axes_eq n axes 0 (List.replicate n (-1)) [] le_rfl (by simp)]
    · by_cases hc : (∀ a ∈ axes, 0 ≤ normalize_axis n a ∧ normalize_axis n a < n) ∧
          (axes.map (normalize_axis n)).Nodup
      · rw [if_pos ⟨hc.1, hc.2, by simp⟩, if_pos ⟨hl, hc⟩]
        simp
      · rw [if_neg (fun h => hc ⟨h.1, h.2.1⟩), if_neg (fun h => hc h.2)]
    · intro k hk
      simp [hk]
  · rw [if_pos hl, if_neg (fun h => hl h.1)]

/-- A list of `n` integers is a bijection on `[0, n)` (a rearrangement of `0, ..., n-1`)
exactly when its entries are in range and pairwise distinct. -/
theorem perm_range_iff (n : Nat) (l : List Int) (hl : l.length = n) :
    l.Perm ((List.range n).map (fun i : Nat => (i : Int))) ↔
      (∀ a ∈ l, 0 ≤ a ∧ a < n) ∧ l.Nodup := by
  have hnd : ((List.range n).map (fun i : Nat => (i : Int))).Nodup :=
    (List.nodup_range n).map (fun a b h => by simpa using h)
  constructor
  · intro h
    refine ⟨?_, h.nodup_iff.mpr hnd⟩
    intro a ha
    have := h.mem_iff.mp ha
    simp only [List.mem_map, List.mem_range] at this
    obtain ⟨k, hk, rfl⟩ := this
    omega
  · rintro ⟨hr, hn⟩
    have hsub : l ⊆ (List.range n).map (fun i : Nat => (i : Int)) := by
      intro a ha
      obtain ⟨h0, h1⟩ := hr a ha
      simp only [List.mem_map, List.mem_range]
      exact ⟨a.toNat, by omega, by omega⟩
    exact (List.subperm_of_subset hn hsub).perm_of_length_le (by simp [hl])

/-- C6. `PyArray_Transpose` with an explicit axes list returns a result exactly when the
list has `ndim` entries and the entries, after `ndim` is added to each negative one, are a
bijection on `[0, ndim)`: every entry in range and no axis repeated. Otherwise it returns
`NULL`, and no result. -/
theorem transpose_succeeds_iff (ap : PyArrayObject) (axes : List Int) :
    ((PyArray_Transpose ap (some axes)).isSome ↔
      axes.length = PyArray_NDIM ap ∧
      (axes.map (normalize_axis (PyArray_NDIM ap))).Perm
        ((List.range (PyArray_NDIM ap)).map (fun i : Nat => (i : Int)))) ∧
    ((PyArray_Transpose ap (some axes)).isSome ↔
      axes.length = PyArray_NDIM ap ∧
      (∀ a ∈ axes, 0 ≤ normalize_axis (PyArray_NDIM ap) a ∧
        normalize_axis (PyArray_NDIM ap) a < PyArray_NDIM ap) ∧
      (axes.map (normalize_axis (PyArray_NDIM ap))).Nodup) ∧
    (¬ (axes.length = PyArray_NDIM ap ∧
        (axes.map (normalize_axis (PyArray_NDIM ap))).Perm
          ((List.range (PyArray_NDIM ap)).map (fun i : Nat => (i : Int)))) →
      PyArray_Transpose ap (some axes) = none) := by
  have key : (PyArray_Transpose ap (some axes)).isSome ↔
      axes.length = PyArray_NDIM ap ∧
      (∀ a ∈ axes, 0 ≤ normalize_axis (PyArray_NDIM ap) a ∧
        normalize_axis (PyArray_NDIM ap) a < PyArray_NDIM ap) ∧
      (axes.map (normalize_axis (PyArray_NDIM ap))).Nodup := by
    unfold PyArray_Transpose
    rw [transpose_permutation_some]
    split_ifs with h
    · simpa using h
    · simpa using h
  have key2 : (PyArray_Transpose ap (some axes)).isSome ↔
      axes.length = PyArray_NDIM ap ∧
      (axes.map (normalize_axis (PyArray_NDIM ap))).Perm
        ((List.range (PyArray_NDIM ap)).map (fun i : Nat => (i : Int))) := by
    rw [key]
    constructor
    · rintro ⟨hl, hr, hn⟩
      refine ⟨hl, (perm_range_iff _ _ (by simpa using hl)).mpr ⟨?_, hn⟩⟩
      intro a ha
      obtain ⟨b, hb, rfl⟩ := List.mem_map.mp ha
      exact hr b hb
    · rintro ⟨hl, hp⟩
      obtain ⟨hr, hn⟩ := (perm_range_iff _ _ (by simpa using hl)).mp hp
      exact ⟨hl, fun a ha => hr _ (List.mem_map_of_mem _ ha), hn⟩
  refine ⟨key2, key, ?_⟩
  intro h
  rw [← key2] at h
  simpa using h


/-- An in-range read with a default is the read. -/
theorem getElem?_eq_some_getD (l : List Int) (k : Nat) (hk : k < l.length) :
    l[k]? = some (l.getD k 0) := by
  rw [List.getD_eq_getElem?_getD, List.getElem?_eq_getElem hk]
  rfl

/-- The header built by `PyArray_Transpose` from the permutation it applies. -/
theorem transpose_of_permutation (ap : PyArrayObject) (permute : Option (List Int))
    (p : List Int) (h : transpose_permutation (PyArray_NDIM ap) permute = some p) :
    PyArray_Transpose ap permute =
      some { dimensions := p.map (fun k => ap.dimensions.getD k.toNat 0)
             strides := p.map (fun k => ap.strides.getD k.toNat 0) } := by
  simp only [PyArray_Transpose, h]

/-- C7. For a layout and a valid permutation `p` (after normalisation of negative entries),
the result of `PyArray_Transpose` has `ndim` axes, with `shape[i] = source.shape[p[i]]` and
`strides[i] = source.strides[p[i]]` for every `i`; without a permutation, `p` is the full
reversal `p[i] = ndim-1-i`. -/
theorem transpose_shape_strides (ap : PyArrayObject)
    (hwf : ap.strides.length = ap.dimensions.length) :
    (∀ axes : List Int, axes.length = PyArray_NDIM ap →
      (axes.map (normalize_axis (PyArray_NDIM ap))).Perm
        ((List.range (PyArray_NDIM ap)).map (fun i : Nat => (i : Int))) →
      ∃ r, PyArray_Transpose ap (some axes) = some r ∧
        r.dimensions.length = PyArray_NDIM ap ∧ r.strides.length = PyArray_NDIM ap ∧
        ∀ (i : Nat) (a : Int), axes[i]? = some a →
          r.dimensions[i]? = ap.dimensions[(normalize_axis (PyArray_NDIM ap) a).toNat]? ∧
          r.strides[i]? = ap.strides[(normalize_axis (PyArray_NDIM ap) a).toNat]?) ∧
    (∃ r, PyArray_Transpose ap none = some r ∧
        r.dimensions.length = PyArray_NDIM ap ∧ r.strides.length = PyArray_NDIM ap ∧
        ∀ i : Nat, i < PyArray_NDIM ap →
          r.dimensions[i]? = ap.dimensions[PyArray_NDIM ap - 1 - i]? ∧
          r.strides[i]? = ap.strides[PyArray_NDIM ap - 1 - i]?) := by
  constructor
  · intro axes hl hp
    obtain ⟨hr, hn⟩ := (perm_range_iff _ _ (by simpa using hl)).mp hp
    have hperm : transpose_permutation (PyArray_NDIM ap) (some axes) =
        some (axes.map (normalize_axis (PyArray_NDIM ap))) := by
      rw [transpose_permutation_some, if_pos]
      exact ⟨hl, fun a ha => hr _ (List.mem_map_of_mem _ ha), hn⟩
    refine ⟨_, transpose_of_permutation ap _ _ hperm, by simpa using hl, by simpa using hl, ?_⟩
    intro i a hia
    have hmem : a ∈ axes := List.getElem?_mem hia
    obtain ⟨h0, h1⟩ := hr _ (List.mem_map_of_mem (normalize_axis (PyArray_NDIM ap)) hmem)
    have hk : (normalize_axis (PyArray_NDIM ap) a).toNat < ap.dimensions.length := by
      have : PyArray_NDIM ap = ap.dimensions.length := rfl
      omega
    constructor
    · simp only [List.getElem?_map, hia, Option.map_some']
      rw [getElem?_eq_some_getD _ _ hk]
    · simp only [List.getElem?_map, hia, Option.map_some']
      rw [getElem?_eq_some_getD _ _ (by omega)]
  · refine ⟨_, transpose_of_permutation ap none _ rfl,
      by simp [reversed_axes, PyArray_NDIM], by simp [reversed_axes, PyArray_NDIM], ?_⟩
    intro i hi
    unfold PyArray_NDIM at hi ⊢
    have hk : ap.dimensions.length - 1 - i < ap.dimensions.length := by omega
    have hc : ((ap.dimensions.length : Int) - 1 - (i : Int)).toNat =
        ap.dimensions.length - 1 - i := by omega
    constructor
    · simp only [reversed_axes, List.map_map, List.getElem?_map,
        List.getElem?_range hi, Option.map_some', Function.comp]
      rw [hc, getElem?_eq_some_getD _ _ hk]
    · simp only [reversed_axes, List.map_map, List.getElem?_map,
        List.getElem?_range hi, Option.map_some', Function.comp]
      rw [hc, getElem?_eq_some_getD _ _ (by omega)]

/-- C7 at the layout of shape `(2, 3, 4)` with strides `(12, 4, 1)`: the axes `(1, -1, 0)`
give shape `(3, 4, 2)` and strides `(4, 1, 12)`, the default gives the reversal. -/
theorem transpose_shape_strides_witness :
    (PyArray_Transpose ⟨[2, 3, 4], [12, 4, 1]⟩ (some [1, -1, 0]) =
        some ⟨[3, 4, 2], [4, 1, 12]⟩ ∧
      PyArray_Transpose ⟨[2, 3, 4], [12, 4, 1]⟩ none = some ⟨[4, 3, 2], [1, 4, 12]⟩) ∧
    (∃ r, PyArray_Transpose ⟨[2, 3, 4], [12, 4, 1]⟩ (some [1, -1, 0]) = some r ∧
        r.dimensions.length = 3 ∧ r.strides.length = 3 ∧
        ∀ (i : Nat) (a : Int), [1, -1, 0][i]? = some a →
          r.dimensions[i]? = [2, 3, 4][(normalize_axis 3 a).toNat]? ∧
          r.strides[i]? = [12, 4, 1][(normalize_axis 3 a).toNat]?) ∧
    (∃ r, PyArray_Transpose ⟨[2, 3, 4], [12, 4, 1]⟩ none = some r ∧
        r.dimensions.length = 3 ∧ r.strides.length = 3 ∧
        ∀ i : Nat, i < 3 →
          r.dimensions[i]? = [2, 3, 4][3 - 1 - i]? ∧
          r.strides[i]? = [12, 4, 1][3 - 1 - i]?) :=
  ⟨⟨by decide, by decide⟩,
    (transpose_shape_strides ⟨[2, 3, 4], [12, 4, 1]⟩ rfl).1 [1, -1, 0] rfl (by decide),
    (transpose_shape_strides ⟨[2, 3, 4], [12, 4, 1]⟩ rfl).2⟩


/-- The result of `PyArray_Transpose` for a valid explicit axes list. -/
theorem transpose_some_eq (ap : PyArrayObject) (axes : List Int)
    (hl : axes.length = PyArray_NDIM ap)
    (hr : ∀ a ∈ axes.map (normalize_axis (PyArray_NDIM ap)), 0 ≤ a ∧ a < PyArray_NDIM ap)
    (hn : (axes.map (normalize_axis (PyArray_NDIM ap))).Nodup) :
    PyArray_Transpose ap (some axes) =
      some { dimensions := (axes.map (normalize_axis (PyArray_NDIM ap))).map
               (fun k => ap.dimensions.getD k.toNat 0)
             strides := (axes.map (normalize_axis (PyArray_NDIM ap))).map
               (fun k => ap.strides.getD k.toNat 0) } := by
  apply transpose_of_permutation
  rw [transpose_permutation_some, if_pos]
  exact ⟨hl, fun a ha => hr _ (List.mem_map_of_mem _ ha), hn⟩

/-- Reading a list through a permutation `P` and then through a list `Q` that inverts `P`
gives the list back. -/
theorem map_getD_inverse (l : List Int) (P Q : List Int)
    (hQ : Q.length = l.length)
    (hinv : ∀ j : Nat, j < l.length → ∃ i : Nat, P[i]? = some (j : Int) ∧ Q[j]? = some (i : Int)) :
    Q.map (fun k => (P.map (fun k => l.getD k.toNat 0)).getD k.toNat 0) = l := by
  apply List.ext_getElem?
  intro j
  by_cases hj : j < l.length
  · obtain ⟨i, hi, hq⟩ := hinv j hj
    rw [List.getElem?_map, hq, Option.map_some', getElem?_eq_some_getD l j hj]
    congr 1
    rw [List.getD_eq_getElem?_getD, List.getElem?_map]
    simp [hi]
  · rw [List.getElem?_eq_none (by simpa using (by omega : Q.length ≤ j)),
      List.getElem?_eq_none (by omega)]

/-- The default permutation reverses a list. -/
theorem map_reversed_axes (l : List Int) :
    (reversed_axes l.length).map (fun k => l.getD k.toNat 0) = l.reverse := by
  apply List.ext_getElem?
  intro i
  by_cases hi : i < l.length
  · have hc : ((l.length : Int) - 1 - (i : Int)).toNat = l.length - 1 - i := by omega
    simp only [reversed_axes, List.map_map, List.getElem?_map, List.getElem?_range hi,
      Option.map_some', Function.comp]
    rw [hc, List.getElem?_reverse hi, getElem?_eq_some_getD l _ (by omega)]
  · rw [List.getElem?_eq_none (by simp [reversed_axes]; omega),
      List.getElem?_eq_none (by simp; omega)]

/-- C8. Transposing by a valid permutation `p` and then by an inverse permutation of `p`
(a list `q` of `ndim` axes with `q[p[i]] = i` after normalisation) gives back exactly the
original shape and strides; the default, reversing, transpose applied twice is the
identity on shape and strides. -/
theorem transpose_round_trip (ap : PyArrayObject)
    (hwf : ap.strides.length = ap.dimensions.length) :
    (∀ axes inv : List Int, axes.length = PyArray_NDIM ap →
      (axes.map (normalize_axis (PyArray_NDIM ap))).Perm
        ((List.range (PyArray_NDIM ap)).map (fun i : Nat => (i : Int))) →
      inv.length = PyArray_NDIM ap →
      (∀ (i : Nat) (a : Int), axes[i]? = some a →
        ∃ b, inv[(normalize_axis (PyArray_NDIM ap) a).toNat]? = some b ∧
          normalize_axis (PyArray_NDIM ap) b = (i : Int)) →
      ∃ r, PyArray_Transpose ap (some axes) = some r ∧
        PyArray_Transpose r (some inv) = some ap) ∧
    (∃ r, PyArray_Transpose ap none = some r ∧ PyArray_Transpose r none = some ap) := by
  constructor
  · intro axes inv hl hp hil hinv
    have hn0 : PyArray_NDIM ap = ap.dimensions.length := rfl
    obtain ⟨hr, hn⟩ := (perm_range_iff _ _ (by simpa using hl)).mp hp
    refine ⟨_, transpose_some_eq ap axes hl hr hn, ?_⟩
    generalize hP : axes.map (normalize_axis (PyArray_NDIM ap)) = P at hp hr hn
    have hPl : P.length = PyArray_NDIM ap := by rw [← hP]; simpa using hl
    -- every axis `j` sits at some position `i` of `P`, and `inv` sends `j` to `i`
    have hsurj : ∀ j : Nat, j < PyArray_NDIM ap →
        ∃ i : Nat, i < PyArray_NDIM ap ∧ P[i]? = some (j : Int) ∧
          (inv.map (normalize_axis (PyArray_NDIM ap)))[j]? = some (i : Int) := by
      intro j hj
      have hmem : (j : Int) ∈ P := by
        apply hp.mem_iff.mpr
        simp only [List.mem_map, List.mem_range]
        exact ⟨j, hj, rfl⟩
      obtain ⟨i, hi, hij⟩ := List.getElem_of_mem hmem
      have hPi : P[i]? = some (j : Int) := by rw [List.getElem?_eq_getElem hi, hij]
      refine ⟨i, by omega, hPi, ?_⟩
      rw [← hP, List.getElem?_map] at hPi
      cases ha : axes[i]? with
      | none => rw [ha] at hPi; simp at hPi
      | some a =>
        rw [ha] at hPi
        simp only [Option.map_some', Option.some.injEq] at hPi
        obtain ⟨b, hb, hbi⟩ := hinv i a ha
        rw [hPi] at hb
        simp only [Int.toNat_ofNat] at hb
        rw [List.getElem?_map, hb, Option.map_some', hbi]
    have hn1 : PyArray_NDIM
        { dimensions := P.map (fun k => ap.dimensions.getD k.toNat 0)
          strides := P.map (fun k => ap.strides.getD k.toNat 0) } = PyArray_NDIM ap := by
      show (P.map _).length = _
      rw [List.length_map, hPl]
    have hQr : ∀ a ∈ inv.map (normalize_axis (PyArray_NDIM ap)),
        0 ≤ a ∧ a < PyArray_NDIM ap := by
      intro y hy
      obtain ⟨j, hjl, hjy⟩ := List.getElem_of_mem hy
      have hj : j < PyArray_NDIM ap := by simpa [hil] using hjl
      obtain ⟨i, hi, -, hq⟩ := hsurj j hj
      rw [List.getElem?_eq_getElem hjl, hjy] at hq
      simp only [Option.some.injEq] at hq
      omega
    have hQn : (inv.map (normalize_axis (PyArray_NDIM ap))).Nodup := by
      rw [List.nodup_iff_getElem?_ne_getElem?]
      intro j1 j2 hlt hj2 heq
      have hj2n : j2 < PyArray_NDIM ap := by simpa [hil] using hj2
      obtain ⟨i1, -, hp1, hq1⟩ := hsurj j1 (by omega)
      obtain ⟨i2, -, hp2, hq2⟩ := hsurj j2 hj2n
      rw [hq1, hq2] at heq
      simp only [Option.some.injEq, Nat.cast_inj] at heq
      rw [heq, hp2] at hp1
      simp only [Option.some.injEq, Nat.cast_inj] at hp1
      omega
    rw [transpose_some_eq _ inv (by rw [hn1]; exact hil) (by rw [hn1]; exact hQr)
      (by rw [hn1]; exact hQn)]
    rw [hn1]
    simp only
    rw [map_getD_inverse ap.dimensions P _ (by simpa [← hn0] using hil),
      map_getD_inverse ap.strides P _ (by simpa [hwf, ← hn0] using hil)]
    · intro j hj
      obtain ⟨i, -, h1, h2⟩ := hsurj j (by omega)
      exact ⟨i, h1, h2⟩
    · intro j hj
      obtain ⟨i, -, h1, h2⟩ := hsurj j (by omega)
      exact ⟨i, h1, h2⟩
  · refine ⟨_, transpose_of_permutation ap none _ rfl, ?_⟩
    rw [transpose_of_permutation _ none _ rfl]
    have hn0 : PyArray_NDIM ap = ap.dimensions.length := rfl
    have hn1 : PyArray_NDIM
        { dimensions := (reversed_axes (PyArray_NDIM ap)).map
            (fun k => ap.dimensions.getD k.toNat 0)
          strides := (reversed_axes (PyArray_NDIM ap)).map
            (fun k => ap.strides.getD k.toNat 0) } = PyArray_NDIM ap := by
      simp [PyArray_NDIM, reversed_axes]
    rw [hn1]
    simp only
    have h1 : (reversed_axes (PyArray_NDIM ap)).map (fun k => ap.dimensions.getD k.toNat 0) =
        ap.dimensions.reverse := by rw [hn0]; exact map_reversed_axes _
    have h2 : (reversed_axes (PyArray_NDIM ap)).map (fun k => ap.strides.getD k.toNat 0) =
        ap.strides.reverse := by rw [hn0, ← hwf]; exact map_reversed_axes _
    rw [h1, h2]
    have h3 := map_reversed_axes ap.dimensions.reverse
    have h4 := map_reversed_axes ap.strides.reverse
    simp only [List.length_reverse, List.reverse_reverse] at h3 h4
    rw [hn0, h3]
    rw [← hwf, h4]

/-- C8 at the layout of shape `(2, 3, 4)` with strides `(12, 4, 1)`: the axes `(1, -1, 0)`
followed by their inverse `(2, 0, 1)`, and the default transpose twice. -/
theorem transpose_round_trip_witness :
    (∃ r, PyArray_Transpose ⟨[2, 3, 4], [12, 4, 1]⟩ (some [1, -1, 0]) = some r ∧
      PyArray_Transpose r (some [2, 0, 1]) = some ⟨[2, 3, 4], [12, 4, 1]⟩) ∧
    (∃ r, PyArray_Transpose ⟨[2, 3, 4], [12, 4, 1]⟩ none = some r ∧
      PyArray_Transpose r none = some ⟨[2, 3, 4], [12, 4, 1]⟩) :=
  ⟨(transpose_round_trip ⟨[2, 3, 4], [12, 4, 1]⟩ rfl).1 [1, -1, 0] [2, 0, 1] rfl (by decide) rfl
      (by
        intro i a h
        rcases i with _ | _ | _ | i
        · obtain rfl : (1 : Int) = a := by simpa using h
          exact ⟨0, rfl, rfl⟩
        · obtain rfl : (-1 : Int) = a := by simpa using h
          exact ⟨1, rfl, rfl⟩
        · obtain rfl : (0 : Int) = a := by simpa using h
          exact ⟨2, rfl, rfl⟩
        · simp at h),
    (transpose_round_trip ⟨[2, 3, 4], [12, 4, 1]⟩ rfl).2⟩


/-! ## `PyArray_SwapAxes` -/

/-- The axes list that `PyArray_SwapAxes` hands to `PyArray_Transpose` is valid. -/
theorem swap_axes_valid (n : Nat) (b1 b2 : Int) (h1 : 0 ≤ b1 ∧ b1 < n) (h2 : 0 ≤ b2 ∧ b2 < n) :
    ((List.range n).map (fun i : Nat =>
        if (i : Int) = b1 then b2 else if (i : Int) = b2 then b1 else (i : Int))).map
        (normalize_axis n) =
      (List.range n).map (fun i : Nat =>
        if (i : Int) = b1 then b2 else if (i : Int) = b2 then b1 else (i : Int)) ∧
    (∀ a ∈ (List.range n).map (fun i : Nat =>
        if (i : Int) = b1 then b2 else if (i : Int) = b2 then b1 else (i : Int)),
      0 ≤ a ∧ a < n) ∧
    ((List.range n).map (fun i : Nat =>
        if (i : Int) = b1 then b2 else if (i : Int) = b2 then b1 else (i : Int))).Nodup := by
  have hrange : ∀ a ∈ (List.range n).map (fun i : Nat =>
      if (i : Int) = b1 then b2 else if (i : Int) = b2 then b1 else (i : Int)),
      0 ≤ a ∧ a < n := by
    intro a ha
    simp only [List.mem_map, List.mem_range] at ha
    obtain ⟨i, hi, rfl⟩ := ha
    split_ifs <;> omega
  refine ⟨?_, hrange, ?_⟩
  · conv_rhs => rw [← List.map_id ((List.range n).map _)]
    apply List.map_congr_left
    intro a ha
    have := hrange a ha
    simp [normalize_axis, not_lt.mpr this.1]
  · apply (List.nodup_range n).map_on
    intro x _ y _ hxy
    simp only at hxy
    split_ifs at hxy <;> omega

/-- C9. `PyArray_SwapAxes` returns the array itself when `a1 == a2` or `ndim <= 1`, whatever
`a1` and `a2` are. Otherwise, for `a1` and `a2` in `[-ndim, ndim)`, the result has the
shape and the strides of the source with the entries at the normalised positions of `a1`
and `a2` exchanged and every other entry unchanged, and for an axis outside `[-ndim, ndim)`
the call returns `NULL`. -/
theorem swapaxes_spec (ap : PyArrayObject) (hwf : ap.strides.length = ap.dimensions.length)
    (a1 a2 : Int) :
    ((a1 = a2 ∨ PyArray_NDIM ap ≤ 1) → PyArray_SwapAxes ap a1 a2 = some ap) ∧
    (a1 ≠ a2 → 1 < PyArray_NDIM ap →
      -(PyArray_NDIM ap : Int) ≤ a1 → a1 < PyArray_NDIM ap →
      -(PyArray_NDIM ap : Int) ≤ a2 → a2 < PyArray_NDIM ap →
      ∃ r, PyArray_SwapAxes ap a1 a2 = some r ∧
        r.dimensions.length = PyArray_NDIM ap ∧ r.strides.length = PyArray_NDIM ap ∧
        r.dimensions[(normalize_axis (PyArray_NDIM ap) a1).toNat]? =
          ap.dimensions[(normalize_axis (PyArray_NDIM ap) a2).toNat]? ∧
        r.dimensions[(normalize_axis (PyArray_NDIM ap) a2).toNat]? =
          ap.dimensions[(normalize_axis (PyArray_NDIM ap) a1).toNat]? ∧
        r.strides[(normalize_axis (PyArray_NDIM ap) a1).toNat]? =
          ap.strides[(normalize_axis (PyArray_NDIM ap) a2).toNat]? ∧
        r.strides[(normalize_axis (PyArray_NDIM ap) a2).toNat]? =
          ap.strides[(normalize_axis (PyArray_NDIM ap) a1).toNat]? ∧
        ∀ i : Nat, i ≠ (normalize_axis (PyArray_NDIM ap) a1).toNat →
          i ≠ (normalize_axis (PyArray_NDIM ap) a2).toNat →
          r.dimensions[i]? = ap.dimensions[i]? ∧ r.strides[i]? = ap.strides[i]?) ∧
    (a1 ≠ a2 → 1 < PyArray_NDIM ap →
      (a1 < -(PyArray_NDIM ap : Int) ∨ (PyArray_NDIM ap : Int) ≤ a1 ∨
        a2 < -(PyArray_NDIM ap : Int) ∨ (PyArray_NDIM ap : Int) ≤ a2) →
      PyArray_SwapAxes ap a1 a2 = none) := by
  have hn0 : PyArray_NDIM ap = ap.dimensions.length := rfl
  refine ⟨?_, ?_, ?_⟩
  · rintro (h | h)
    · simp [PyArray_SwapAxes, h]
    · have : ((PyArray_NDIM ap : Nat) : Int) ≤ 1 := by omega
      simp [PyArray_SwapAxes, this]
  · intro hne hn h1l h1u h2l h2u
    have hn' : ¬ ((PyArray_NDIM ap : Nat) : Int) ≤ 1 := by omega
    have e1 : (if a1 < 0 then a1 + (PyArray_NDIM ap : Int) else a1) =
        normalize_axis (PyArray_NDIM ap) a1 := by
      unfold normalize_axis; split_ifs <;> omega
    have e2 : (if a2 < 0 then a2 + (PyArray_NDIM ap : Int) else a2) =
        normalize_axis (PyArray_NDIM ap) a2 := by
      unfold normalize_axis; split_ifs <;> omega
    have hb1 : 0 ≤ normalize_axis (PyArray_NDIM ap) a1 ∧
        normalize_axis (PyArray_NDIM ap) a1 < PyArray_NDIM ap := by
      unfold normalize_axis; split_ifs <;> omega
    have hb2 : 0 ≤ normalize_axis (PyArray_NDIM ap) a2 ∧
        normalize_axis (PyArray_NDIM ap) a2 < PyArray_NDIM ap := by
      unfold normalize_axis; split_ifs <;> omega
    generalize normalize_axis (PyArray_NDIM ap) a1 = b1 at e1 hb1 ⊢
    generalize normalize_axis (PyArray_NDIM ap) a2 = b2 at e2 hb2 ⊢
    obtain ⟨hmap, hrange, hnodup⟩ := swap_axes_valid (PyArray_NDIM ap) b1 b2 hb1 hb2
    have hsw : PyArray_SwapAxes ap a1 a2 = PyArray_Transpose ap (some
        ((List.range (PyArray_NDIM ap)).map (fun i : Nat =>
          if (i : Int) = b1 then b2 else if (i : Int) = b2 then b1 else (i : Int)))) := by
      unfold PyArray_SwapAxes
      rw [if_neg hne]
      simp only [e1, e2]
      rw [if_neg hn', if_neg (by omega), if_neg (by omega)]
    rw [hsw, transpose_some_eq ap _ (by simp) (by rw [hmap]; exact hrange)
      (by rw [hmap]; exact hnodup), hmap]
    have hget : ∀ (l : List Int) (i : Nat), l.length = PyArray_NDIM ap → i < PyArray_NDIM ap →
        (((List.range (PyArray_NDIM ap)).map (fun i : Nat =>
          if (i : Int) = b1 then b2 else if (i : Int) = b2 then b1 else (i : Int))).map
          (fun k => l.getD k.toNat 0))[i]? =
        l[(if (i : Int) = b1 then b2 else if (i : Int) = b2 then b1 else (i : Int)).toNat]? := by
      intro l i hl hi
      rw [List.map_map, List.getElem?_map, List.getElem?_range hi, Option.map_some',
        Function.comp, getElem?_eq_some_getD]
      split_ifs <;> omega
    refine ⟨_, rfl, by simp, by simp, ?_, ?_, ?_, ?_, ?_⟩
    · rw [hget _ _ hn0.symm (by omega), if_pos (by omega)]
    · rw [hget _ _ hn0.symm (by omega)]
      by_cases h : b2 = b1
      · rw [if_pos (by omega), h]
      · rw [if_neg (by omega), if_pos (by omega)]
    · rw [hget _ _ (by omega) (by omega), if_pos (by omega)]
    · rw [hget _ _ (by omega) (by omega)]
      by_cases h : b2 = b1
      · rw [if_pos (by omega), h]
      · rw [if_neg (by omega), if_pos (by omega)]
    · intro i hi1 hi2
      by_cases hi : i < PyArray_NDIM ap
      · rw [hget _ _ hn0.symm hi, hget _ _ (by omega) hi, if_neg (by omega), if_neg (by omega)]
        simp
      · constructor
        · rw [List.getElem?_eq_none, List.getElem?_eq_none]
          · omega
          · simp only [List.length_map, List.length_range]
            omega
        · rw [List.getElem?_eq_none, List.getElem?_eq_none]
          · omega
          · simp only [List.length_map, List.length_range]
            omega
  · intro hne hn hout
    have hn' : ¬ ((PyArray_NDIM ap : Nat) : Int) ≤ 1 := by omega
    unfold PyArray_SwapAxes
    rw [if_neg hne]
    simp only
    rw [if_neg hn']
    split_ifs <;> first | rfl | omega

/-- C9 at the layout of shape `(2, 3, 4)` with strides `(12, 4, 1)`: swapping the axes 0 and
-1 gives shape `(4, 3, 2)` and strides `(1, 4, 12)`; equal axes return the array; the axis 5
is refused. -/
theorem swapaxes_spec_witness :
    (PyArray_SwapAxes ⟨[2, 3, 4], [12, 4, 1]⟩ 0 (-1) = some ⟨[4, 3, 2], [1, 4, 12]⟩ ∧
      PyArray_SwapAxes ⟨[2, 3, 4], [12, 4, 1]⟩ 5 5 = some ⟨[2, 3, 4], [12, 4, 1]⟩ ∧
      PyArray_SwapAxes ⟨[2, 3, 4], [12, 4, 1]⟩ 5 1 = none) ∧
    (∃ r, PyArray_SwapAxes ⟨[2, 3, 4], [12, 4, 1]⟩ 0 (-1) = some r ∧
      r.dimensions.length = 3 ∧ r.strides.length = 3 ∧
      r.dimensions[(normalize_axis 3 0).toNat]? = [2, 3, 4][(normalize_axis 3 (-1)).toNat]? ∧
      r.dimensions[(normalize_axis 3 (-1)).toNat]? = [2, 3, 4][(normalize_axis 3 0).toNat]? ∧
      r.strides[(normalize_axis 3 0).toNat]? = [12, 4, 1][(normalize_axis 3 (-1)).toNat]? ∧
      r.strides[(normalize_axis 3 (-1)).toNat]? = [12, 4, 1][(normalize_axis 3 0).toNat]? ∧
      ∀ i : Nat, i ≠ (normalize_axis 3 0).toNat → i ≠ (normalize_axis 3 (-1)).toNat →
        r.dimensions[i]? = [2, 3, 4][i]? ∧ r.strides[i]? = [12, 4, 1][i]?) :=
  ⟨⟨by decide,
      (swapaxes_spec ⟨[2, 3, 4], [12, 4, 1]⟩ rfl 5 5).1 (Or.inl rfl),
      (swapaxes_spec ⟨[2, 3, 4], [12, 4, 1]⟩ rfl 5 1).2.2 (by decide) (by decide)
        (Or.inr (Or.inl (by decide)))⟩,
    (swapaxes_spec ⟨[2, 3, 4], [12, 4, 1]⟩ rfl 0 (-1)).2.1 (by decide) (by decide) (by decide)
      (by decide) (by decide) (by decide)⟩


/-! ## `PyArray_RemoveAxesInPlace` and `PyArray_SqueezeSelected` -/

/-- The prefix of a buffer up to and including a freshly written entry. -/
theorem take_set_succ (l : List Int) (k : Nat) (v : Int) (hk : k < l.length) :
    (l.set k v).take (k + 1) = l.take k ++ [v] := by
  induction l generalizing k with
  | nil => simp at hk
  | cons a l ih =>
    cases k with
    | zero => simp
    | succ k =>
      simp only [List.set_cons_succ, List.take_succ_cons, List.cons_append, List.cons.injEq,
        true_and]
      exact ih k (by simpa using hk)

/-- A read away from a written entry. -/
theorem getD_set_ne (l : List Int) (k i : Nat) (v : Int) (h : k ≠ i) :
    (l.set k v).getD i 0 = l.getD i 0 := by
  rw [List.getD_eq_getElem?_getD, List.getD_eq_getElem?_getD, List.getElem?_set, if_neg h]

/-- The in-place compression keeps, in order, the entries of the unflagged axes: after the
loop the first `idim_out` entries of `shape` and of `strides` are the entries that were
there before, followed by the entries of the unflagged axes among those scanned. -/
theorem compress_axes_spec (flags : List Bool) (n idim idim_out : Nat) (shape strides : List Int)
    (h1 : idim_out ≤ idim) (h2 : idim + n ≤ shape.length) (h3 : idim + n ≤ strides.length) :
    (compress_axes flags n idim idim_out shape strides).1 =
      idim_out + ((List.range' idim n).filter (fun i => !flags.getD i false)).length ∧
    (compress_axes flags n idim idim_out shape strides).2.1.take
        (compress_axes flags n idim idim_out shape strides).1 =
      shape.take idim_out ++
        ((List.range' idim n).filter (fun i => !flags.getD i false)).map
          (fun i => shape.getD i 0) ∧
    (compress_axes flags n idim idim_out shape strides).2.2.take
        (compress_axes flags n idim idim_out shape strides).1 =
      strides.take idim_out ++
        ((List.range' idim n).filter (fun i => !flags.getD i false)).map
          (fun i => strides.getD i 0) := by
  induction n generalizing idim idim_out shape strides with
  | zero => simp [compress_axes]
  | succ n ih =>
    by_cases hf : flags.getD idim false = true
    · have := ih (idim + 1) idim_out shape strides (by omega) (by omega) (by omega)
      simp only [compress_axes, hf, List.range'_succ, List.filter_cons, Bool.not_true,
        not_true_eq_false, if_false, Bool.false_eq_true]
      exact this
    · have hf' : flags.getD idim false = false := by simpa using hf
      obtain ⟨e1, e2, e3⟩ := ih (idim + 1) (idim_out + 1)
        (shape.set idim_out (shape.getD idim 0)) (strides.set idim_out (strides.getD idim 0))
        (by omega) (by simpa using (by omega : idim + 1 + n ≤ shape.length))
        (by simpa using (by omega : idim + 1 + n ≤ strides.length))
      have hkeep : ∀ (l : List Int) (v : Int),
          ((List.range' (idim + 1) n).filter (fun i => !flags.getD i false)).map
            (fun i => (l.set idim_out v).getD i 0) =
          ((List.range' (idim + 1) n).filter (fun i => !flags.getD i false)).map
            (fun i => l.getD i 0) := by
        intro l v
        apply List.map_congr_left
        intro i hi
        have := (List.mem_range'_1.mp (List.mem_filter.mp hi).1).1
        exact getD_set_ne l idim_out i v (by omega)
      simp only [compress_axes, hf', List.range'_succ, List.filter_cons]
      simp only [Bool.not_false, if_true, List.length_cons, List.map_cons, Bool.false_eq_true,
        not_false_eq_true]
      refine ⟨by rw [e1]; omega, ?_, ?_⟩
      · rw [e2, hkeep, take_set_succ _ _ _ (by omega)]
        simp
      · rw [e3, hkeep, take_set_succ _ _ _ (by omega)]
        simp

/-- The check of the flagged axes fails at a flagged axis of size different from 1, and
otherwise reports whether an axis is flagged. -/
theorem check_flagged_spec (shape : List Int) (axis_flags : List Bool) (n idim : Nat)
    (any_ones : Bool) :
    check_flagged shape axis_flags n idim any_ones =
      if (List.range' idim n).any (fun i => axis_flags.getD i false && shape.getD i 0 != 1) then
        none
      else some (any_ones || (List.range' idim n).any (fun i => axis_flags.getD i false)) := by
  induction n generalizing idim any_ones with
  | zero => simp [check_flagged]
  | succ n ih =>
    by_cases hf : axis_flags.getD idim false = true
    · by_cases hs : shape.getD idim 0 = 1
      · simp only [check_flagged, hf, hs, ih, List.range'_succ, List.any_cons, if_true,
          bne_self_eq_false, Bool.and_false, Bool.false_or, Bool.true_or, Bool.or_true]
      · have hs' : (shape.getD idim 0 != 1) = true := by simpa using hs
        simp only [check_flagged, hf, hs, hs', List.range'_succ, List.any_cons, if_true,
          if_false, Bool.and_self, Bool.true_or]
    · have hf' : axis_flags.getD idim false = false := by simpa using hf
      simp only [check_flagged, hf', ih, List.range'_succ, List.any_cons, Bool.false_and,
        Bool.false_or, Bool.false_eq_true, if_false]

/-- Reading every entry of a list in turn gives the list. -/
theorem map_getD_range (l : List Int) :
    (List.range l.length).map (fun i => l.getD i 0) = l := by
  apply List.ext_getElem?
  intro i
  by_cases hi : i < l.length
  · rw [List.getElem?_map, List.getElem?_range hi, Option.map_some',
      getElem?_eq_some_getD l i hi]
  · rw [List.getElem?_eq_none (by simp; omega), List.getElem?_eq_none (by omega)]


/-- C10. `PyArray_SqueezeSelected` returns `NULL` exactly when a flagged axis has a size
different from 1. When it succeeds, the shape and the strides of the result are the source's
entries at the unflagged axes, in their original order; when no axis is flagged the source
itself is returned. -/
theorem squeeze_selected_spec (self : PyArrayObject)
    (hwf : self.strides.length = self.dimensions.length) (axis_flags : List Bool) :
    (PyArray_SqueezeSelected self axis_flags = none ↔
      ∃ i : Nat, i < PyArray_NDIM self ∧ axis_flags.getD i false = true ∧
        self.dimensions.getD i 0 ≠ 1) ∧
    (∀ r, PyArray_SqueezeSelected self axis_flags = some r →
      r.dimensions =
        ((List.range (PyArray_NDIM self)).filter (fun i => !axis_flags.getD i false)).map
          (fun i => self.dimensions.getD i 0) ∧
      r.strides =
        ((List.range (PyArray_NDIM self)).filter (fun i => !axis_flags.getD i false)).map
          (fun i => self.strides.getD i 0)) ∧
    ((∀ i : Nat, i < PyArray_NDIM self → axis_flags.getD i false = false) →
      PyArray_SqueezeSelected self axis_flags = some self) := by
  have hn0 : PyArray_NDIM self = self.dimensions.length := rfl
  have hbad : (List.range' 0 (PyArray_NDIM self)).any
        (fun i => axis_flags.getD i false && self.dimensions.getD i 0 != 1) = true ↔
      ∃ i : Nat, i < PyArray_NDIM self ∧ axis_flags.getD i false = true ∧
        self.dimensions.getD i 0 ≠ 1 := by
    simp only [List.any_eq_true, List.mem_range'_1, Bool.and_eq_true, bne_iff_ne, ne_eq]
    constructor
    · rintro ⟨i, ⟨-, hi⟩, h1, h2⟩
      exact ⟨i, by omega, h1, h2⟩
    · rintro ⟨i, hi, h1, h2⟩
      exact ⟨i, ⟨by omega, by omega⟩, h1, h2⟩
  have hflag : (List.range' 0 (PyArray_NDIM self)).any (fun i => axis_flags.getD i false) = false ↔
      ∀ i : Nat, i < PyArray_NDIM self → axis_flags.getD i false = false := by
    simp only [List.any_eq_false, List.mem_range'_1, Bool.not_eq_true]
    constructor
    · intro h i hi
      exact h i ⟨by omega, by omega⟩
    · intro h i hi
      exact h i (by omega)
  have hsq : PyArray_SqueezeSelected self axis_flags =
      if (List.range' 0 (PyArray_NDIM self)).any
          (fun i => axis_flags.getD i false && self.dimensions.getD i 0 != 1) then none
      else if (List.range' 0 (PyArray_NDIM self)).any (fun i => axis_flags.getD i false) then
        some (PyArray_RemoveAxesInPlace self axis_flags)
      else some self := by
    unfold PyArray_SqueezeSelected
    rw [check_flagged_spec]
    split_ifs with h1 h2
    · rfl
    · simp only [h2, Bool.false_or]
    · have h2' : (List.range' 0 (PyArray_NDIM self)).any (fun i => axis_flags.getD i false) =
          false := by simpa using h2
      simp only [h2', Bool.false_or]
  -- the result when nothing is removed
  have hall : (∀ i : Nat, i < PyArray_NDIM self → axis_flags.getD i false = false) →
      (List.range (PyArray_NDIM self)).filter (fun i => !axis_flags.getD i false) =
        List.range (PyArray_NDIM self) := by
    intro h
    rw [List.filter_eq_self]
    intro i hi
    rw [h i (List.mem_range.mp hi)]
    rfl
  refine ⟨?_, ?_, ?_⟩
  · rw [hsq, ← hbad]
    by_cases h1 : (List.range' 0 (PyArray_NDIM self)).any
        (fun i => axis_flags.getD i false && self.dimensions.getD i 0 != 1) = true
    · rw [if_pos h1]
      exact ⟨fun _ => h1, fun _ => rfl⟩
    · rw [if_neg h1]
      constructor
      · intro h
        split_ifs at h
      · intro h
        exact absurd h h1
  · intro r hr
    rw [hsq] at hr
    split_ifs at hr with h1 h2
    · obtain rfl : PyArray_RemoveAxesInPlace self axis_flags = r := by simpa using hr
      obtain ⟨-, e2, e3⟩ := compress_axes_spec axis_flags (PyArray_NDIM self) 0 0
        self.dimensions self.strides le_rfl (by omega) (by omega)
      rw [List.range_eq_range']
      simp only [List.take_zero, List.nil_append] at e2 e3
      exact ⟨e2, e3⟩
    · obtain rfl : self = r := by simpa using hr
      have h2' : (List.range' 0 (PyArray_NDIM self)).any (fun i => axis_flags.getD i false) =
          false := by simpa using h2
      rw [hall (hflag.mp h2')]
      constructor
      · rw [hn0, map_getD_range]
      · rw [hn0, ← hwf, map_getD_range]
  · intro h
    rw [hsq, if_neg, if_neg]
    · rw [hflag.mpr h]
      simp
    · intro hb
      obtain ⟨i, hi, h1, -⟩ := hbad.mp hb
      rw [h i hi] at h1
      simp at h1

/-- C10 at the layout of shape `(2, 1, 4, 1)`: flagging the axes 1 and 3 leaves shape
`(2, 4)` and strides `(4, 1)`, flagging the axis 0 is refused. -/
theorem squeeze_selected_spec_witness :
    (PyArray_SqueezeSelected ⟨[2, 1, 4, 1], [4, 4, 1, 1]⟩ [false, true, false, true] =
        some ⟨[2, 4], [4, 1]⟩ ∧
      PyArray_SqueezeSelected ⟨[2, 1, 4, 1], [4, 4, 1, 1]⟩ [true, true, false, false] = none) ∧
    (([2, 4] : List Int) = ((List.range 4).filter (fun i => !([false, true, false, true].getD i false))).map
        (fun i => [2, 1, 4, 1].getD i 0) ∧
      ([4, 1] : List Int) = ((List.range 4).filter (fun i => !([false, true, false, true].getD i false))).map
        (fun i => [4, 4, 1, 1].getD i 0)) :=
  ⟨⟨by decide, by decide⟩,
    (squeeze_selected_spec ⟨[2, 1, 4, 1], [4, 4, 1, 1]⟩ rfl [false, true, false, true]).2.1
      ⟨[2, 4], [4, 1]⟩ (by decide)⟩


/-! ## `_attempt_nocopy_reshape` -/

/-- C3, the code at a target shape whose element count differs from the source's. The
source has shape `(6)`, the target shape `(4294967302)`: the products 6 and `2^32 + 6` differ,
the `int` variables `np` and `op` both hold 6, and the function returns 1. -/
theorem attempt_nocopy_reshape_accepts_different_sizes :
    _attempt_nocopy_reshape ⟨[6], [8]⟩ [4294967302] [0] false = some (1, [8]) ∧
    ([4294967302] : List Int).prod ≠ ([6] : List Int).prod := by
  decide

/-- C1, the code at a source of shape `(4294967298, 2)` with strides `(4, 2)` and the target
shape `(2, 4294967298)` in C order. Both shapes have `2^33 + 4` elements. The function
returns 1 with the strides `(4, 2)`; the element number `4294967298` is at byte offset 4 in
the new view and at byte offset `8589934596` in the source. -/
theorem attempt_nocopy_reshape_unsound_at_large_dims :
    _attempt_nocopy_reshape ⟨[4294967298, 2], [4, 2]⟩ [2, 4294967298] [0, 0] false =
      some (1, [4, 2]) ∧
    ([2, 4294967298] : List Int).prod = ([4294967298, 2] : List Int).prod ∧
    (4294967298 : Int) < ([2, 4294967298] : List Int).prod ∧
    byte_offset_c [2, 4294967298] [4, 2] 4294967298 = 4 ∧
    byte_offset_c [4294967298, 2] [4, 2] 4294967298 = 8589934596 := by
  decide

/-- C2, as stated, fails at a zero-sized array: the source of shape `(0)` is C-contiguous,
the target shape `(0)` has the same element count, and the function returns 0. -/
theorem attempt_nocopy_reshape_refuses_zero_size :
    c_contiguous_strides 8 [0] = [8] ∧
    ([0] : List Int).prod = ([0] : List Int).prod ∧
    _attempt_nocopy_reshape ⟨[0], c_contiguous_strides 8 [0]⟩ [0] [0] false = some (0, [0]) := by
  decide


/-- A value in the range of `int` is not changed by the conversion. -/
theorem toCInt_of_range (x : Int) (h0 : 0 ≤ x) (h1 : x < 2147483648) : toCInt x = x := by
  unfold toCInt
  rw [Int.bmod_def]
  omega

/-- The product of positive dimensions is positive. -/
theorem prod_pos_of_pos (l : List Int) (h : ∀ d ∈ l, 0 < d) : 0 < l.prod :=
  List.prod_pos h

/-- The `int` product of positive dimensions is the product when that fits in `int`. -/
theorem foldl_int_product (l : List Int) (acc : Int) (h : ∀ d ∈ l, 0 < d) (hacc : 0 < acc)
    (hfit : acc * l.prod < 2147483648) :
    l.foldl (fun np d => toCInt (np * d)) acc = acc * l.prod := by
  induction l generalizing acc with
  | nil => simp
  | cons d l ih =>
    have hd : 0 < d := h d (List.mem_cons_self _ _)
    have hl : 0 < l.prod := prod_pos_of_pos l (fun x hx => h x (List.mem_cons_of_mem _ hx))
    have hpos : 0 < acc * d := Int.mul_pos hacc hd
    rw [List.prod_cons, ← mul_assoc] at hfit
    have hle : acc * d ≤ acc * d * l.prod := le_mul_of_one_le_right hpos.le hl
    rw [List.foldl_cons, toCInt_of_range _ hpos.le (by omega),
      ih (acc * d) (fun x hx => h x (List.mem_cons_of_mem _ hx)) hpos hfit, List.prod_cons,
      mul_assoc]

/-- The `int` product of positive dimensions is the product when that fits in `int`. -/
theorem int_product_eq (l : List Int) (h : ∀ d ∈ l, 0 < d) (hfit : l.prod < 2147483648) :
    int_product l = l.prod := by
  unfold int_product
  rw [foldl_int_product l 1 h one_pos (by simpa using hfit), one_mul]

/-- Stripping the axes of length 1 keeps the other dimensions, in order. -/
theorem strip_ones_dims (dims strides : List Int) (h : strides.length = dims.length) :
    (strip_ones dims strides).1 = dims.filter (fun d => decide (d ≠ 1)) := by
  induction dims generalizing strides with
  | nil => cases strides <;> simp [strip_ones]
  | cons d ds ih =>
    cases strides with
    | nil => simp at h
    | cons s ss =>
      have hl : ss.length = ds.length := by simpa using h
      by_cases hd : d = 1
      · simp [strip_ones, hd, ih ss hl]
      · simp [strip_ones, hd, ih ss hl]

/-- The stripped dimensions and strides have the same length. -/
theorem strip_ones_length (dims strides : List Int) :
    (strip_ones dims strides).2.length = (strip_ones dims strides).1.length := by
  induction dims generalizing strides with
  | nil => cases strides <;> simp [strip_ones]
  | cons d ds ih =>
    cases strides with
    | nil => simp [strip_ones]
    | cons s ss =>
      by_cases hd : d = 1
      · simp [strip_ones, hd, ih ss]
      · simp [strip_ones, hd, ih ss]

/-- The product of the dimensions is not changed by the removal of the axes of length 1. -/
theorem prod_filter_ne_one (dims : List Int) :
    (dims.filter (fun d => decide (d ≠ 1))).prod = dims.prod := by
  induction dims with
  | nil => simp
  | cons d ds ih =>
    by_cases hd : d = 1
    · rw [List.filter_cons_of_neg (by simpa using hd), ih, hd, List.prod_cons, one_mul]
    · rw [List.filter_cons_of_pos (by simpa using hd), List.prod_cons, List.prod_cons, ih]

/-- Stripping a C-contiguous layout gives the C-contiguous layout of the stripped shape. -/
theorem strip_ones_c_contiguous (elsize : Int) (dims : List Int) :
    strip_ones dims (c_contiguous_strides elsize dims) =
      (dims.filter (fun d => decide (d ≠ 1)),
        c_contiguous_strides elsize (dims.filter (fun d => decide (d ≠ 1)))) := by
  induction dims with
  | nil => simp [strip_ones, c_contiguous_strides]
  | cons d ds ih =>
    by_cases hd : d = 1
    · rw [List.filter_cons_of_neg (by simpa using hd)]
      simp only [c_contiguous_strides, strip_ones, hd, ne_eq, not_true_eq_false, if_false]
      exact ih
    · rw [List.filter_cons_of_pos (by simpa using hd)]
      simp only [c_contiguous_strides, strip_ones, hd, ne_eq, not_false_eq_true, if_true, ih,
        prod_filter_ne_one]

/-- Stripping a Fortran-contiguous layout gives the Fortran-contiguous layout of the
stripped shape. -/
theorem strip_ones_f_contiguous (elsize : Int) (dims : List Int) :
    strip_ones dims (f_contiguous_strides elsize dims) =
      (dims.filter (fun d => decide (d ≠ 1)),
        f_contiguous_strides elsize (dims.filter (fun d => decide (d ≠ 1)))) := by
  induction dims generalizing elsize with
  | nil => simp [strip_ones, f_contiguous_strides]
  | cons d ds ih =>
    by_cases hd : d = 1
    · rw [List.filter_cons_of_neg (by simpa using hd)]
      simp only [f_contiguous_strides, strip_ones, hd, ne_eq, not_true_eq_false, if_false,
        mul_one]
      exact ih elsize
    · rw [List.filter_cons_of_pos (by simpa using hd)]
      simp only [f_contiguous_strides, strip_ones, hd, ne_eq, not_false_eq_true, if_true, ih]


/-- The entries of the C-contiguous strides. -/
theorem c_contiguous_getElem? (elsize : Int) (l : List Int) (k : Nat) (hk : k < l.length) :
    (c_contiguous_strides elsize l)[k]? = some (elsize * (l.drop (k + 1)).prod) := by
  induction l generalizing k with
  | nil => simp at hk
  | cons d l ih =>
    cases k with
    | zero => simp [c_contiguous_strides]
    | succ k =>
      simp only [c_contiguous_strides, List.getElem?_cons_succ, List.drop_succ_cons]
      exact ih k (by simpa using hk)

/-- The entries of the Fortran-contiguous strides. -/
theorem f_contiguous_getElem? (elsize : Int) (l : List Int) (k : Nat) (hk : k < l.length) :
    (f_contiguous_strides elsize l)[k]? = some (elsize * (l.take k).prod) := by
  induction l generalizing k elsize with
  | nil => simp at hk
  | cons d l ih =>
    cases k with
    | zero => simp [f_contiguous_strides]
    | succ k =>
      simp only [f_contiguous_strides, List.getElem?_cons_succ, List.take_succ_cons,
        List.prod_cons]
      rw [ih (elsize * d) k (by simpa using hk), mul_assoc]

/-- The lengths of the contiguous strides. -/
theorem c_contiguous_length (elsize : Int) (l : List Int) :
    (c_contiguous_strides elsize l).length = l.length := by
  induction l with
  | nil => rfl
  | cons d l ih => simp [c_contiguous_strides, ih]

/-- The lengths of the contiguous strides. -/
theorem f_contiguous_length (elsize : Int) (l : List Int) :
    (f_contiguous_strides elsize l).length = l.length := by
  induction l generalizing elsize with
  | nil => rfl
  | cons d l ih => simp [f_contiguous_strides, ih]

/-- On a C-contiguous layout the contiguity check of a run passes. -/
theorem check_run_c_contiguous (elsize : Int) (l : List Int) (n ok : Nat)
    (h : n = 0 ∨ ok + n < l.length) :
    check_run l (c_contiguous_strides elsize l) false n ok = some true := by
  induction n generalizing ok with
  | zero => rfl
  | succ n ih =>
    have hlt : ok + (n + 1) < l.length := by omega
    have h1 : ok + 1 < l.length := by omega
    rw [check_run]
    simp only [Bool.false_eq_true, if_false]
    rw [c_contiguous_getElem? elsize l ok (by omega),
      c_contiguous_getElem? elsize l (ok + 1) h1, List.getElem?_eq_getElem h1]
    simp only
    have hprod : (l.drop (ok + 1)).prod = l[ok + 1] * (l.drop (ok + 1 + 1)).prod := by
      rw [List.drop_eq_getElem_cons h1, List.prod_cons]
    rw [if_neg (not_not.mpr (by rw [hprod]; ring)), ih (ok + 1) (by omega)]

/-- On a Fortran-contiguous layout the contiguity check of a run passes. -/
theorem check_run_f_contiguous (elsize : Int) (l : List Int) (n ok : Nat)
    (h : n = 0 ∨ ok + n < l.length) :
    check_run l (f_contiguous_strides elsize l) true n ok = some true := by
  induction n generalizing ok with
  | zero => rfl
  | succ n ih =>
    have hlt : ok + (n + 1) < l.length := by omega
    have h1 : ok + 1 < l.length := by omega
    have h0 : ok < l.length := by omega
    rw [check_run]
    simp only [if_true]
    rw [f_contiguous_getElem? elsize l ok h0,
      f_contiguous_getElem? elsize l (ok + 1) h1, List.getElem?_eq_getElem h0]
    simp only
    have hprod : (l.take (ok + 1)).prod = (l.take ok).prod * l[ok] :=
      List.prod_take_succ l ok h0
    rw [if_neg (not_not.mpr (by rw [hprod]; ring)), ih (ok + 1) (by omega)]


/-- The loop that extends the runs, on shapes of positive dimensions whose remaining
products agree and fit in `int`: it ends inside both arrays, at a point where the products
of the dimensions still to be matched agree. -/
theorem extend_runs_spec (newdims olddims : List Int)
    (hn : ∀ d ∈ newdims, 0 < d) (ho : ∀ d ∈ olddims, 0 < d)
    (fuel : Nat) (np op : Int) (nj oj : Nat)
    (hnj : nj ≤ newdims.length) (hoj : oj ≤ olddims.length)
    (hnp : 0 < np) (hop : 0 < op)
    (heq : np * (newdims.drop nj).prod = op * (olddims.drop oj).prod)
    (hfit : np * (newdims.drop nj).prod < 2147483648)
    (hfuel : (newdims.length - nj) + (olddims.length - oj) ≤ fuel) :
    ∃ nj1 oj1, extend_runs newdims olddims fuel np op nj oj = some (nj1, oj1) ∧
      nj ≤ nj1 ∧ nj1 ≤ newdims.length ∧ oj ≤ oj1 ∧ oj1 ≤ olddims.length ∧
      (newdims.drop nj1).prod = (olddims.drop oj1).prod := by
  induction fuel generalizing np op nj oj with
  | zero =>
    have h1 : nj = newdims.length := by omega
    have h2 : oj = olddims.length := by omega
    have hnpop : np = op := by
      rw [h1, h2] at heq
      simpa using heq
    rw [extend_runs, if_pos hnpop]
    refine ⟨nj, oj, rfl, le_rfl, hnj, le_rfl, hoj, ?_⟩
    rw [h1, h2]
    simp
  | succ fuel ih =>
    have hPn : 0 < (newdims.drop nj).prod :=
      prod_pos_of_pos _ (fun d hd => hn d (List.mem_of_mem_drop hd))
    have hPo : 0 < (olddims.drop oj).prod :=
      prod_pos_of_pos _ (fun d hd => ho d (List.mem_of_mem_drop hd))
    rw [extend_runs]
    by_cases hnpop : np = op
    · rw [if_pos hnpop]
      refine ⟨nj, oj, rfl, le_rfl, hnj, le_rfl, hoj, ?_⟩
      rw [hnpop] at heq
      exact mul_left_cancel₀ hop.ne' heq
    · rw [if_neg hnpop]
      by_cases hlt : np < op
      · rw [if_pos hlt]
        have hnj1 : nj < newdims.length := by
          by_contra hge
          have : nj = newdims.length := by omega
          rw [this] at heq
          simp only [List.drop_length, List.prod_nil, mul_one] at heq
          have : op ≤ op * (olddims.drop oj).prod := le_mul_of_one_le_right hop.le hPo
          omega
        have hdrop := List.drop_eq_getElem_cons hnj1
        have hd : 0 < newdims[nj] := hn _ (List.getElem_mem hnj1)
        have hrest : 0 < (newdims.drop (nj + 1)).prod :=
          prod_pos_of_pos _ (fun d hd => hn d (List.mem_of_mem_drop hd))
        rw [hdrop, List.prod_cons, ← mul_assoc] at heq hfit
        have hpos : 0 < np * newdims[nj] := Int.mul_pos hnp hd
        have hle : np * newdims[nj] ≤ np * newdims[nj] * (newdims.drop (nj + 1)).prod :=
          le_mul_of_one_le_right hpos.le hrest
        rw [List.getElem?_eq_getElem hnj1]
        simp only
        rw [toCInt_of_range _ hpos.le (by omega)]
        obtain ⟨nj1, oj1, e, b1, b2, b3, b4, b5⟩ :=
          ih (np * newdims[nj]) op (nj + 1) oj (by omega) hoj hpos hop heq hfit (by omega)
        exact ⟨nj1, oj1, e, by omega, b2, b3, b4, b5⟩
      · rw [if_neg hlt]
        have hoj1 : oj < olddims.length := by
          by_contra hge
          have : oj = olddims.length := by omega
          rw [this] at heq
          simp only [List.drop_length, List.prod_nil, mul_one] at heq
          have : np ≤ np * (newdims.drop nj).prod := le_mul_of_one_le_right hnp.le hPn
          omega
        have hdrop := List.drop_eq_getElem_cons hoj1
        have hd : 0 < olddims[oj] := ho _ (List.getElem_mem hoj1)
        have hrest : 0 < (olddims.drop (oj + 1)).prod :=
          prod_pos_of_pos _ (fun d hd => ho d (List.mem_of_mem_drop hd))
        rw [hdrop, List.prod_cons, ← mul_assoc] at heq
        have hpos : 0 < op * olddims[oj] := Int.mul_pos hop hd
        have hle : op * olddims[oj] ≤ op * olddims[oj] * (olddims.drop (oj + 1)).prod :=
          le_mul_of_one_le_right hpos.le hrest
        rw [List.getElem?_eq_getElem hoj1]
        simp only
        rw [toCInt_of_range _ hpos.le (by omega)]
        obtain ⟨nj1, oj1, e, b1, b2, b3, b4, b5⟩ :=
          ih np (op * olddims[oj]) nj (oj + 1) hnj (by omega) hnp hpos heq hfit (by omega)
        exact ⟨nj1, oj1, e, b1, b2, by omega, b4, b5⟩


/-- A store inside the buffer. -/
theorem store_some (buf : List Int) (i : Nat) (v : Int) (h : i < buf.length) :
    store buf i v = some (buf.set i v) := by
  rw [store, if_pos h]

/-- The Fortran-order fill of a run inside the arrays completes. -/
theorem fill_f_some (newdims : List Int) (n nk : Nat) (buf : List Int)
    (h1 : nk + n ≤ newdims.length) (h2 : newdims.length ≤ buf.length) :
    ∃ buf1, fill_f newdims n nk buf = some buf1 ∧ buf1.length = buf.length := by
  induction n generalizing nk buf with
  | zero => exact ⟨buf, rfl, rfl⟩
  | succ n ih =>
    have hb : nk - 1 < buf.length := by omega
    have hd : nk - 1 < newdims.length := by omega
    rw [fill_f, List.getElem?_eq_getElem hb, List.getElem?_eq_getElem hd]
    simp only
    rw [store_some _ _ _ (by omega)]
    simp only
    obtain ⟨buf1, e1, e2⟩ := ih (nk + 1) (buf.set nk (buf[nk - 1] * newdims[nk - 1]))
      (by omega) (by simpa using h2)
    exact ⟨buf1, e1, by simpa using e2⟩

/-- The C-order fill of a run inside the arrays completes. -/
theorem fill_c_some (newdims : List Int) (n nk : Nat) (buf : List Int)
    (h1 : nk < newdims.length) (h2 : newdims.length ≤ buf.length) :
    ∃ buf1, fill_c newdims n nk buf = some buf1 ∧ buf1.length = buf.length := by
  induction n generalizing nk buf with
  | zero => exact ⟨buf, rfl, rfl⟩
  | succ n ih =>
    have hb : nk < buf.length := by omega
    rw [fill_c, List.getElem?_eq_getElem hb, List.getElem?_eq_getElem h1]
    simp only
    rw [store_some _ _ _ (by omega)]
    simp only
    obtain ⟨buf1, e1, e2⟩ := ih (nk - 1) (buf.set (nk - 1) (buf[nk] * newdims[nk]))
      (by omega) (by simpa using h2)
    exact ⟨buf1, e1, by simpa using e2⟩

/-- The fill of a run that lies inside the arrays completes. -/
theorem fill_run_some (newdims oldstrides : List Int) (is_f_order : Bool) (oi oj ni nj : Nat)
    (buf : List Int) (hoi : oi < oj) (hoj : oj ≤ oldstrides.length) (hni : ni < nj)
    (hnj : nj ≤ newdims.length) (hbuf : newdims.length ≤ buf.length) :
    ∃ buf1, fill_run newdims oldstrides is_f_order oi oj ni nj buf = some buf1 ∧
      buf1.length = buf.length := by
  cases is_f_order with
  | true =>
    rw [fill_run]
    simp only [if_true]
    rw [List.getElem?_eq_getElem (by omega : oi < oldstrides.length)]
    simp only
    rw [store_some _ _ _ (by omega)]
    simp only
    obtain ⟨buf1, e1, e2⟩ := fill_f_some newdims (nj - (ni + 1)) (ni + 1)
      (buf.set ni oldstrides[oi]) (by omega) (by simpa using hbuf)
    exact ⟨buf1, e1, by simpa using e2⟩
  | false =>
    rw [fill_run]
    simp only [Bool.false_eq_true, if_false]
    rw [List.getElem?_eq_getElem (by omega : oj - 1 < oldstrides.length)]
    simp only
    rw [store_some _ _ _ (by omega)]
    simp only
    obtain ⟨buf1, e1, e2⟩ := fill_c_some newdims (nj - 1 - ni) (nj - 1)
      (buf.set (nj - 1) oldstrides[oj - 1]) (by omega) (by simpa using hbuf)
    exact ⟨buf1, e1, by simpa using e2⟩


/-- The main loop on shapes of positive dimensions whose products agree and fit in `int`,
when every contiguity check passes: the loop runs to its end and the function returns 1. -/
theorem reshape_loop_returns_one (olddims oldstrides newdims : List Int) (is_f_order : Bool)
    (hn : ∀ d ∈ newdims, 0 < d) (ho : ∀ d ∈ olddims, 0 < d)
    (hlen : oldstrides.length = olddims.length)
    (hcheck : ∀ n ok, n = 0 ∨ ok + n < olddims.length →
      check_run olddims oldstrides is_f_order n ok = some true)
    (fuel oi ni : Nat) (buf : List Int)
    (hni : ni ≤ newdims.length) (hoi : oi ≤ olddims.length)
    (heq : (newdims.drop ni).prod = (olddims.drop oi).prod)
    (hfit : (newdims.drop ni).prod < 2147483648)
    (hbuf : newdims.length ≤ buf.length)
    (hfuel : newdims.length - ni ≤ fuel) :
    ∃ ns, reshape_loop olddims oldstrides newdims is_f_order fuel oi (oi + 1) ni (ni + 1) buf =
        some (1, ns) ∧ ns.length = buf.length := by
  induction fuel generalizing oi ni buf with
  | zero =>
    rw [reshape_loop, if_pos (by omega)]
    exact ⟨buf, rfl, rfl⟩
  | succ fuel ih =>
    rw [reshape_loop]
    by_cases hc : ni < newdims.length ∧ oi < olddims.length
    · obtain ⟨hc1, hc2⟩ := hc
      rw [if_neg (not_not.mpr ⟨hc1, hc2⟩)]
      rw [List.getElem?_eq_getElem hc1, List.getElem?_eq_getElem hc2]
      simp only
      have hdn : 0 < newdims[ni] := hn _ (List.getElem_mem hc1)
      have hdo : 0 < olddims[oi] := ho _ (List.getElem_mem hc2)
      have hrn : 0 < (newdims.drop (ni + 1)).prod :=
        prod_pos_of_pos _ (fun d hd => hn d (List.mem_of_mem_drop hd))
      have hro : 0 < (olddims.drop (oi + 1)).prod :=
        prod_pos_of_pos _ (fun d hd => ho d (List.mem_of_mem_drop hd))
      rw [List.drop_eq_getElem_cons hc1, List.prod_cons] at heq hfit
      rw [List.drop_eq_getElem_cons hc2, List.prod_cons] at heq
      have hle1 : newdims[ni] ≤ newdims[ni] * (newdims.drop (ni + 1)).prod :=
        le_mul_of_one_le_right hdn.le hrn
      have hle2 : olddims[oi] ≤ olddims[oi] * (olddims.drop (oi + 1)).prod :=
        le_mul_of_one_le_right hdo.le hro
      rw [toCInt_of_range _ hdn.le (by omega), toCInt_of_range _ hdo.le (by omega)]
      obtain ⟨nj1, oj1, e, b1, b2, b3, b4, b5⟩ :=
        extend_runs_spec newdims olddims hn ho (newdims.length + olddims.length)
          newdims[ni] olddims[oi] (ni + 1) (oi + 1) (by omega) (by omega) hdn hdo heq hfit
          (by omega)
      rw [e]
      simp only
      rw [hcheck _ _ (by omega)]
      simp only
      obtain ⟨buf1, e1, e2⟩ := fill_run_some newdims oldstrides is_f_order oi oj1 ni nj1 buf
        (by omega) (by omega) (by omega) b2 hbuf
      rw [e1]
      simp only
      have hfit1 : (newdims.drop nj1).prod < 2147483648 := by
        have hk : (newdims.drop (ni + 1)).prod < 2147483648 := by
          have : (newdims.drop (ni + 1)).prod ≤ newdims[ni] * (newdims.drop (ni + 1)).prod :=
            le_mul_of_one_le_left hrn.le hdn
          omega
        have hsplit : (newdims.drop (ni + 1)).prod =
            ((newdims.drop (ni + 1)).take (nj1 - (ni + 1))).prod * (newdims.drop nj1).prod := by
          rw [← List.prod_take_mul_prod_drop (newdims.drop (ni + 1)) (nj1 - (ni + 1)),
            List.drop_drop]
          congr 3
          omega
        have hp1 : 0 < ((newdims.drop (ni + 1)).take (nj1 - (ni + 1))).prod :=
          prod_pos_of_pos _
            (fun d hd => hn d (List.mem_of_mem_drop (List.mem_of_mem_take hd)))
        have hp2 : 0 < (newdims.drop nj1).prod :=
          prod_pos_of_pos _ (fun d hd => hn d (List.mem_of_mem_drop hd))
        have : (newdims.drop nj1).prod ≤
            ((newdims.drop (ni + 1)).take (nj1 - (ni + 1))).prod * (newdims.drop nj1).prod :=
          le_mul_of_one_le_left hp2.le hp1
        omega
      obtain ⟨ns, e3, e4⟩ := ih oj1 nj1 buf1 b2 b4 b5 hfit1 (by omega) (by omega)
      exact ⟨ns, e3, by omega⟩
    · rw [if_pos hc]
      exact ⟨buf, rfl, rfl⟩


/-- C2, amended. For shapes `A` and `B` of positive dimensions with the same element count,
below `2^31`, and `A` laid out contiguously in the requested order (C-contiguous with C
order, Fortran-contiguous with Fortran order), `_attempt_nocopy_reshape` returns 1, whatever
the element size and the prior contents of the `newstrides` buffer. -/
theorem attempt_nocopy_reshape_contiguous (dims newdims : List Int) (elsize : Int)
    (buf : List Int)
    (hd : ∀ d ∈ dims, 0 < d) (hn : ∀ d ∈ newdims, 0 < d)
    (hprod : newdims.prod = dims.prod) (hfit : dims.prod < 2147483648)
    (hbuf : newdims.length ≤ buf.length) :
    (∃ ns, _attempt_nocopy_reshape ⟨dims, c_contiguous_strides elsize dims⟩ newdims buf false =
      some (1, ns)) ∧
    (∃ ns, _attempt_nocopy_reshape ⟨dims, f_contiguous_strides elsize dims⟩ newdims buf true =
      some (1, ns)) := by
  have ho : ∀ d ∈ dims.filter (fun d => decide (d ≠ 1)), 0 < d :=
    fun d hd1 => hd d (List.mem_of_mem_filter hd1)
  have hpo : (dims.filter (fun d => decide (d ≠ 1))).prod = dims.prod := prod_filter_ne_one dims
  have hnp : int_product newdims = newdims.prod := int_product_eq newdims hn (by omega)
  have hop : int_product (dims.filter (fun d => decide (d ≠ 1))) = dims.prod := by
    rw [int_product_eq _ ho (by omega), hpo]
  have hpos : 0 < dims.prod := prod_pos_of_pos dims hd
  constructor
  · unfold _attempt_nocopy_reshape
    simp only [strip_ones_c_contiguous]
    rw [hnp, hop, if_neg (not_not.mpr hprod), if_neg (by omega)]
    obtain ⟨ns, e, -⟩ := reshape_loop_returns_one (dims.filter (fun d => decide (d ≠ 1)))
      (c_contiguous_strides elsize (dims.filter (fun d => decide (d ≠ 1)))) newdims false hn ho
      (c_contiguous_length _ _) (check_run_c_contiguous elsize _) newdims.length 0 0 buf
      (Nat.zero_le _) (Nat.zero_le _) (by rw [List.drop_zero, List.drop_zero, hpo]; exact hprod)
      (by rw [List.drop_zero, hprod]; exact hfit)
      hbuf (by omega)
    exact ⟨ns, e⟩
  · unfold _attempt_nocopy_reshape
    simp only [strip_ones_f_contiguous]
    rw [hnp, hop, if_neg (not_not.mpr hprod), if_neg (by omega)]
    obtain ⟨ns, e, -⟩ := reshape_loop_returns_one (dims.filter (fun d => decide (d ≠ 1)))
      (f_contiguous_strides elsize (dims.filter (fun d => decide (d ≠ 1)))) newdims true hn ho
      (f_contiguous_length _ _) (check_run_f_contiguous elsize _) newdims.length 0 0 buf
      (Nat.zero_le _) (Nat.zero_le _) (by rw [List.drop_zero, List.drop_zero, hpo]; exact hprod)
      (by rw [List.drop_zero, hprod]; exact hfit)
      hbuf (by omega)
    exact ⟨ns, e⟩

/-- C2, amended, at the C-contiguous and the Fortran-contiguous layout of shape `(2, 3)`
with 8-byte elements and the target shape `(3, 2)`. -/
theorem attempt_nocopy_reshape_contiguous_witness :
    (∃ ns, _attempt_nocopy_reshape ⟨[2, 3], c_contiguous_strides 8 [2, 3]⟩ [3, 2] [0, 0] false =
      some (1, ns)) ∧
    (∃ ns, _attempt_nocopy_reshape ⟨[2, 3], f_contiguous_strides 8 [2, 3]⟩ [3, 2] [0, 0] true =
      some (1, ns)) :=
  attempt_nocopy_reshape_contiguous [2, 3] [3, 2] 8 [0, 0] (by decide) (by decide) (by decide)
    (by decide) (by decide)


/-- Once the running `int` product is zero it stays zero. -/
theorem foldl_int_product_zero (l : List Int) :
    l.foldl (fun np d => toCInt (np * d)) 0 = 0 := by
  induction l with
  | nil => rfl
  | cons d l ih =>
    rw [List.foldl_cons, zero_mul]
    exact ih

/-- The `int` product of a shape with a zero dimension is zero, whatever the other
dimensions are. -/
theorem int_product_of_mem_zero (l : List Int) (h : (0 : Int) ∈ l) : int_product l = 0 := by
  unfold int_product
  generalize (1 : Int) = acc
  induction l generalizing acc with
  | nil => simp at h
  | cons d l ih =>
    rw [List.foldl_cons]
    rcases List.mem_cons.mp h with h0 | h0
    · rw [← h0, mul_zero]
      exact foldl_int_product_zero l
    · exact ih h0 _

/-- The part of C3 that holds for all inputs: a target shape or a source shape with a zero
dimension (an element count of zero) makes `_attempt_nocopy_reshape` return 0 and leave the
buffer as it was. -/
theorem attempt_nocopy_reshape_zero_count (self : PyArrayObject)
    (hwf : self.strides.length = self.dimensions.length) (newdims buf : List Int)
    (is_f_order : Bool) (h : newdims.prod = 0 ∨ self.dimensions.prod = 0) :
    _attempt_nocopy_reshape self newdims buf is_f_order = some (0, buf) := by
  have hz : int_product newdims = 0 ∨
      int_product (strip_ones self.dimensions self.strides).1 = 0 := by
    rcases h with h | h
    · exact Or.inl (int_product_of_mem_zero _ (List.prod_eq_zero_iff.mp h))
    · refine Or.inr (int_product_of_mem_zero _ ?_)
      rw [strip_ones_dims _ _ hwf]
      exact List.mem_filter.mpr ⟨List.prod_eq_zero_iff.mp h, by decide⟩
  unfold _attempt_nocopy_reshape
  simp only
  split_ifs with h1 h2
  · rfl
  · rfl
  · exfalso
    rcases hz with hz | hz
    · exact h2 hz
    · exact h2 ((not_not.mp h1).trans hz)

/-- The part of C3 that holds while the products fit in `int`: for shapes of non-negative
dimensions whose element counts are below `2^31`, element counts that differ make
`_attempt_nocopy_reshape` return 0. -/
theorem attempt_nocopy_reshape_size_mismatch (self : PyArrayObject)
    (hwf : self.strides.length = self.dimensions.length) (newdims buf : List Int)
    (is_f_order : Bool)
    (hd : ∀ d ∈ self.dimensions, 0 ≤ d) (hn : ∀ d ∈ newdims, 0 ≤ d)
    (hfitn : newdims.prod < 2147483648) (hfitd : self.dimensions.prod < 2147483648)
    (h : newdims.prod ≠ self.dimensions.prod) :
    _attempt_nocopy_reshape self newdims buf is_f_order = some (0, buf) := by
  have key : ∀ l : List Int, (∀ d ∈ l, 0 ≤ d) → l.prod < 2147483648 → int_product l = l.prod := by
    intro l hl hfit
    by_cases h0 : (0 : Int) ∈ l
    · rw [int_product_of_mem_zero l h0, List.prod_eq_zero_iff.mpr h0]
    · apply int_product_eq l _ hfit
      intro d hdl
      have := hl d hdl
      have : d ≠ 0 := fun hd0 => h0 (hd0 ▸ hdl)
      omega
  have h1 : int_product newdims = newdims.prod := key _ hn hfitn
  have h2 : int_product (strip_ones self.dimensions self.strides).1 = self.dimensions.prod := by
    rw [strip_ones_dims _ _ hwf, key _ (fun d hd1 => hd d (List.mem_of_mem_filter hd1))
      (by rw [prod_filter_ne_one]; exact hfitd), prod_filter_ne_one]
  unfold _attempt_nocopy_reshape
  simp only
  rw [h1, h2, if_pos h]

/-- The two parts of C3 that hold, at the source of shape `(2, 3)`: a target of 8 elements
and a target of no element are refused. -/
theorem attempt_nocopy_reshape_size_mismatch_witness :
    _attempt_nocopy_reshape ⟨[2, 3], [24, 8]⟩ [4, 2] [0, 0] false = some (0, [0, 0]) ∧
    _attempt_nocopy_reshape ⟨[2, 3], [24, 8]⟩ [0, 2] [0, 0] false = some (0, [0, 0]) :=
  ⟨attempt_nocopy_reshape_size_mismatch ⟨[2, 3], [24, 8]⟩ rfl [4, 2] [0, 0] false (by decide)
      (by decide) (by decide) (by decide) (by decide),
    attempt_nocopy_reshape_zero_count ⟨[2, 3], [24, 8]⟩ rfl [0, 2] [0, 0] false
      (Or.inl (by decide))⟩


/-! ## Soundness of `_attempt_nocopy_reshape` while the products fit in `int` -/

/-- The remainder modulo a product, split into the remainder modulo the first factor and
the next digit. -/
theorem emod_mul_split (k a b : Int) (ha : 0 < a) (hb : 0 < b) :
    k % (a * b) = k % a + a * (k / a % b) := by
  have h1 := Int.emod_add_ediv k a
  have h2 := Int.emod_add_ediv (k / a) b
  have hr0 := Int.emod_nonneg k ha.ne'
  have hr1 := Int.emod_lt_of_pos k ha
  have hq0 := Int.emod_nonneg (k / a) hb.ne'
  have hq1 := Int.emod_lt_of_pos (k / a) hb
  have hk : k = (k % a + a * (k / a % b)) + (k / a / b) * (a * b) := by
    have : a * (k / a) = a * (k / a % b) + a * (b * (k / a / b)) := by
      rw [← mul_add, h2]
    linarith
  have hlt : k % a + a * (k / a % b) < a * b := by
    have : a * (k / a % b) ≤ a * (b - 1) :=
      mul_le_mul_of_nonneg_left (by omega) ha.le
    nlinarith
  have hge : 0 ≤ k % a + a * (k / a % b) := by
    have : 0 ≤ a * (k / a % b) := mul_nonneg ha.le hq0
    omega
  conv_lhs => rw [hk]
  rw [Int.add_mul_emod_self, Int.emod_eq_of_lt hge hlt]

/-- Division by a product of positive factors, one factor at a time. -/
theorem ediv_ediv_pos (k a b : Int) (ha : 0 < a) (hb : 0 < b) : k / a / b = k / (a * b) := by
  have h1 := Int.emod_add_ediv k a
  have h2 := Int.emod_add_ediv (k / a) b
  have hr0 := Int.emod_nonneg k ha.ne'
  have hr1 := Int.emod_lt_of_pos k ha
  have hq0 := Int.emod_nonneg (k / a) hb.ne'
  have hq1 := Int.emod_lt_of_pos (k / a) hb
  have hk : k = (k % a + a * (k / a % b)) + (k / a / b) * (a * b) := by
    have : a * (k / a) = a * (k / a % b) + a * (b * (k / a / b)) := by
      rw [← mul_add, h2]
    linarith
  have hlt : k % a + a * (k / a % b) < a * b := by
    have : a * (k / a % b) ≤ a * (b - 1) :=
      mul_le_mul_of_nonneg_left (by omega) ha.le
    nlinarith
  have hge : 0 ≤ k % a + a * (k / a % b) := by
    have : 0 ≤ a * (k / a % b) := mul_nonneg ha.le hq0
    omega
  conv_rhs => rw [hk]
  rw [Int.add_mul_ediv_right _ _ (Int.mul_pos ha hb).ne', Int.ediv_eq_zero_of_lt hge hlt,
    zero_add]

/-- The C-order offset over two groups of axes: the leading group sees the index divided by
the size of the trailing group. -/
theorem byte_offset_c_append (l1 s1 l2 s2 : List Int) (k : Int) (hlen : l1.length = s1.length)
    (h1 : ∀ d ∈ l1, 0 < d) (h2 : 0 < l2.prod) :
    byte_offset_c (l1 ++ l2) (s1 ++ s2) k =
      byte_offset_c l1 s1 (k / l2.prod) + byte_offset_c l2 s2 k := by
  induction l1 generalizing s1 with
  | nil =>
    cases s1 with
    | nil => simp [byte_offset_c]
    | cons s ss => simp at hlen
  | cons d ds ih =>
    cases s1 with
    | nil => simp at hlen
    | cons s ss =>
      have hds : 0 < ds.prod :=
        prod_pos_of_pos ds (fun x hx => h1 x (List.mem_cons_of_mem _ hx))
      rw [List.cons_append, List.cons_append, byte_offset_c, byte_offset_c, List.prod_append,
        ih ss (by simpa using hlen) (fun x hx => h1 x (List.mem_cons_of_mem _ hx)),
        mul_comm ds.prod, ← ediv_ediv_pos k _ _ h2 hds]
      ring

/-- The Fortran-order offset over two groups of axes: the trailing group sees the index
divided by the size of the leading group. -/
theorem byte_offset_f_append (l1 s1 l2 s2 : List Int) (k : Int) (hlen : l1.length = s1.length)
    (h1 : ∀ d ∈ l1, 0 < d) :
    byte_offset_f (l1 ++ l2) (s1 ++ s2) k =
      byte_offset_f l1 s1 k + byte_offset_f l2 s2 (k / l1.prod) := by
  induction l1 generalizing s1 k with
  | nil =>
    cases s1 with
    | nil => simp [byte_offset_f]
    | cons s ss => simp at hlen
  | cons d ds ih =>
    cases s1 with
    | nil => simp at hlen
    | cons s ss =>
      have hds : 0 < ds.prod :=
        prod_pos_of_pos ds (fun x hx => h1 x (List.mem_cons_of_mem _ hx))
      rw [List.cons_append, List.cons_append, byte_offset_f, byte_offset_f, List.prod_cons,
        ih ss (k / d) (by simpa using hlen) (fun x hx => h1 x (List.mem_cons_of_mem _ hx)),
        ediv_ediv_pos k _ _ (h1 d (List.mem_cons_self _ _)) hds]
      ring

/-- Over a C-contiguous run of base stride `s`, the offset of an index is the index within
the run times `s`. -/
theorem byte_offset_c_contiguous (s : Int) (l : List Int) (k : Int) (h : ∀ d ∈ l, 0 < d) :
    byte_offset_c l (c_contiguous_strides s l) k = (k % l.prod) * s := by
  induction l with
  | nil => simp [byte_offset_c, c_contiguous_strides]
  | cons d ds ih =>
    have hd : 0 < d := h d (List.mem_cons_self _ _)
    have hP : 0 < ds.prod := prod_pos_of_pos ds (fun x hx => h x (List.mem_cons_of_mem _ hx))
    simp only [byte_offset_c, c_contiguous_strides, List.prod_cons]
    rw [ih (fun x hx => h x (List.mem_cons_of_mem _ hx)), mul_comm d ds.prod,
      emod_mul_split k ds.prod d hP hd]
    ring

/-- Over a Fortran-contiguous run of base stride `s`, the offset of an index is the index
within the run times `s`. -/
theorem byte_offset_f_contiguous (s : Int) (l : List Int) (k : Int) (h : ∀ d ∈ l, 0 < d) :
    byte_offset_f l (f_contiguous_strides s l) k = (k % l.prod) * s := by
  induction l generalizing s k with
  | nil => simp [byte_offset_f, f_contiguous_strides]
  | cons d ds ih =>
    have hd : 0 < d := h d (List.mem_cons_self _ _)
    have hP : 0 < ds.prod := prod_pos_of_pos ds (fun x hx => h x (List.mem_cons_of_mem _ hx))
    simp only [byte_offset_f, f_contiguous_strides, List.prod_cons]
    rw [ih (s * d) (k / d) (fun x hx => h x (List.mem_cons_of_mem _ hx)),
      emod_mul_split k d ds.prod hd hP]
    ring

/-- Axes of length 1 do not contribute to an offset. -/
theorem byte_offset_c_ones (l s : List Int) (k : Int) (h : ∀ d ∈ l, d = 1) :
    byte_offset_c l s k = 0 := by
  induction l generalizing s with
  | nil => cases s <;> rfl
  | cons d ds ih =>
    cases s with
    | nil => rfl
    | cons s ss =>
      simp only [byte_offset_c]
      rw [ih ss (fun x hx => h x (List.mem_cons_of_mem _ hx)), h d (List.mem_cons_self _ _)]
      simp

/-- Axes of length 1 do not contribute to an offset. -/
theorem byte_offset_f_ones (l s : List Int) (k : Int) (h : ∀ d ∈ l, d = 1) :
    byte_offset_f l s k = 0 := by
  induction l generalizing s k with
  | nil => cases s <;> rfl
  | cons d ds ih =>
    cases s with
    | nil => rfl
    | cons s ss =>
      simp only [byte_offset_f]
      rw [ih ss _ (fun x hx => h x (List.mem_cons_of_mem _ hx)), h d (List.mem_cons_self _ _)]
      simp

/-- The offsets in a layout are the offsets in the layout stripped of its axes of
length 1 (C order). -/
theorem byte_offset_c_strip (dims strides : List Int) (k : Int)
    (hlen : strides.length = dims.length) :
    byte_offset_c (strip_ones dims strides).1 (strip_ones dims strides).2 k =
      byte_offset_c dims strides k := by
  induction dims generalizing strides with
  | nil => cases strides <;> simp [strip_ones, byte_offset_c]
  | cons d ds ih =>
    cases strides with
    | nil => simp at hlen
    | cons s ss =>
      have hl : ss.length = ds.length := by simpa using hlen
      by_cases hd : d = 1
      · simp only [strip_ones, hd, ne_eq, not_true_eq_false, if_false, byte_offset_c]
        rw [ih ss hl]
        simp
      · simp only [strip_ones, hd, ne_eq, not_false_eq_true, if_true, byte_offset_c]
        rw [ih ss hl, strip_ones_dims ds ss hl, prod_filter_ne_one]

/-- The offsets in a layout are the offsets in the layout stripped of its axes of
length 1 (Fortran order). -/
theorem byte_offset_f_strip (dims strides : List Int) (k : Int) :
    byte_offset_f (strip_ones dims strides).1 (strip_ones dims strides).2 k =
      byte_offset_f dims strides k := by
  induction dims generalizing strides k with
  | nil => cases strides <;> simp [strip_ones, byte_offset_f]
  | cons d ds ih =>
    cases strides with
    | nil => simp [strip_ones, byte_offset_f]
    | cons s ss =>
      by_cases hd : d = 1
      · simp only [strip_ones, hd, ne_eq, not_true_eq_false, if_false, byte_offset_f]
        rw [ih ss]
        simp
      · simp only [strip_ones, hd, ne_eq, not_false_eq_true, if_true, byte_offset_f]
        rw [ih ss]


/-- The C-contiguous strides of a run extended by one axis at its end. -/
theorem c_contiguous_append_singleton (s d : Int) (l : List Int) :
    c_contiguous_strides s (l ++ [d]) = c_contiguous_strides (s * d) l ++ [s] := by
  induction l with
  | nil => simp [c_contiguous_strides]
  | cons a l ih =>
    rw [List.cons_append, c_contiguous_strides, c_contiguous_strides, ih, List.prod_append,
      List.cons_append]
    congr 1
    simp only [List.prod_cons, List.prod_nil, mul_one]
    ring

/-- A run check that passes in C order: the strides of the run are the C-contiguous
strides of its dimensions, with the stride of its last axis as base. -/
theorem check_run_c_true (olddims oldstrides : List Int)
    (hlen : oldstrides.length = olddims.length) (n ok : Nat) (hok : ok + n < olddims.length)
    (h : check_run olddims oldstrides false n ok = some true) :
    (oldstrides.drop ok).take (n + 1) =
      c_contiguous_strides (oldstrides.getD (ok + n) 0) ((olddims.drop ok).take (n + 1)) := by
  induction n generalizing ok with
  | zero =>
    have h1 : ok < oldstrides.length := by omega
    have h2 : ok < olddims.length := by omega
    rw [List.drop_eq_getElem_cons h1, List.drop_eq_getElem_cons h2]
    simp only [List.take_succ_cons, List.take_zero, c_contiguous_strides, List.prod_nil, mul_one,
      Nat.add_zero]
    rw [List.getD_eq_getElem _ _ h1]
  | succ n ih =>
    have h0s : ok < oldstrides.length := by omega
    have h0d : ok < olddims.length := by omega
    have h1s : ok + 1 < oldstrides.length := by omega
    have h1d : ok + 1 < olddims.length := by omega
    rw [check_run] at h
    simp only [Bool.false_eq_true, if_false] at h
    rw [List.getElem?_eq_getElem h0s, List.getElem?_eq_getElem h1d,
      List.getElem?_eq_getElem h1s] at h
    simp only at h
    by_cases heq : oldstrides[ok] = olddims[ok + 1] * oldstrides[ok + 1]
    swap
    · rw [if_pos heq] at h
      simp at h
    rw [if_neg (not_not.mpr heq)] at h
    have ih1 := ih (ok + 1) (by omega) h
    rw [show ok + 1 + n = ok + (n + 1) by omega] at ih1
    rw [List.drop_eq_getElem_cons h0s, List.drop_eq_getElem_cons h0d, List.take_succ_cons,
      List.take_succ_cons, c_contiguous_strides, ih1]
    congr 1
    -- the stride of the first axis of the run
    have hhead := ih1
    rw [List.drop_eq_getElem_cons h1s, List.drop_eq_getElem_cons h1d, List.take_succ_cons,
      List.take_succ_cons, c_contiguous_strides] at hhead
    have hs1 := (List.cons.inj hhead).1
    rw [heq, hs1, List.drop_eq_getElem_cons h1d, List.take_succ_cons, List.prod_cons]
    ring

/-- A run check that passes in Fortran order: the strides of the run are the
Fortran-contiguous strides of its dimensions, with the stride of its first axis as base. -/
theorem check_run_f_true (olddims oldstrides : List Int)
    (hlen : oldstrides.length = olddims.length) (n ok : Nat) (hok : ok + n < olddims.length)
    (h : check_run olddims oldstrides true n ok = some true) :
    (oldstrides.drop ok).take (n + 1) =
      f_contiguous_strides (oldstrides.getD ok 0) ((olddims.drop ok).take (n + 1)) := by
  induction n generalizing ok with
  | zero =>
    have h1 : ok < oldstrides.length := by omega
    have h2 : ok < olddims.length := by omega
    rw [List.drop_eq_getElem_cons h1, List.drop_eq_getElem_cons h2]
    simp only [List.take_succ_cons, List.take_zero, f_contiguous_strides]
    rw [List.getD_eq_getElem _ _ h1]
  | succ n ih =>
    have h0s : ok < oldstrides.length := by omega
    have h0d : ok < olddims.length := by omega
    have h1s : ok + 1 < oldstrides.length := by omega
    rw [check_run] at h
    simp only [if_true] at h
    rw [List.getElem?_eq_getElem h1s, List.getElem?_eq_getElem h0d,
      List.getElem?_eq_getElem h0s] at h
    simp only at h
    by_cases heq : oldstrides[ok + 1] = olddims[ok] * oldstrides[ok]
    swap
    · rw [if_pos heq] at h
      simp at h
    rw [if_neg (not_not.mpr heq)] at h
    have ih1 := ih (ok + 1) (by omega) h
    rw [List.drop_eq_getElem_cons h0s, List.drop_eq_getElem_cons h0d, List.take_succ_cons,
      List.take_succ_cons, f_contiguous_strides, ih1, List.getD_eq_getElem _ _ h0s,
      List.getD_eq_getElem _ _ h1s, heq, mul_comm]


/-- A prefix that ends at or before a written entry. -/
theorem take_set_of_le (l : List Int) (i m : Nat) (v : Int) (h : m ≤ i) :
    (l.set i v).take m = l.take m := by
  rw [List.set_take, List.set_eq_of_length_le]
  simp only [List.length_take]
  omega

/-- The buffer after the Fortran-order fill loop: the entries `nk .. nk+n-1` continue the
Fortran-contiguous strides from the entry before them, the rest of the buffer is as it was. -/
theorem fill_f_spec (newdims : List Int) (n nk : Nat) (buf buf1 : List Int) (hnk : 1 ≤ nk)
    (h1 : nk + n ≤ newdims.length) (h2 : newdims.length ≤ buf.length)
    (h : fill_f newdims n nk buf = some buf1) :
    buf1 = buf.take nk ++
      f_contiguous_strides (buf.getD (nk - 1) 0 * newdims.getD (nk - 1) 0)
        ((newdims.drop nk).take n) ++ buf.drop (nk + n) := by
  induction n generalizing nk buf with
  | zero =>
    rw [fill_f] at h
    obtain rfl : buf = buf1 := by simpa using h
    simp [f_contiguous_strides]
  | succ n ih =>
    have hb : nk - 1 < buf.length := by omega
    have hd : nk - 1 < newdims.length := by omega
    have hd1 : nk < newdims.length := by omega
    have hb1 : nk < buf.length := by omega
    rw [fill_f, List.getElem?_eq_getElem hb, List.getElem?_eq_getElem hd] at h
    simp only at h
    rw [store_some _ _ _ hb1] at h
    simp only at h
    have := ih (nk + 1) (buf.set nk (buf[nk - 1] * newdims[nk - 1])) (by omega) (by omega)
      (by simpa using h2) h
    rw [this, take_set_succ _ _ _ hb1, List.drop_set_of_lt _ _ (by omega),
      List.drop_eq_getElem_cons hd1, List.take_succ_cons, f_contiguous_strides,
      List.getD_eq_getElem _ _ hb, List.getD_eq_getElem _ _ hd]
    simp only [Nat.add_sub_cancel, List.getD_eq_getElem?_getD, List.getElem?_set, if_true, hb1,
      List.getElem?_eq_getElem hd1, Option.getD_some, List.append_assoc, List.singleton_append,
      List.cons_append]
    rw [show nk + 1 + n = nk + (n + 1) by omega]
    simp

/-- The buffer after the C-order fill loop: the entries `nk-n .. nk` are the C-contiguous
strides built on the entry `nk`, the rest of the buffer is as it was. -/
theorem fill_c_spec (newdims : List Int) (n nk : Nat) (buf buf1 : List Int) (hn : n ≤ nk)
    (h1 : nk < newdims.length) (h2 : newdims.length ≤ buf.length)
    (h : fill_c newdims n nk buf = some buf1) :
    buf1 = buf.take (nk - n) ++
      c_contiguous_strides (buf.getD nk 0) ((newdims.drop (nk - n)).take (n + 1)) ++
      buf.drop (nk + 1) := by
  induction n generalizing nk buf with
  | zero =>
    have hb : nk < buf.length := by omega
    rw [fill_c] at h
    obtain rfl : buf = buf1 := by simpa using h
    rw [Nat.sub_zero, List.drop_eq_getElem_cons h1]
    simp only [List.take_succ_cons, List.take_zero, c_contiguous_strides, List.prod_nil, mul_one,
      List.getD_eq_getElem _ _ hb]
    conv_lhs => rw [← List.take_append_drop nk buf, List.drop_eq_getElem_cons hb]
    simp
  | succ n ih =>
    have hb : nk < buf.length := by omega
    have hb1 : nk - 1 < buf.length := by omega
    rw [fill_c, List.getElem?_eq_getElem hb, List.getElem?_eq_getElem h1] at h
    simp only at h
    rw [store_some _ _ _ hb1] at h
    simp only at h
    have := ih (nk - 1) (buf.set (nk - 1) (buf[nk] * newdims[nk])) (by omega) (by omega)
      (by simpa using h2) h
    have hidx : nk - 1 - n = nk - (n + 1) := by omega
    have hnk1 : nk - 1 + 1 = nk := by omega
    have hsplit : (newdims.drop (nk - (n + 1))).take (n + 1 + 1) =
        (newdims.drop (nk - (n + 1))).take (n + 1) ++ [newdims[nk]] := by
      rw [List.take_succ, List.getElem?_drop, show nk - (n + 1) + (n + 1) = nk by omega,
        List.getElem?_eq_getElem h1]
      rfl
    rw [this, hidx, hnk1, hsplit, c_contiguous_append_singleton, take_set_of_le _ _ _ _ (by omega),
      List.drop_set_of_lt _ _ (by omega), List.drop_eq_getElem_cons hb,
      List.getD_eq_getElem _ _ hb]
    simp only [List.getD_eq_getElem?_getD, List.getElem?_set, if_true, hb1, Option.getD_some,
      List.append_assoc, List.singleton_append]


/-- The buffer after the strides of a run have been filled in Fortran order: the entries
`ni .. nj-1` are the Fortran-contiguous strides of the run's dimensions, built on the stride
of the first old axis of the run; the other entries are as they were. -/
theorem fill_run_f_spec (newdims oldstrides : List Int) (oi oj ni nj : Nat)
    (buf buf1 : List Int) (hoi : oi < oldstrides.length) (hni : ni < nj)
    (hnj : nj ≤ newdims.length) (hbuf : newdims.length ≤ buf.length)
    (h : fill_run newdims oldstrides true oi oj ni nj buf = some buf1) :
    buf1 = buf.take ni ++
      f_contiguous_strides (oldstrides.getD oi 0) ((newdims.drop ni).take (nj - ni)) ++
      buf.drop nj := by
  have hb : ni < buf.length := by omega
  have hd : ni < newdims.length := by omega
  rw [fill_run] at h
  simp only [if_true] at h
  rw [List.getElem?_eq_getElem hoi] at h
  simp only at h
  rw [store_some _ _ _ hb] at h
  simp only at h
  have := fill_f_spec newdims (nj - (ni + 1)) (ni + 1) (buf.set ni oldstrides[oi]) buf1
    (by omega) (by omega) (by simpa using hbuf) h
  rw [this, take_set_succ _ _ _ hb, List.drop_set_of_lt _ _ (by omega),
    show ni + 1 + (nj - (ni + 1)) = nj by omega, show nj - ni = (nj - (ni + 1)) + 1 by omega,
    List.drop_eq_getElem_cons hd, List.take_succ_cons, f_contiguous_strides,
    List.getD_eq_getElem _ _ hoi]
  simp only [Nat.add_sub_cancel, List.getD_eq_getElem?_getD, List.getElem?_set, if_true, hb,
    List.getElem?_eq_getElem hd, Option.getD_some, List.append_assoc, List.singleton_append,
    List.cons_append, List.nil_append]

/-- The buffer after the strides of a run have been filled in C order: the entries
`ni .. nj-1` are the C-contiguous strides of the run's dimensions, built on the stride of the
last old axis of the run; the other entries are as they were. -/
theorem fill_run_c_spec (newdims oldstrides : List Int) (oi oj ni nj : Nat)
    (buf buf1 : List Int) (hoj0 : 1 ≤ oj) (hoj : oj ≤ oldstrides.length) (hni : ni < nj)
    (hnj : nj ≤ newdims.length) (hbuf : newdims.length ≤ buf.length)
    (h : fill_run newdims oldstrides false oi oj ni nj buf = some buf1) :
    buf1 = buf.take ni ++
      c_contiguous_strides (oldstrides.getD (oj - 1) 0) ((newdims.drop ni).take (nj - ni)) ++
      buf.drop nj := by
  have hb : nj - 1 < buf.length := by omega
  have ho : oj - 1 < oldstrides.length := by omega
  rw [fill_run] at h
  simp only [Bool.false_eq_true, if_false] at h
  rw [List.getElem?_eq_getElem ho] at h
  simp only at h
  rw [store_some _ _ _ hb] at h
  simp only at h
  have := fill_c_spec newdims (nj - 1 - ni) (nj - 1) (buf.set (nj - 1) oldstrides[oj - 1]) buf1
    (by omega) (by omega) (by simpa using hbuf) h
  rw [this, show nj - 1 - (nj - 1 - ni) = ni by omega, show nj - 1 - ni + 1 = nj - ni by omega,
    show nj - 1 + 1 = nj by omega, take_set_of_le _ _ _ _ (by omega),
    List.drop_set_of_lt _ _ (by omega), List.getD_eq_getElem _ _ ho]
  simp only [List.getD_eq_getElem?_getD, List.getElem?_set, if_true, hb, Option.getD_some]


/-- The product of the dimensions from an axis on, split at a later axis. -/
theorem prod_drop_split (l : List Int) (i j : Nat) (hij : i ≤ j) :
    (l.drop i).prod = ((l.drop i).take (j - i)).prod * (l.drop j).prod := by
  rw [← List.prod_take_mul_prod_drop (l.drop i) (j - i), List.drop_drop]
  congr 3
  omega

/-- The product of the first dimensions, split at an earlier axis. -/
theorem prod_take_split (l : List Int) (i j : Nat) (hij : i ≤ j) :
    (l.take j).prod = (l.take i).prod * ((l.drop i).take (j - i)).prod := by
  rw [← List.prod_append, ← List.take_add]
  congr 2
  omega

/-- The first `j` axes, split at an earlier axis. -/
theorem take_split (l : List Int) (i j : Nat) (hij : i ≤ j) :
    l.take j = l.take i ++ (l.drop i).take (j - i) := by
  rw [← List.take_add]
  congr 1
  omega

/-- With positive dimensions, the product of the dimensions still to be matched does not
grow along the array. -/
theorem prod_drop_le (l : List Int) (h : ∀ d ∈ l, 0 < d) (i j : Nat) (hij : i ≤ j) :
    (l.drop j).prod ≤ (l.drop i).prod := by
  rw [prod_drop_split l i j hij]
  exact le_mul_of_one_le_left
    (prod_pos_of_pos _ (fun d hd => h d (List.mem_of_mem_drop hd))).le
    (prod_pos_of_pos _ (fun d hd => h d (List.mem_of_mem_drop (List.mem_of_mem_take hd))))

/-- The runs found by the loop that extends the runs have the same number of elements. -/
theorem run_prod_eq (newdims olddims : List Int) (hn : ∀ d ∈ newdims, 0 < d)
    (ni nj oi oj : Nat) (hni : ni ≤ nj) (hoi : oi ≤ oj)
    (h1 : (newdims.drop ni).prod = (olddims.drop oi).prod)
    (h2 : (newdims.drop nj).prod = (olddims.drop oj).prod) :
    ((newdims.drop ni).take (nj - ni)).prod = ((olddims.drop oi).take (oj - oi)).prod := by
  rw [prod_drop_split newdims ni nj hni, prod_drop_split olddims oi oj hoi, ← h2] at h1
  exact mul_right_cancel₀
    (prod_pos_of_pos _ (fun d hd => hn d (List.mem_of_mem_drop hd))).ne' h1

/-- The prefix of a buffer in which a run has been filled. -/
theorem take_filled (buf run : List Int) (ni nj : Nat) (hni : ni ≤ nj) (hnj : nj ≤ buf.length)
    (hrun : run.length = nj - ni) :
    (buf.take ni ++ run ++ buf.drop nj).take nj = buf.take ni ++ run := by
  rw [List.take_append_of_le_length (by simp; omega), List.take_of_length_le (by simp; omega)]

/-- The length of a buffer in which a run has been filled. -/
theorem length_filled (buf run : List Int) (ni nj : Nat) (hni : ni ≤ nj) (hnj : nj ≤ buf.length)
    (hrun : run.length = nj - ni) :
    (buf.take ni ++ run ++ buf.drop nj).length = buf.length := by
  simp only [List.length_append, List.length_take, List.length_drop, hrun]
  omega


/-- The main loop in C order, on shapes of positive dimensions whose products fit in `int`.
Invariant: the axes matched so far give every index the same offset in the new layout as
in the old one. When the loop returns 1 the invariant holds at a point where one of the two
shapes is exhausted. -/
theorem reshape_loop_sound_c (olddims oldstrides newdims : List Int)
    (hn : ∀ d ∈ newdims, 0 < d) (ho : ∀ d ∈ olddims, 0 < d)
    (hlen : oldstrides.length = olddims.length)
    (fuel oi ni : Nat) (buf ns : List Int)
    (hni : ni ≤ newdims.length) (hoi : oi ≤ olddims.length)
    (heq : (newdims.drop ni).prod = (olddims.drop oi).prod)
    (hfit : (newdims.drop ni).prod < 2147483648)
    (hbuf : newdims.length ≤ buf.length)
    (hinv : ∀ k, byte_offset_c (newdims.take ni) (buf.take ni) k =
      byte_offset_c (olddims.take oi) (oldstrides.take oi) k)
    (h : reshape_loop olddims oldstrides newdims false fuel oi (oi + 1) ni (ni + 1) buf =
      some (1, ns)) :
    ∃ ni1 oi1, ni1 ≤ newdims.length ∧ oi1 ≤ olddims.length ∧
      ¬ (ni1 < newdims.length ∧ oi1 < olddims.length) ∧
      (newdims.drop ni1).prod = (olddims.drop oi1).prod ∧
      newdims.length ≤ ns.length ∧
      ∀ k, byte_offset_c (newdims.take ni1) (ns.take ni1) k =
        byte_offset_c (olddims.take oi1) (oldstrides.take oi1) k := by
  induction fuel generalizing oi ni buf with
  | zero =>
    rw [reshape_loop] at h
    by_cases hc : ni < newdims.length ∧ oi < olddims.length
    · rw [if_neg (not_not.mpr hc)] at h
      simp at h
    · rw [if_pos hc] at h
      obtain rfl : buf = ns := by simpa using h
      exact ⟨ni, oi, hni, hoi, hc, heq, hbuf, hinv⟩
  | succ fuel ih =>
    rw [reshape_loop] at h
    by_cases hc : ni < newdims.length ∧ oi < olddims.length
    swap
    · rw [if_pos hc] at h
      obtain rfl : buf = ns := by simpa using h
      exact ⟨ni, oi, hni, hoi, hc, heq, hbuf, hinv⟩
    obtain ⟨hc1, hc2⟩ := hc
    rw [if_neg (not_not.mpr ⟨hc1, hc2⟩), List.getElem?_eq_getElem hc1,
      List.getElem?_eq_getElem hc2] at h
    simp only at h
    have hdn : 0 < newdims[ni] := hn _ (List.getElem_mem hc1)
    have hdo : 0 < olddims[oi] := ho _ (List.getElem_mem hc2)
    have hrn : 0 < (newdims.drop (ni + 1)).prod :=
      prod_pos_of_pos _ (fun d hd => hn d (List.mem_of_mem_drop hd))
    have hro : 0 < (olddims.drop (oi + 1)).prod :=
      prod_pos_of_pos _ (fun d hd => ho d (List.mem_of_mem_drop hd))
    have heq' := heq
    have hfit' := hfit
    rw [List.drop_eq_getElem_cons hc1, List.prod_cons] at heq' hfit'
    rw [List.drop_eq_getElem_cons hc2, List.prod_cons] at heq'
    have hle1 : newdims[ni] ≤ newdims[ni] * (newdims.drop (ni + 1)).prod :=
      le_mul_of_one_le_right hdn.le hrn
    have hle2 : olddims[oi] ≤ olddims[oi] * (olddims.drop (oi + 1)).prod :=
      le_mul_of_one_le_right hdo.le hro
    rw [toCInt_of_range _ hdn.le (by omega), toCInt_of_range _ hdo.le (by omega)] at h
    obtain ⟨nj1, oj1, e, b1, b2, b3, b4, b5⟩ :=
      extend_runs_spec newdims olddims hn ho (newdims.length + olddims.length)
        newdims[ni] olddims[oi] (ni + 1) (oi + 1) (by omega) (by omega) hdn hdo heq' hfit'
        (by omega)
    rw [e] at h
    simp only at h
    cases hck : check_run olddims oldstrides false (oj1 - 1 - oi) oi with
    | none => rw [hck] at h; simp at h
    | some b =>
      cases b with
      | false => rw [hck] at h; simp at h
      | true =>
        rw [hck] at h
        simp only at h
        cases hfill : fill_run newdims oldstrides false oi oj1 ni nj1 buf with
        | none => rw [hfill] at h; simp at h
        | some buf1 =>
          rw [hfill] at h
          simp only at h
          have hspec := fill_run_c_spec newdims oldstrides oi oj1 ni nj1 buf buf1 (by omega)
            (by omega) (by omega) b2 hbuf hfill
          have hold := check_run_c_true olddims oldstrides hlen (oj1 - 1 - oi) oi (by omega) hck
          rw [show oj1 - 1 - oi + 1 = oj1 - oi by omega, show oi + (oj1 - 1 - oi) = oj1 - 1 by omega]
            at hold
          have hrunlen : (c_contiguous_strides (oldstrides.getD (oj1 - 1) 0)
              ((newdims.drop ni).take (nj1 - ni))).length = nj1 - ni := by
            rw [c_contiguous_length, List.length_take, List.length_drop]
            omega
          have hrun := run_prod_eq newdims olddims hn ni nj1 oi oj1 (by omega) (by omega) heq b5
          have hnrun : ∀ d ∈ (newdims.drop ni).take (nj1 - ni), 0 < d :=
            fun d hd => hn d (List.mem_of_mem_drop (List.mem_of_mem_take hd))
          have horun : ∀ d ∈ (olddims.drop oi).take (oj1 - oi), 0 < d :=
            fun d hd => ho d (List.mem_of_mem_drop (List.mem_of_mem_take hd))
          apply ih oj1 nj1 buf1 b2 b4 b5
            (lt_of_le_of_lt (prod_drop_le newdims hn ni nj1 (by omega)) hfit)
            (by rw [hspec, length_filled _ _ _ _ (by omega) (by omega) hrunlen]; exact hbuf)
            _ h
          intro k
          rw [hspec, take_filled _ _ _ _ (by omega) (by omega) hrunlen,
            take_split newdims ni nj1 (by omega), take_split olddims oi oj1 (by omega),
            take_split oldstrides oi oj1 (by omega), hold,
            byte_offset_c_append _ _ _ _ _ (by simp; omega)
              (fun d hd => hn d (List.mem_of_mem_take hd)) (prod_pos_of_pos _ hnrun),
            byte_offset_c_append _ _ _ _ _ (by simp; omega)
              (fun d hd => ho d (List.mem_of_mem_take hd)) (prod_pos_of_pos _ horun),
            byte_offset_c_contiguous _ _ _ hnrun, byte_offset_c_contiguous _ _ _ horun, hrun,
            hinv]


/-- With equal totals and equal products still to be matched, the matched prefixes have
equal products. -/
theorem matched_prod_eq (newdims olddims : List Int) (hn : ∀ d ∈ newdims, 0 < d) (ni oi : Nat)
    (htot : newdims.prod = olddims.prod)
    (heq : (newdims.drop ni).prod = (olddims.drop oi).prod) :
    (newdims.take ni).prod = (olddims.take oi).prod := by
  rw [← List.prod_take_mul_prod_drop newdims ni, ← List.prod_take_mul_prod_drop olddims oi,
    ← heq] at htot
  exact mul_right_cancel₀
    (prod_pos_of_pos _ (fun d hd => hn d (List.mem_of_mem_drop hd))).ne' htot

/-- The main loop in Fortran order, on shapes of positive dimensions whose products fit in
`int`. Invariant: the axes matched so far give every index the same offset in the new
layout as in the old one. When the loop returns 1 the invariant holds at a point where one
of the two shapes is exhausted. -/
theorem reshape_loop_sound_f (olddims oldstrides newdims : List Int)
    (hn : ∀ d ∈ newdims, 0 < d) (ho : ∀ d ∈ olddims, 0 < d)
    (hlen : oldstrides.length = olddims.length) (htot : newdims.prod = olddims.prod)
    (fuel oi ni : Nat) (buf ns : List Int)
    (hni : ni ≤ newdims.length) (hoi : oi ≤ olddims.length)
    (heq : (newdims.drop ni).prod = (olddims.drop oi).prod)
    (hfit : (newdims.drop ni).prod < 2147483648)
    (hbuf : newdims.length ≤ buf.length)
    (hinv : ∀ k, byte_offset_f (newdims.take ni) (buf.take ni) k =
      byte_offset_f (olddims.take oi) (oldstrides.take oi) k)
    (h : reshape_loop olddims oldstrides newdims true fuel oi (oi + 1) ni (ni + 1) buf =
      some (1, ns)) :
    ∃ ni1 oi1, ni1 ≤ newdims.length ∧ oi1 ≤ olddims.length ∧
      ¬ (ni1 < newdims.length ∧ oi1 < olddims.length) ∧
      (newdims.drop ni1).prod = (olddims.drop oi1).prod ∧
      newdims.length ≤ ns.length ∧
      ∀ k, byte_offset_f (newdims.take ni1) (ns.take ni1) k =
        byte_offset_f (olddims.take oi1) (oldstrides.take oi1) k := by
  induction fuel generalizing oi ni buf with
  | zero =>
    rw [reshape_loop] at h
    by_cases hc : ni < newdims.length ∧ oi < olddims.length
    · rw [if_neg (not_not.mpr hc)] at h
      simp at h
    · rw [if_pos hc] at h
      obtain rfl : buf = ns := by simpa using h
      exact ⟨ni, oi, hni, hoi, hc, heq, hbuf, hinv⟩
  | succ fuel ih =>
    rw [reshape_loop] at h
    by_cases hc : ni < newdims.length ∧ oi < olddims.length
    swap
    · rw [if_pos hc] at h
      obtain rfl : buf = ns := by simpa using h
      exact ⟨ni, oi, hni, hoi, hc, heq, hbuf, hinv⟩
    obtain ⟨hc1, hc2⟩ := hc
    rw [if_neg (not_not.mpr ⟨hc1, hc2⟩), List.getElem?_eq_getElem hc1,
      List.getElem?_eq_getElem hc2] at h
    simp only at h
    have hdn : 0 < newdims[ni] := hn _ (List.getElem_mem hc1)
    have hdo : 0 < olddims[oi] := ho _ (List.getElem_mem hc2)
    have hrn : 0 < (newdims.drop (ni + 1)).prod :=
      prod_pos_of_pos _ (fun d hd => hn d (List.mem_of_mem_drop hd))
    have hro : 0 < (olddims.drop (oi + 1)).prod :=
      prod_pos_of_pos _ (fun d hd => ho d (List.mem_of_mem_drop hd))
    have heq' := heq
    have hfit' := hfit
    rw [List.drop_eq_getElem_cons hc1, List.prod_cons] at heq' hfit'
    rw [List.drop_eq_getElem_cons hc2, List.prod_cons] at heq'
    have hle1 : newdims[ni] ≤ newdims[ni] * (newdims.drop (ni + 1)).prod :=
      le_mul_of_one_le_right hdn.le hrn
    have hle2 : olddims[oi] ≤ olddims[oi] * (olddims.drop (oi + 1)).prod :=
      le_mul_of_one_le_right hdo.le hro
    rw [toCInt_of_range _ hdn.le (by omega), toCInt_of_range _ hdo.le (by omega)] at h
    obtain ⟨nj1, oj1, e, b1, b2, b3, b4, b5⟩ :=
      extend_runs_spec newdims olddims hn ho (newdims.length + olddims.length)
        newdims[ni] olddims[oi] (ni + 1) (oi + 1) (by omega) (by omega) hdn hdo heq' hfit'
        (by omega)
    rw [e] at h
    simp only at h
    cases hck : check_run olddims oldstrides true (oj1 - 1 - oi) oi with
    | none => rw [hck] at h; simp at h
    | some b =>
      cases b with
      | false => rw [hck] at h; simp at h
      | true =>
        rw [hck] at h
        simp only at h
        cases hfill : fill_run newdims oldstrides true oi oj1 ni nj1 buf with
        | none => rw [hfill] at h; simp at h
        | some buf1 =>
          rw [hfill] at h
          simp only at h
          have hspec := fill_run_f_spec newdims oldstrides oi oj1 ni nj1 buf buf1 (by omega)
            (by omega) b2 hbuf hfill
          have hold := check_run_f_true olddims oldstrides hlen (oj1 - 1 - oi) oi (by omega) hck
          rw [show oj1 - 1 - oi + 1 = oj1 - oi by omega] at hold
          have hrunlen : (f_contiguous_strides (oldstrides.getD oi 0)
              ((newdims.drop ni).take (nj1 - ni))).length = nj1 - ni := by
            rw [f_contiguous_length, List.length_take, List.length_drop]
            omega
          have hrun := run_prod_eq newdims olddims hn ni nj1 oi oj1 (by omega) (by omega) heq b5
          have hpre := matched_prod_eq newdims olddims hn ni oi htot heq
          have hnrun : ∀ d ∈ (newdims.drop ni).take (nj1 - ni), 0 < d :=
            fun d hd => hn d (List.mem_of_mem_drop (List.mem_of_mem_take hd))
          have horun : ∀ d ∈ (olddims.drop oi).take (oj1 - oi), 0 < d :=
            fun d hd => ho d (List.mem_of_mem_drop (List.mem_of_mem_take hd))
          apply ih oj1 nj1 buf1 b2 b4 b5
            (lt_of_le_of_lt (prod_drop_le newdims hn ni nj1 (by omega)) hfit)
            (by rw [hspec, length_filled _ _ _ _ (by omega) (by omega) hrunlen]; exact hbuf)
            _ h
          intro k
          rw [hspec, take_filled _ _ _ _ (by omega) (by omega) hrunlen,
            take_split newdims ni nj1 (by omega), take_split olddims oi oj1 (by omega),
            take_split oldstrides oi oj1 (by omega), hold,
            byte_offset_f_append _ _ _ _ _ (by simp; omega)
              (fun d hd => hn d (List.mem_of_mem_take hd)),
            byte_offset_f_append _ _ _ _ _ (by simp; omega)
              (fun d hd => ho d (List.mem_of_mem_take hd)),
            byte_offset_f_contiguous _ _ _ hnrun, byte_offset_f_contiguous _ _ _ horun, hrun,
            hpre, hinv]


/-- Positive dimensions whose product is 1 are all 1. -/
theorem all_one_of_prod_eq_one (l : List Int) (h : ∀ d ∈ l, 0 < d) (hp : l.prod = 1) :
    ∀ d ∈ l, d = 1 := by
  induction l with
  | nil => simp
  | cons a l ih =>
    have ha : 0 < a := h a (List.mem_cons_self _ _)
    have hl : 0 < l.prod := prod_pos_of_pos l (fun x hx => h x (List.mem_cons_of_mem _ hx))
    rw [List.prod_cons] at hp
    have ha1 : a = 1 := by nlinarith
    have hl1 : l.prod = 1 := by rw [ha1, one_mul] at hp; exact hp
    intro d hd
    rcases List.mem_cons.mp hd with rfl | hd
    · exact ha1
    · exact ih (fun x hx => h x (List.mem_cons_of_mem _ hx)) hl1 d hd

/-- What a return value of 1 says about the inputs and the final state of the main loop,
on shapes whose products fit in `int`. -/
theorem attempt_nocopy_reshape_one (self : PyArrayObject)
    (hwf : self.strides.length = self.dimensions.length) (newdims buf ns : List Int)
    (is_f_order : Bool)
    (hd : ∀ d ∈ self.dimensions, 0 ≤ d) (hn : ∀ d ∈ newdims, 0 < d)
    (hfitn : newdims.prod < 2147483648) (hfitd : self.dimensions.prod < 2147483648)
    (h : _attempt_nocopy_reshape self newdims buf is_f_order = some (1, ns)) :
    (∀ d ∈ (strip_ones self.dimensions self.strides).1, 0 < d ∧ d ≠ 1) ∧
    newdims.prod = (strip_ones self.dimensions self.strides).1.prod ∧
    reshape_loop (strip_ones self.dimensions self.strides).1
      (strip_ones self.dimensions self.strides).2 newdims is_f_order newdims.length 0 1 0 1 buf =
      some (1, ns) := by
  have hnp : int_product newdims = newdims.prod := int_product_eq newdims hn hfitn
  unfold _attempt_nocopy_reshape at h
  simp only at h
  by_cases h1 : int_product newdims = int_product (strip_ones self.dimensions self.strides).1
  swap
  · rw [if_pos h1] at h
    simp at h
  rw [if_neg (not_not.mpr h1)] at h
  by_cases h2 : int_product newdims = 0
  · rw [if_pos h2] at h
    simp at h
  rw [if_neg h2] at h
  have hpos : ∀ d ∈ (strip_ones self.dimensions self.strides).1, 0 < d ∧ d ≠ 1 := by
    intro d hdm
    have hz : (0 : Int) ∉ (strip_ones self.dimensions self.strides).1 :=
      fun hz => h2 (h1.trans (int_product_of_mem_zero _ hz))
    have hd0 : d ≠ 0 := fun hd0 => hz (hd0 ▸ hdm)
    rw [strip_ones_dims _ _ hwf] at hdm
    have hmem := List.mem_filter.mp hdm
    have := hd d hmem.1
    exact ⟨by omega, by simpa using hmem.2⟩
  have hop : int_product (strip_ones self.dimensions self.strides).1 =
      (strip_ones self.dimensions self.strides).1.prod := by
    apply int_product_eq _ (fun d hdm => (hpos d hdm).1)
    rw [strip_ones_dims _ _ hwf, prod_filter_ne_one]
    exact hfitd
  exact ⟨hpos, by rw [← hnp, h1, hop], h⟩

/-- At the end of the main loop of a call that returns 1, the old axes are all matched and
the new axes that are left have length 1. -/
theorem loop_exit_state (newdims olddims : List Int) (hn : ∀ d ∈ newdims, 0 < d)
    (ho : ∀ d ∈ olddims, 0 < d ∧ d ≠ 1) (ni1 oi1 : Nat)
    (hoi : oi1 ≤ olddims.length)
    (hexit : ¬ (ni1 < newdims.length ∧ oi1 < olddims.length))
    (heq : (newdims.drop ni1).prod = (olddims.drop oi1).prod) :
    oi1 = olddims.length ∧ (newdims.drop ni1).prod = 1 ∧ ∀ d ∈ newdims.drop ni1, d = 1 := by
  have hoi1 : oi1 = olddims.length := by
    by_contra hne
    have hlt : oi1 < olddims.length := by omega
    have hni : newdims.length ≤ ni1 := by
      by_contra hni
      exact hexit ⟨by omega, hlt⟩
    rw [List.drop_of_length_le hni, List.prod_nil] at heq
    have hall := all_one_of_prod_eq_one (olddims.drop oi1)
      (fun d hd => (ho d (List.mem_of_mem_drop hd)).1) heq.symm
    have hmem : olddims[oi1] ∈ olddims.drop oi1 := by
      rw [List.drop_eq_getElem_cons hlt]
      exact List.mem_cons_self _ _
    exact (ho _ (List.getElem_mem hlt)).2 (hall _ hmem)
  have hp : (newdims.drop ni1).prod = 1 := by
    rw [heq, hoi1, List.drop_length, List.prod_nil]
  exact ⟨hoi1, hp, all_one_of_prod_eq_one _ (fun d hd => hn d (List.mem_of_mem_drop hd)) hp⟩


/-- Soundness of `_attempt_nocopy_reshape` while the products fit in `int`: for a source of
non-negative dimensions and a target shape of positive dimensions, both with fewer than
`2^31` elements, if the function returns 1 then every flat index `k` below the element count
has the same byte offset under the target shape with the filled `newstrides` as under the
source shape with the source strides, the elements being counted in the requested order. -/
theorem attempt_nocopy_reshape_sound_in_range (self : PyArrayObject)
    (hwf : self.strides.length = self.dimensions.length) (newdims buf ns : List Int)
    (is_f_order : Bool)
    (hd : ∀ d ∈ self.dimensions, 0 ≤ d) (hn : ∀ d ∈ newdims, 0 < d)
    (hfitn : newdims.prod < 2147483648) (hfitd : self.dimensions.prod < 2147483648)
    (hbuf : newdims.length ≤ buf.length)
    (h : _attempt_nocopy_reshape self newdims buf is_f_order = some (1, ns))
    (k : Int) (_hk0 : 0 ≤ k) (_hk1 : k < newdims.prod) :
    (is_f_order = false →
      byte_offset_c newdims ns k = byte_offset_c self.dimensions self.strides k) ∧
    (is_f_order = true →
      byte_offset_f newdims ns k = byte_offset_f self.dimensions self.strides k) := by
  obtain ⟨hpos, htot, hloop⟩ :=
    attempt_nocopy_reshape_one self hwf newdims buf ns is_f_order hd hn hfitn hfitd h
  have hlen := strip_ones_length self.dimensions self.strides
  have ho : ∀ d ∈ (strip_ones self.dimensions self.strides).1, 0 < d :=
    fun d hdm => (hpos d hdm).1
  constructor
  · intro hf
    rw [hf] at hloop
    obtain ⟨ni1, oi1, b1, b2, b3, b4, b5, b6⟩ := reshape_loop_sound_c _ _ newdims hn ho hlen
      newdims.length 0 0 buf ns (Nat.zero_le _) (Nat.zero_le _)
      (by rw [List.drop_zero, List.drop_zero]; exact htot)
      (by rw [List.drop_zero]; exact hfitn) hbuf (fun k => by simp [byte_offset_c]) hloop
    obtain ⟨e1, e2, e3⟩ := loop_exit_state newdims _ hn hpos ni1 oi1 b2 b3 b4
    rw [← byte_offset_c_strip _ _ _ hwf]
    conv_lhs => rw [← List.take_append_drop ni1 newdims, ← List.take_append_drop ni1 ns]
    rw [byte_offset_c_append _ _ _ _ _ (by simp; omega)
      (fun d hd => hn d (List.mem_of_mem_take hd)) (by rw [e2]; exact one_pos),
      byte_offset_c_ones _ _ _ e3, b6, e2, e1, Int.ediv_one, add_zero,
      List.take_length, ← hlen, List.take_length]
  · intro hf
    rw [hf] at hloop
    obtain ⟨ni1, oi1, b1, b2, b3, b4, b5, b6⟩ := reshape_loop_sound_f _ _ newdims hn ho hlen htot
      newdims.length 0 0 buf ns (Nat.zero_le _) (Nat.zero_le _)
      (by rw [List.drop_zero, List.drop_zero]; exact htot)
      (by rw [List.drop_zero]; exact hfitn) hbuf (fun k => by simp [byte_offset_f]) hloop
    obtain ⟨e1, e2, e3⟩ := loop_exit_state newdims _ hn hpos ni1 oi1 b2 b3 b4
    rw [← byte_offset_f_strip self.dimensions self.strides]
    conv_lhs => rw [← List.take_append_drop ni1 newdims, ← List.take_append_drop ni1 ns]
    rw [byte_offset_f_append _ _ _ _ _ (by simp; omega)
      (fun d hd => hn d (List.mem_of_mem_take hd)),
      byte_offset_f_ones _ _ _ e3, b6, e1, add_zero,
      List.take_length, ← hlen, List.take_length]

/-- The soundness theorem at the source of shape `(2, 3)` with strides `(24, 8)` and the
target shape `(3, 2)` in C order: the function returns 1 with the strides `(16, 8)`, and the
element number 4 is at byte offset 32 in both layouts. -/
theorem attempt_nocopy_reshape_sound_in_range_witness :
    _attempt_nocopy_reshape ⟨[2, 3], [24, 8]⟩ [3, 2] [0, 0] false = some (1, [16, 8]) ∧
    byte_offset_c [3, 2] [16, 8] 4 = 32 ∧
    byte_offset_c [3, 2] [16, 8] 4 = byte_offset_c [2, 3] [24, 8] 4 :=
  ⟨by decide, by decide,
    (attempt_nocopy_reshape_sound_in_range ⟨[2, 3], [24, 8]⟩ rfl [3, 2] [0, 0] [16, 8] false
      (by decide) (by decide) (by decide) (by decide) (by decide) (by decide) 4 (by decide)
      (by decide)).1 rfl⟩


/-! ## The fuel of the two `while` loops -/

/-- The loop that extends the runs only moves `nj` and `oj` forward. -/
theorem extend_runs_mono (newdims olddims : List Int) (fuel : Nat) (np op : Int)
    (nj oj nj1 oj1 : Nat)
    (h : extend_runs newdims olddims fuel np op nj oj = some (nj1, oj1)) :
    nj ≤ nj1 ∧ oj ≤ oj1 := by
  induction fuel generalizing np op nj oj with
  | zero =>
    rw [extend_runs] at h
    split_ifs at h
    simp only [Option.some.injEq, Prod.mk.injEq] at h
    omega
  | succ fuel ih =>
    rw [extend_runs] at h
    split_ifs at h with h1 h2
    · simp only [Option.some.injEq, Prod.mk.injEq] at h
      omega
    · cases hd : newdims[nj]? with
      | none => rw [hd] at h; simp at h
      | some d =>
        rw [hd] at h
        have := ih _ _ _ _ h
        omega
    · cases hd : olddims[oj]? with
      | none => rw [hd] at h; simp at h
      | some d =>
        rw [hd] at h
        have := ih _ _ _ _ h
        omega

/-- The fuel of the loop that extends the runs is only a bound on the number of
iterations: with as much fuel as there are dimensions left to read, the result does not
depend on the fuel, and a result `none` is an out-of-bounds read. -/
theorem extend_runs_fuel (newdims olddims : List Int) (f1 f2 : Nat) (np op : Int) (nj oj : Nat)
    (h1 : (newdims.length - nj) + (olddims.length - oj) ≤ f1)
    (h2 : (newdims.length - nj) + (olddims.length - oj) ≤ f2) :
    extend_runs newdims olddims f1 np op nj oj = extend_runs newdims olddims f2 np op nj oj := by
  induction f1 generalizing f2 np op nj oj with
  | zero =>
    have hn : newdims.length ≤ nj := by omega
    have ho : olddims.length ≤ oj := by omega
    cases f2 with
    | zero => rfl
    | succ f2 =>
      rw [extend_runs, extend_runs]
      split_ifs
      · rfl
      · rw [List.getElem?_eq_none hn]
      · rw [List.getElem?_eq_none ho]
  | succ f1 ih =>
    cases f2 with
    | zero =>
      have hn : newdims.length ≤ nj := by omega
      have ho : olddims.length ≤ oj := by omega
      rw [extend_runs, extend_runs]
      split_ifs
      · rfl
      · rw [List.getElem?_eq_none hn]
      · rw [List.getElem?_eq_none ho]
    | succ f2 =>
      rw [extend_runs, extend_runs]
      split_ifs with hnp hlt
      · rfl
      · cases hd : newdims[nj]? with
        | none => rfl
        | some d =>
          have hlt : nj < newdims.length := by
            by_contra hge
            rw [List.getElem?_eq_none (by omega)] at hd
            simp at hd
          exact ih f2 _ _ _ _ (by omega) (by omega)
      · cases hd : olddims[oj]? with
        | none => rfl
        | some d =>
          have hlt : oj < olddims.length := by
            by_contra hge
            rw [List.getElem?_eq_none (by omega)] at hd
            simp at hd
          exact ih f2 _ _ _ _ (by omega) (by omega)

/-- The fuel of the main loop is only a bound on the number of iterations: every iteration
advances `ni`, so with as much fuel as there are new axes left the result does not depend on
the fuel. -/
theorem reshape_loop_fuel (olddims oldstrides newdims : List Int) (is_f_order : Bool)
    (f1 f2 oi oj ni nj : Nat) (buf : List Int) (hnj : ni < nj)
    (h1 : newdims.length - ni ≤ f1) (h2 : newdims.length - ni ≤ f2) :
    reshape_loop olddims oldstrides newdims is_f_order f1 oi oj ni nj buf =
      reshape_loop olddims oldstrides newdims is_f_order f2 oi oj ni nj buf := by
  induction f1 generalizing f2 oi oj ni nj buf with
  | zero =>
    cases f2 with
    | zero => rfl
    | succ f2 => rw [reshape_loop, reshape_loop, if_pos (by omega), if_pos (by omega)]
  | succ f1 ih =>
    cases f2 with
    | zero => rw [reshape_loop, reshape_loop, if_pos (by omega), if_pos (by omega)]
    | succ f2 =>
      rw [reshape_loop, reshape_loop]
      by_cases hc : ni < newdims.length ∧ oi < olddims.length
      swap
      · rw [if_pos hc, if_pos hc]
      rw [if_neg (not_not.mpr hc), if_neg (not_not.mpr hc)]
      cases hdn : newdims[ni]? with
      | none => rfl
      | some dn =>
        cases hdo : olddims[oi]? with
        | none => rfl
        | some d =>
          simp only
          cases he : extend_runs newdims olddims (newdims.length + olddims.length)
              (toCInt dn) (toCInt d) nj oj with
          | none => rfl
          | some r =>
            obtain ⟨nj1, oj1⟩ := r
            have hm := extend_runs_mono _ _ _ _ _ _ _ _ _ he
            simp only
            cases check_run olddims oldstrides is_f_order (oj1 - 1 - oi) oi with
            | none => rfl
            | some b =>
              cases b with
              | false => rfl
              | true =>
                simp only
                cases fill_run newdims oldstrides is_f_order oi oj1 ni nj1 buf with
                | none => rfl
                | some buf1 =>
                  simp only
                  exact ih f2 _ _ _ _ _ (by omega) (by omega) (by omega)


/-! ## `PyArray_Squeeze` -/

/-- The flags computed by `PyArray_Squeeze` mark the axes of length 1, and `any_ones` tells
whether there is one. -/
theorem mark_unit_dims_spec (shape : List Int) :
    (mark_unit_dims shape).1 = shape.map (fun d => decide (d = 1)) ∧
    ((mark_unit_dims shape).2 = true ↔ ∃ d ∈ shape, d = 1) := by
  induction shape with
  | nil => simp [mark_unit_dims]
  | cons d shape ih =>
    by_cases hd : d = 1
    · simp [mark_unit_dims, hd, ih.1]
    · simp [mark_unit_dims, hd, ih.1, ih.2]
      intro h
      exact absurd h.symm hd

/-- Two lists of the same length, read side by side. -/
theorem zip_eq_map_range (D X : List Int) (hlen : X.length = D.length) :
    D.zip X = (List.range D.length).map (fun i => (D.getD i 0, X.getD i 0)) := by
  apply List.ext_getElem?
  intro i
  by_cases hi : i < D.length
  · rw [List.getElem?_map, List.getElem?_range hi, Option.map_some',
      List.getElem?_eq_getElem (by simp; omega), List.getElem_zip,
      List.getD_eq_getElem _ _ hi, List.getD_eq_getElem _ _ (by omega)]
  · rw [List.getElem?_eq_none (by simp; omega), List.getElem?_eq_none (by simp; omega)]

/-- The entries at the axes selected by a test on the dimension, read by index, are the
pairs of the zipped layout that pass the test. -/
theorem map_filter_range_eq (D X : List Int) (hlen : X.length = D.length) (q : Int → Bool) :
    ((List.range D.length).filter (fun i => q (D.getD i 0))).map
        (fun i => (D.getD i 0, X.getD i 0)) =
      (D.zip X).filter (fun p => q p.1) := by
  rw [zip_eq_map_range D X hlen, List.filter_map]
  rfl

/-- The flag of an axis, read with a default past the end, is the test of its dimension. -/
theorem getD_map_unit (dims : List Int) (i : Nat) :
    (dims.map (fun d => decide (d = 1))).getD i false = decide (dims.getD i 0 = 1) := by
  rw [List.getD_eq_getElem?_getD, List.getD_eq_getElem?_getD, List.getElem?_map]
  cases dims[i]? <;> simp

/-- What `PyArray_Squeeze` returns: the dimensions and strides of the axes whose length
is not 1, in order. -/
theorem squeeze_eq (self : PyArrayObject) (hwf : self.strides.length = self.dimensions.length) :
    (PyArray_Squeeze self).dimensions =
      ((self.dimensions.zip self.strides).filter (fun p => decide (p.1 ≠ 1))).map Prod.fst ∧
    (PyArray_Squeeze self).strides =
      ((self.dimensions.zip self.strides).filter (fun p => decide (p.1 ≠ 1))).map Prod.snd := by
  have hpred : (fun p : Int × Int => decide (p.1 ≠ 1)) =
      (fun p : Int × Int => (fun d : Int => !decide (d = 1)) p.1) := by
    funext p
    simp
  unfold PyArray_Squeeze
  by_cases hany : (mark_unit_dims self.dimensions).2 = true
  · rw [if_neg (not_not.mpr hany)]
    obtain ⟨-, e2, e3⟩ := compress_axes_spec (mark_unit_dims self.dimensions).1
      (PyArray_NDIM self) 0 0 self.dimensions self.strides le_rfl
      (by simp [PyArray_NDIM]) (by simp [PyArray_NDIM, hwf])
    have hfilter : (List.range' 0 (PyArray_NDIM self)).filter
          (fun i => !(mark_unit_dims self.dimensions).1.getD i false) =
        (List.range self.dimensions.length).filter
          (fun i => (fun d : Int => !decide (d = 1)) (self.dimensions.getD i 0)) := by
      rw [List.range_eq_range', (mark_unit_dims_spec self.dimensions).1]
      apply List.filter_congr
      intro i _
      rw [getD_map_unit]
    rw [hfilter] at e2 e3
    simp only [List.take_zero, List.nil_append] at e2 e3
    have hz := map_filter_range_eq self.dimensions self.strides hwf (fun d => !decide (d = 1))
    rw [hpred, ← hz, List.map_map, List.map_map]
    exact ⟨e2, e3⟩
  · rw [if_pos hany]
    have hall : ∀ p ∈ self.dimensions.zip self.strides, decide (p.1 ≠ 1) = true := by
      intro p hp
      have hmem : p.1 ∈ self.dimensions := (List.of_mem_zip hp).1
      have hno : ¬ ∃ d ∈ self.dimensions, d = 1 :=
        fun h => hany ((mark_unit_dims_spec self.dimensions).2.mpr h)
      have : p.1 ≠ 1 := fun h1 => hno ⟨p.1, hmem, h1⟩
      simpa using this
    rw [List.filter_eq_self.mpr hall, List.map_fst_zip _ _ (by omega),
      List.map_snd_zip _ _ (by omega)]
    exact ⟨rfl, rfl⟩

/-- The shape returned by `PyArray_Squeeze`: the dimensions that are not 1. -/
theorem squeeze_dimensions (self : PyArrayObject)
    (hwf : self.strides.length = self.dimensions.length) :
    (PyArray_Squeeze self).dimensions = self.dimensions.filter (fun d => decide (d ≠ 1)) := by
  rw [(squeeze_eq self hwf).1]
  conv_rhs => rw [← List.map_fst_zip self.dimensions self.strides (by omega), List.filter_map]
  rfl

/-- C11. `PyArray_Squeeze` returns a layout whose (shape, stride) pairs are the source's
pairs at the axes of size different from 1, in the original order; the result has no axis of
size 1 and the same total element count as the source, and squeezing it again changes
nothing. -/
theorem squeeze_spec (self : PyArrayObject)
    (hwf : self.strides.length = self.dimensions.length) :
    (PyArray_Squeeze self).dimensions =
      ((self.dimensions.zip self.strides).filter (fun p => decide (p.1 ≠ 1))).map Prod.fst ∧
    (PyArray_Squeeze self).strides =
      ((self.dimensions.zip self.strides).filter (fun p => decide (p.1 ≠ 1))).map Prod.snd ∧
    (∀ d ∈ (PyArray_Squeeze self).dimensions, d ≠ 1) ∧
    (PyArray_Squeeze self).dimensions.prod = self.dimensions.prod ∧
    PyArray_Squeeze (PyArray_Squeeze self) = PyArray_Squeeze self := by
  have hno : ∀ d ∈ (PyArray_Squeeze self).dimensions, d ≠ 1 := by
    intro d hd
    rw [squeeze_dimensions self hwf] at hd
    simpa using (List.mem_filter.mp hd).2
  refine ⟨(squeeze_eq self hwf).1, (squeeze_eq self hwf).2, hno, ?_, ?_⟩
  · rw [squeeze_dimensions self hwf, prod_filter_ne_one]
  · have hany : ¬ (mark_unit_dims (PyArray_Squeeze self).dimensions).2 = true := by
      intro h
      obtain ⟨d, hd, h1⟩ := (mark_unit_dims_spec _).2.mp h
      exact hno d hd h1
    conv_lhs => rw [PyArray_Squeeze, if_pos hany]

/-- C11 at the layout of shape `(2, 1, 4, 1)` with strides `(4, 4, 1, 1)`: the result has
shape `(2, 4)` and strides `(4, 1)`. -/
theorem squeeze_spec_witness :
    PyArray_Squeeze ⟨[2, 1, 4, 1], [4, 4, 1, 1]⟩ = ⟨[2, 4], [4, 1]⟩ ∧
    (PyArray_Squeeze ⟨[2, 1, 4, 1], [4, 4, 1, 1]⟩).dimensions.prod =
      ([2, 1, 4, 1] : List Int).prod ∧
    PyArray_Squeeze (PyArray_Squeeze ⟨[2, 1, 4, 1], [4, 4, 1, 1]⟩) =
      PyArray_Squeeze ⟨[2, 1, 4, 1], [4, 4, 1, 1]⟩ :=
  ⟨by decide, (squeeze_spec ⟨[2, 1, 4, 1], [4, 4, 1, 1]⟩ rfl).2.2.2.1,
    (squeeze_spec ⟨[2, 1, 4, 1], [4, 4, 1, 1]⟩ rfl).2.2.2.2⟩


/-! ## `_check_ones` and the unit-axis shortcut of `PyArray_Newshape` -/

/-- The entry at the head of a suffix. -/
theorem getElem?_of_drop_eq_cons {α : Type} (l : List α) (k : Nat) (a : α) (rest : List α)
    (h : l.drop k = a :: rest) : l[k]? = some a ∧ l.drop (k + 1) = rest ∧ k < l.length := by
  have hk : k < l.length := by
    by_contra hge
    rw [List.drop_of_length_le (by omega)] at h
    simp at h
  rw [List.drop_eq_getElem_cons hk] at h
  obtain ⟨h1, h2⟩ := List.cons.inj h
  exact ⟨by rw [List.getElem?_eq_getElem hk, h1], h2, hk⟩

/-- The loop of `_check_ones` when the source is the target stripped of its axes of
length 1: `Z` lists the (dimension, stride) pairs of the target layout, the source has the
pairs of `Z` whose dimension is not 1. From a state `(j, k)` that has consumed the same
pairs on both sides, the loop returns 0 and writes, for each remaining target axis, its own
stride when its length is not 1 and 0 otherwise. -/
theorem check_ones_loop_squeezed (Z : List (Int × Int)) (Zs : List (Int × Int))
    (fuel j k : Nat) (strides : List Int)
    (hZ : Z.drop k = Zs)
    (hF : (Z.filter (fun p => decide (p.1 ≠ 1))).drop j = Zs.filter (fun p => decide (p.1 ≠ 1)))
    (hfuel : Zs.length + (Zs.filter (fun p => decide (p.1 ≠ 1))).length ≤ fuel) :
    check_ones_loop ((Z.filter (fun p => decide (p.1 ≠ 1))).map Prod.fst)
        ((Z.filter (fun p => decide (p.1 ≠ 1))).map Prod.snd) (Z.map Prod.fst) fuel j k strides =
      (0, strides ++ Zs.map (fun p => if p.1 ≠ 1 then p.2 else 0)) := by
  induction Zs generalizing fuel j k strides with
  | nil =>
    have hk : Z.length ≤ k := List.drop_eq_nil_iff.mp hZ
    have hj : (Z.filter (fun p => decide (p.1 ≠ 1))).length ≤ j := by
      rw [List.filter_nil] at hF
      exact List.drop_eq_nil_iff.mp hF
    have hcond : ¬ (j < ((Z.filter (fun p => decide (p.1 ≠ 1))).map Prod.fst).length ∨
        k < (Z.map Prod.fst).length) := by
      simp only [List.length_map]
      omega
    cases fuel with
    | zero => rw [check_ones_loop, if_pos hcond]; simp
    | succ fuel => rw [check_ones_loop, if_pos hcond]; simp
  | cons p rest ih =>
    obtain ⟨hk1, hk2, hk3⟩ := getElem?_of_drop_eq_cons Z k p rest hZ
    have hnk : (Z.map Prod.fst).getD k 0 = p.1 := by
      rw [List.getD_eq_getElem?_getD, List.getElem?_map, hk1]
      rfl
    cases fuel with
    | zero => simp at hfuel
    | succ fuel =>
      rw [check_ones_loop, if_neg (not_not.mpr (Or.inr (by rw [List.length_map]; exact hk3)))]
      by_cases hp : p.1 = 1
      · -- a target axis of length 1: the source has no axis of length 1 to match it
        have hF1 : (Z.filter (fun p => decide (p.1 ≠ 1))).drop j =
            rest.filter (fun p => decide (p.1 ≠ 1)) := by
          rw [hF, List.filter_cons_of_neg (by simpa using hp)]
        have hnomatch : ¬ (j < ((Z.filter (fun p => decide (p.1 ≠ 1))).map Prod.fst).length ∧
            k < (Z.map Prod.fst).length ∧
            (Z.map Prod.fst).getD k 0 =
              ((Z.filter (fun p => decide (p.1 ≠ 1))).map Prod.fst).getD j 0) := by
          rintro ⟨hj, -, heq⟩
          rw [hnk, hp, List.getD_eq_getElem _ _ hj] at heq
          have hmem := List.getElem_mem hj
          obtain ⟨q, hq, hq1⟩ := List.mem_map.mp hmem
          have := (List.mem_filter.mp hq).2
          rw [hq1, ← heq] at this
          simp at this
        rw [if_neg hnomatch, if_pos ⟨by rw [List.length_map]; exact hk3, by rw [hnk, hp]⟩,
          ih fuel j (k + 1) (strides ++ [0]) hk2 hF1
            (by rw [List.filter_cons_of_neg (by simpa using hp)] at hfuel
                simp only [List.length_cons] at hfuel
                omega)]
        simp [hp]
      · -- a target axis of length other than 1: it is the next source axis
        have hFc : (Z.filter (fun p => decide (p.1 ≠ 1))).drop j =
            p :: rest.filter (fun p => decide (p.1 ≠ 1)) := by
          rw [hF, List.filter_cons_of_pos (by simpa using hp)]
        obtain ⟨hj1, hj2, hj3⟩ := getElem?_of_drop_eq_cons _ j p _ hFc
        have hdj : ((Z.filter (fun p => decide (p.1 ≠ 1))).map Prod.fst).getD j 0 = p.1 := by
          rw [List.getD_eq_getElem?_getD, List.getElem?_map, hj1]
          rfl
        have hsj : ((Z.filter (fun p => decide (p.1 ≠ 1))).map Prod.snd).getD j 0 = p.2 := by
          rw [List.getD_eq_getElem?_getD, List.getElem?_map, hj1]
          rfl
        rw [if_pos ⟨by rw [List.length_map]; exact hj3, by rw [List.length_map]; exact hk3,
            by rw [hnk, hdj]⟩, hsj,
          ih fuel (j + 1) (k + 1) (strides ++ [p.2]) hk2 hj2
            (by rw [List.filter_cons_of_pos (by simpa using hp)] at hfuel
                simp only [List.length_cons] at hfuel
                omega)]
        simp [hp]

/-- The Fortran-order fix-up loop keeps the length of the strides and the stride of every
axis whose length is not 1. -/
theorem fix_strides_f_keeps (dimensions : List Int) (n i : Nat) (strides : List Int) :
    (fix_strides_f dimensions n i strides).length = strides.length ∧
    ∀ m : Nat, dimensions.getD m 0 ≠ 1 →
      (fix_strides_f dimensions n i strides)[m]? = strides[m]? := by
  induction n generalizing i strides with
  | zero => exact ⟨rfl, fun _ _ => rfl⟩
  | succ n ih =>
    rw [fix_strides_f]
    by_cases hd : dimensions.getD i 0 = 1
    · rw [if_pos hd]
      obtain ⟨h1, h2⟩ := ih (i + 1)
        (strides.set i (strides.getD (i - 1) 0 * dimensions.getD (i - 1) 0))
      refine ⟨by rw [h1, List.length_set], fun m hm => ?_⟩
      rw [h2 m hm, List.getElem?_set, if_neg]
      intro him
      exact hm (him ▸ hd)
    · rw [if_neg hd]
      exact ih (i + 1) strides

/-- The C-order fix-up loop keeps the length of the strides and the stride of every axis
whose length is not 1. -/
theorem fix_strides_c_keeps (dimensions : List Int) (n : Nat) (strides : List Int) :
    (fix_strides_c dimensions n strides).length = strides.length ∧
    ∀ m : Nat, dimensions.getD m 0 ≠ 1 →
      (fix_strides_c dimensions n strides)[m]? = strides[m]? := by
  induction n generalizing strides with
  | zero => exact ⟨rfl, fun _ _ => rfl⟩
  | succ i ih =>
    rw [fix_strides_c]
    by_cases hd : dimensions.getD i 0 = 1
    · rw [if_pos hd]
      obtain ⟨h1, h2⟩ := ih (strides.set i (strides.getD (i + 1) 0 * dimensions.getD (i + 1) 0))
      refine ⟨by rw [h1, List.length_set], fun m hm => ?_⟩
      rw [h2 m hm, List.getElem?_set, if_neg]
      intro him
      exact hm (him ▸ hd)
    · rw [if_neg hd]
      exact ih strides

/-- The fix-up of lines 270-295 keeps the length of the strides and the stride of every
axis whose length is not 1. -/
theorem fix_unit_strides_keeps (dimensions strides : List Int) (elsize : Int) (fortran : Bool) :
    (fix_unit_strides dimensions strides elsize fortran).length = strides.length ∧
    ∀ m : Nat, dimensions.getD m 0 ≠ 1 →
      (fix_unit_strides dimensions strides elsize fortran)[m]? = strides[m]? := by
  unfold fix_unit_strides
  simp only
  split_ifs with h0 hf hd hd
  · obtain ⟨h1, h2⟩ := fix_strides_f_keeps dimensions (dimensions.length - 1) 1
      (strides.set 0 elsize)
    refine ⟨by rw [h1, List.length_set], fun m hm => ?_⟩
    rw [h2 m hm, List.getElem?_set, if_neg]
    intro him
    exact hm (him ▸ hd)
  · exact fix_strides_f_keeps dimensions (dimensions.length - 1) 1 strides
  · obtain ⟨h1, h2⟩ := fix_strides_c_keeps dimensions (dimensions.length - 1)
      (strides.set (dimensions.length - 1) elsize)
    refine ⟨by rw [h1, List.length_set], fun m hm => ?_⟩
    rw [h2 m hm, List.getElem?_set, if_neg]
    intro him
    exact hm (him ▸ hd)
  · exact fix_strides_c_keeps dimensions (dimensions.length - 1) strides
  · exact ⟨rfl, fun _ _ => rfl⟩

/-- What `_check_ones` returns for the source `PyArray_Squeeze(L)` and the target shape
`L.shape`: 0, with the stride of `L` written for every axis of length other than 1 and 0
for the others. -/
theorem check_ones_squeeze (L : PyArrayObject) (hwf : L.strides.length = L.dimensions.length) :
    _check_ones (PyArray_Squeeze L) L.dimensions =
      (0, (L.dimensions.zip L.strides).map (fun p => if p.1 ≠ 1 then p.2 else 0)) := by
  have hD : L.dimensions = (L.dimensions.zip L.strides).map Prod.fst :=
    (List.map_fst_zip _ _ (by omega)).symm
  have hZl : (L.dimensions.zip L.strides).length = L.dimensions.length := by
    rw [List.length_zip, hwf, Nat.min_self]
  have key : ∀ D : List Int, D = (L.dimensions.zip L.strides).map Prod.fst →
      D.length = L.dimensions.length →
      check_ones_loop
        (((L.dimensions.zip L.strides).filter (fun p => decide (p.1 ≠ 1))).map Prod.fst)
        (((L.dimensions.zip L.strides).filter (fun p => decide (p.1 ≠ 1))).map Prod.snd) D
        ((((L.dimensions.zip L.strides).filter (fun p => decide (p.1 ≠ 1))).map
          Prod.fst).length + D.length) 0 0 [] =
      (0, (L.dimensions.zip L.strides).map (fun p => if p.1 ≠ 1 then p.2 else 0)) := by
    intro D hDe hDl
    rw [hDl, hDe, check_ones_loop_squeezed (L.dimensions.zip L.strides)
      (L.dimensions.zip L.strides) _ 0 0 [] rfl rfl
      (by simp only [List.length_map]; omega)]
    rfl
  unfold _check_ones
  rw [(squeeze_eq L hwf).1, (squeeze_eq L hwf).2]
  exact key L.dimensions hD rfl

/-- C12. For every layout `L`, reshaping `PyArray_Squeeze(L)` back to the shape of `L` is
accepted by the unit-axis shortcut: `_check_ones` returns 0 for the source
`PyArray_Squeeze(L)` and the target shape `L.shape`, the view that `PyArray_Newshape` builds
has the shape of `L`, and the stride of every axis of size different from 1 is the stride of
`L` at that axis, in both orders. -/
theorem squeeze_reinsert_round_trip (L : PyArrayObject)
    (hwf : L.strides.length = L.dimensions.length) :
    (_check_ones (PyArray_Squeeze L) L.dimensions).1 = 0 ∧
    (_check_ones (PyArray_Squeeze L) L.dimensions).2.length = L.dimensions.length ∧
    (∀ i : Nat, L.dimensions.getD i 0 ≠ 1 →
      (_check_ones (PyArray_Squeeze L) L.dimensions).2[i]? = L.strides[i]?) ∧
    ∀ (elsize : Int) (fortran : Bool),
      ∃ r, newshape_shortcut (PyArray_Squeeze L) elsize L.dimensions fortran = some r ∧
        r.dimensions = L.dimensions ∧ r.strides.length = L.dimensions.length ∧
        ∀ i : Nat, L.dimensions.getD i 0 ≠ 1 → r.strides[i]? = L.strides[i]? := by
  have hck := check_ones_squeeze L hwf
  have hZl : (L.dimensions.zip L.strides).length = L.dimensions.length := by
    rw [List.length_zip, hwf, Nat.min_self]
  have hS : ∀ i : Nat, L.dimensions.getD i 0 ≠ 1 →
      ((L.dimensions.zip L.strides).map (fun p => if p.1 ≠ 1 then p.2 else 0))[i]? =
        L.strides[i]? := by
    intro i hi
    by_cases hlt : i < L.dimensions.length
    · rw [List.getD_eq_getElem _ _ hlt] at hi
      rw [List.getElem?_map, List.getElem?_eq_getElem (by omega), Option.map_some',
        List.getElem_zip, List.getElem?_eq_getElem (by omega)]
      simp only [ne_eq, hi, not_false_eq_true, if_true]
    · rw [List.getElem?_eq_none (by simp only [List.length_map]; omega),
        List.getElem?_eq_none (by omega)]
  refine ⟨by rw [hck], by rw [hck]; simp only [List.length_map]; exact hZl,
    fun i hi => by rw [hck]; exact hS i hi, ?_⟩
  intro elsize fortran
  unfold newshape_shortcut
  by_cases hq : L.dimensions.length = PyArray_NDIM (PyArray_Squeeze L) ∧
      (PyArray_Squeeze L).dimensions = L.dimensions
  · rw [if_pos hq]
    have hno : ∀ p ∈ L.dimensions.zip L.strides, decide (p.1 ≠ 1) = true := by
      intro p hp
      have hmem : p.1 ∈ (PyArray_Squeeze L).dimensions := by
        rw [hq.2]
        exact (List.of_mem_zip hp).1
      rw [squeeze_dimensions L hwf] at hmem
      exact (List.mem_filter.mp hmem).2
    have hstr : (PyArray_Squeeze L).strides = L.strides := by
      rw [(squeeze_eq L hwf).2, List.filter_eq_self.mpr hno, List.map_snd_zip _ _ (by omega)]
    exact ⟨_, rfl, hq.2, by rw [hstr, hwf], fun i _ => by rw [hstr]⟩
  · rw [if_neg hq, if_pos (by rw [hck])]
    obtain ⟨h1, h2⟩ := fix_unit_strides_keeps L.dimensions
      (_check_ones (PyArray_Squeeze L) L.dimensions).2 elsize fortran
    refine ⟨_, rfl, rfl, ?_, ?_⟩
    · simp only
      rw [h1, hck]
      simp only [List.length_map]
      exact hZl
    · intro i hi
      simp only
      rw [h2 i hi, hck]
      exact hS i hi

/-- C12 at the layout of shape `(2, 1, 4, 1)` with strides `(4, 4, 1, 1)`: `_check_ones`
accepts the squeezed source with the strides `(4, 0, 1, 0)`, and the C-order view has the
shape `(2, 1, 4, 1)` with the strides 4 and 1 at the axes 0 and 2. -/
theorem squeeze_reinsert_round_trip_witness :
    _check_ones (PyArray_Squeeze ⟨[2, 1, 4, 1], [4, 4, 1, 1]⟩) [2, 1, 4, 1] =
      (0, [4, 0, 1, 0]) ∧
    newshape_shortcut (PyArray_Squeeze ⟨[2, 1, 4, 1], [4, 4, 1, 1]⟩) 1 [2, 1, 4, 1] false =
      some ⟨[2, 1, 4, 1], [4, 4, 1, 1]⟩ ∧
    (_check_ones (PyArray_Squeeze ⟨[2, 1, 4, 1], [4, 4, 1, 1]⟩) [2, 1, 4, 1]).1 = 0 :=
  ⟨by decide, by decide, (squeeze_reinsert_round_trip ⟨[2, 1, 4, 1], [4, 4, 1, 1]⟩ rfl).1⟩

/-! ## PyArray_CreateSortedStridePerm -/

theorem abs_eq_ite (x : Int) : (if x < 0 then -x else x) = |x| := by
  split_ifs with h
  · exact (abs_of_neg h).symm
  · exact (abs_of_nonneg (not_lt.mp h)).symm

theorem qsort_insert_perm {α : Type} (compar : α → α → Int) (x : α) (l : List α) :
    (qsort_insert compar x l).Perm (x :: l) := by
  induction l with
  | nil => exact List.Perm.refl _
  | cons y ys ih =>
    unfold qsort_insert
    split_ifs
    · exact List.Perm.refl _
    · exact (List.Perm.cons y ih).trans (List.Perm.swap x y ys)

theorem qsort_model_perm {α : Type} (compar : α → α → Int) (l : List α) :
    (qsort_model compar l).Perm l := by
  induction l with
  | nil => exact List.Perm.refl _
  | cons x xs ih =>
    unfold qsort_model
    exact (qsort_insert_perm compar x _).trans (List.Perm.cons x ih)

theorem qsort_insert_chain {α : Type} (compar : α → α → Int) (x : α) (l : List α)
    (htot : ∀ y ∈ l, 0 < compar x y → compar y x ≤ 0)
    (hl : l.Chain' (fun a b => compar a b ≤ 0)) :
    (qsort_insert compar x l).Chain' (fun a b => compar a b ≤ 0) := by
  induction l with
  | nil => simp [qsort_insert]
  | cons y ys ih =>
    unfold qsort_insert
    by_cases h : compar x y ≤ 0
    · rw [if_pos h]
      exact List.Chain'.cons h hl
    · rw [if_neg h]
      have hyx : compar y x ≤ 0 := htot y (List.mem_cons_self _ _) (not_le.mp h)
      have ih2 := ih (fun z hz => htot z (List.mem_cons_of_mem _ hz)) hl.tail
      rw [List.chain'_cons']
      refine ⟨?_, ih2⟩
      intro z hz
      cases ys with
      | nil =>
        simp only [qsort_insert, List.head?_cons, Option.mem_def, Option.some.injEq] at hz
        rw [← hz]; exact hyx
      | cons w ws =>
        have hyw : compar y w ≤ 0 := (List.chain'_cons.mp hl).1
        unfold qsort_insert at hz
        split_ifs at hz
        · simp only [List.head?_cons, Option.mem_def, Option.some.injEq] at hz
          rw [← hz]; exact hyx
        · simp only [List.head?_cons, Option.mem_def, Option.some.injEq] at hz
          rw [← hz]; exact hyw

theorem comparator_total (a b : npy_stride_sort_item) (hne : a.perm ≠ b.perm)
    (h : 0 < _npy_stride_sort_item_comparator a b) :
    _npy_stride_sort_item_comparator b a ≤ 0 := by
  unfold _npy_stride_sort_item_comparator at h ⊢
  simp only [abs_eq_ite] at h ⊢
  split_ifs at h ⊢ <;> omega

theorem qsort_model_chain (l : List npy_stride_sort_item)
    (hnd : (l.map npy_stride_sort_item.perm).Nodup) :
    (qsort_model _npy_stride_sort_item_comparator l).Chain'
      (fun a b => _npy_stride_sort_item_comparator a b ≤ 0) := by
  induction l with
  | nil => simp [qsort_model]
  | cons x xs ih =>
    rw [List.map_cons, List.nodup_cons] at hnd
    unfold qsort_model
    apply qsort_insert_chain _ _ _ _ (ih hnd.2)
    intro y hy hpos
    have hy2 : y ∈ xs := (qsort_model_perm _ xs).subset hy
    exact comparator_total x y
      (fun he => hnd.1 (he ▸ List.mem_map_of_mem npy_stride_sort_item.perm hy2)) hpos

theorem strideperm_setup_perm (ndim : Nat) (shape strides : List Int) :
    (strideperm_setup ndim shape strides).map npy_stride_sort_item.perm = List.range ndim := by
  unfold strideperm_setup
  rw [List.map_map]
  exact List.map_id _

/-- The sorting routine of the model meets the promise of `qsort` on every input of
`PyArray_CreateSortedStridePerm`. -/
theorem sorted_stride_perm_is_qsort_output (ndim : Nat) (shape strides : List Int) :
    is_qsort_output _npy_stride_sort_item_comparator (strideperm_setup ndim shape strides)
      (PyArray_CreateSortedStridePerm ndim shape strides) :=
  ⟨qsort_model_perm _ _,
    qsort_model_chain _ (by rw [strideperm_setup_perm]; exact List.nodup_range ndim)⟩

theorem stride_order_trans (a b c : npy_stride_sort_item) (h1 : stride_order a b)
    (h2 : stride_order b c) : stride_order a c := by
  unfold stride_order at *
  rcases h1 with h | ⟨h, h'⟩ <;> rcases h2 with g | ⟨g, g'⟩
  · left; omega
  · left; omega
  · left; omega
  · right; exact ⟨by omega, by omega⟩

theorem comparator_stride_order (a b : npy_stride_sort_item) (ha : a.stride ≠ 0)
    (hb : b.stride ≠ 0) (h : _npy_stride_sort_item_comparator a b ≤ 0) : stride_order a b := by
  unfold _npy_stride_sort_item_comparator at h
  simp only [abs_eq_ite] at h
  have ha2 : |a.stride| ≠ 0 := abs_ne_zero.mpr ha
  have hb2 : |b.stride| ≠ 0 := abs_ne_zero.mpr hb
  unfold stride_order
  split_ifs at h with h1 h2 h3
  · rcases h1 with h1 | h1 | h1
    · right; exact ⟨h1, h2⟩
    · exact absurd h1 ha2
    · exact absurd h1 hb2
  · omega
  · left; omega
  · omega

theorem chain_stride_order (out : List npy_stride_sort_item)
    (hnz : ∀ e ∈ out, e.stride ≠ 0)
    (hc : out.Chain' (fun a b => _npy_stride_sort_item_comparator a b ≤ 0)) :
    out.Pairwise stride_order := by
  induction out with
  | nil => exact List.Pairwise.nil
  | cons x l ih =>
    have ihl := ih (fun e he => hnz e (List.mem_cons_of_mem _ he)) hc.tail
    refine List.Pairwise.cons ?_ ihl
    cases l with
    | nil => intro y hy; cases hy
    | cons y l2 =>
      have hxy : stride_order x y :=
        comparator_stride_order x y (hnz x (List.mem_cons_self _ _))
          (hnz y (List.mem_cons_of_mem _ (List.mem_cons_self _ _))) (List.chain'_cons.mp hc).1
      intro z hz
      rcases List.mem_cons.mp hz with hz | hz
      · rw [hz]; exact hxy
      · exact stride_order_trans x y z hxy ((List.pairwise_cons.mp ihl).1 z hz)

theorem strideperm_setup_mem (ndim : Nat) (shape strides : List Int)
    (e : npy_stride_sort_item) (he : e ∈ strideperm_setup ndim shape strides) :
    e.perm < ndim ∧
      e.stride = if shape.getD e.perm 0 = 1 then 0 else strides.getD e.perm 0 := by
  unfold strideperm_setup at he
  obtain ⟨i, hi, rfl⟩ := List.mem_map.mp he
  exact ⟨List.mem_range.mp hi, rfl⟩

/-- On the inputs without an effective stride 0 (no axis of length 1 and no stride 0),
every output that `qsort` may produce, and in particular that of the model, lists every
axis once with its signed stride, by descending absolute stride and with ties in ascending
axis number. -/
theorem sorted_stride_perm_descending (ndim : Nat) (shape strides : List Int)
    (hshape : shape.length = ndim) (hstrides : strides.length = ndim)
    (hone : ∀ d ∈ shape, d ≠ 1) (hzero : ∀ s ∈ strides, s ≠ 0) :
    is_qsort_output _npy_stride_sort_item_comparator (strideperm_setup ndim shape strides)
      (PyArray_CreateSortedStridePerm ndim shape strides) ∧
    ∀ out, is_qsort_output _npy_stride_sort_item_comparator
        (strideperm_setup ndim shape strides) out →
      (out.map npy_stride_sort_item.perm).Perm (List.range ndim) ∧
      (∀ e ∈ out, e.stride = strides.getD e.perm 0) ∧
      out.Pairwise stride_order := by
  refine ⟨sorted_stride_perm_is_qsort_output ndim shape strides, ?_⟩
  intro out hout
  have hmem : ∀ e ∈ out, e.perm < ndim ∧ e.stride = strides.getD e.perm 0 := by
    intro e he
    obtain ⟨h1, h2⟩ := strideperm_setup_mem ndim shape strides e (hout.1.subset he)
    refine ⟨h1, ?_⟩
    rw [h2, if_neg]
    rw [List.getD_eq_getElem _ _ (by omega)]
    exact hone _ (List.getElem_mem _)
  refine ⟨?_, fun e he => (hmem e he).2, ?_⟩
  · rw [← strideperm_setup_perm ndim shape strides]
    exact hout.1.map _
  · apply chain_stride_order out _ hout.2
    intro e he
    rw [(hmem e he).2, List.getD_eq_getElem _ _ (by have := (hmem e he).1; omega)]
    exact hzero _ (List.getElem_mem _)

/-- The strides `(4, -2, 12)` over the shape `(5, 5, 5)`: the output is
`[(2, 12), (0, 4), (1, -2)]`. -/
theorem sorted_stride_perm_descending_witness :
    PyArray_CreateSortedStridePerm 3 [5, 5, 5] [4, -2, 12] = [⟨2, 12⟩, ⟨0, 4⟩, ⟨1, -2⟩] ∧
    (PyArray_CreateSortedStridePerm 3 [5, 5, 5] [4, -2, 12]).Pairwise stride_order :=
  ⟨by decide,
    ((sorted_stride_perm_descending 3 [5, 5, 5] [4, -2, 12] rfl rfl (by decide)
      (by decide)).2 _ (sorted_stride_perm_descending 3 [5, 5, 5] [4, -2, 12] rfl rfl
        (by decide) (by decide)).1).2.2⟩

/-- C13. The claim fails at the shape `(1, 2)` with the strides `(16, 8)` (a C-contiguous
array of 8-byte elements): the effective strides are 0 for axis 0 and 8 for axis 1, so the
order by descending absolute effective stride is `[(1, 8), (0, 0)]`; the comparator however
puts `(0, 0)` before `(1, 8)` and not the other way round, so that `[(0, 0), (1, 8)]` is the
output of `qsort`, whatever its sorting method. -/
theorem sorted_stride_perm_unit_axis_not_last :
    strideperm_setup 2 [1, 2] [16, 8] = [⟨0, 0⟩, ⟨1, 8⟩] ∧
    _npy_stride_sort_item_comparator ⟨0, 0⟩ ⟨1, 8⟩ = -1 ∧
    _npy_stride_sort_item_comparator ⟨1, 8⟩ ⟨0, 0⟩ = 1 ∧
    PyArray_CreateSortedStridePerm 2 [1, 2] [16, 8] = [⟨0, 0⟩, ⟨1, 8⟩] ∧
    (∀ out, is_qsort_output _npy_stride_sort_item_comparator
        (strideperm_setup 2 [1, 2] [16, 8]) out ↔ out = [⟨0, 0⟩, ⟨1, 8⟩]) ∧
    ¬ (PyArray_CreateSortedStridePerm 2 [1, 2] [16, 8]).Pairwise stride_order := by
  refine ⟨by decide, by decide, by decide, by decide, ?_, ?_⟩
  · intro out
    have hs : strideperm_setup 2 [1, 2] [16, 8] = [⟨0, 0⟩, ⟨1, 8⟩] := by decide
    rw [hs]
    constructor
    · rintro ⟨hp, hc⟩
      have hlen := hp.length_eq
      match out, hlen, hp, hc with
      | [x, y], _, hp, hc =>
        have hx : x ∈ [(⟨0, 0⟩ : npy_stride_sort_item), ⟨1, 8⟩] := hp.subset (by simp)
        have hy : y ∈ [(⟨0, 0⟩ : npy_stride_sort_item), ⟨1, 8⟩] := hp.subset (by simp)
        have hnd : [x, y].Nodup := hp.nodup_iff.mpr (by decide)
        have hxy : x ≠ y := by
          intro h; rw [h] at hnd; simp at hnd
        have hcmp : _npy_stride_sort_item_comparator x y ≤ 0 := (List.chain'_cons.mp hc).1
        simp only [List.mem_cons, List.mem_singleton, List.not_mem_nil, or_false] at hx hy
        rcases hx with rfl | rfl <;> rcases hy with rfl | rfl
        · exact absurd rfl hxy
        · rfl
        · exact absurd hcmp (by decide)
        · exact absurd rfl hxy
    · rintro rfl
      exact ⟨List.Perm.refl _, List.Chain'.cons (by decide) (List.chain'_singleton _)⟩
  · have hs : PyArray_CreateSortedStridePerm 2 [1, 2] [16, 8] = [⟨0, 0⟩, ⟨1, 8⟩] := by decide
    rw [hs]
    intro h
    have h2 := (List.pairwise_cons.mp h).1 ⟨1, 8⟩ (by simp)
    unfold stride_order at h2
    simp at h2

/-- The comparator is not a consistent ordering once an effective stride is 0: for the
strides `(4, 8, 12)` over the shape `(2, 1, 2)` it puts `(0, 4)` before `(1, 0)` and
`(1, 0)` before `(2, 12)`, but `(2, 12)` before `(0, 4)`. -/
theorem comparator_not_transitive :
    strideperm_setup 3 [2, 1, 2] [4, 8, 12] = [⟨0, 4⟩, ⟨1, 0⟩, ⟨2, 12⟩] ∧
    _npy_stride_sort_item_comparator ⟨0, 4⟩ ⟨1, 0⟩ = -1 ∧
    _npy_stride_sort_item_comparator ⟨1, 0⟩ ⟨2, 12⟩ = -1 ∧
    _npy_stride_sort_item_comparator ⟨0, 4⟩ ⟨2, 12⟩ = 1 ∧
    _npy_stride_sort_item_comparator ⟨2, 12⟩ ⟨0, 4⟩ = -1 := by
  refine ⟨by decide, by decide, by decide, by decide, by decide⟩

/-! ## PyArray_CreateMultiSortedStridePerm -/

theorem vote_single (arr : PyArrayObject) (hone : ∀ d ∈ arr.dimensions, d ≠ 1) (a b : Nat) :
    vote [arr] a b =
      (false, decide (|arr.strides.getD b 0| < |arr.strides.getD a 0|)) := by
  have h1 : ∀ i : Nat, arr.dimensions.getD i 0 ≠ 1 := by
    intro i
    by_cases hi : i < arr.dimensions.length
    · rw [List.getD_eq_getElem _ _ hi]; exact hone _ (List.getElem_mem _)
    · rw [List.getD_eq_default _ _ (by omega)]; decide
  unfold vote
  rw [List.foldl_cons, List.foldl_nil]
  unfold vote_step s_intp_abs
  rw [if_pos ⟨h1 a, h1 b⟩, abs_eq_ite, abs_eq_ite]
  by_cases h : |arr.strides.getD a 0| ≤ |arr.strides.getD b 0|
  · rw [if_pos h, decide_eq_false (not_lt.mpr h)]
  · rw [if_neg h, if_pos rfl, decide_eq_true (not_le.mp h)]

theorem find_ipos_single (arr : PyArrayObject) (hone : ∀ d ∈ arr.dimensions, d ≠ 1)
    (out_strideperm : List Nat) (ax : Nat) (n : Nat) :
    find_ipos [arr] out_strideperm ax n n ≤ n ∧
    (∀ i, find_ipos [arr] out_strideperm ax n n ≤ i → i < n →
      |arr.strides.getD (out_strideperm.getD i 0) 0| < |arr.strides.getD ax 0|) ∧
    (find_ipos [arr] out_strideperm ax n n = 0 ∨
      |arr.strides.getD ax 0| ≤
        |arr.strides.getD (out_strideperm.getD (find_ipos [arr] out_strideperm ax n n - 1) 0) 0|) := by
  induction n with
  | zero =>
    refine ⟨le_refl _, fun i _ hi => absurd hi (Nat.not_lt_zero _), Or.inl rfl⟩
  | succ n ih =>
    unfold find_ipos
    rw [vote_single arr hone]
    simp only [Bool.false_eq_true, not_false_eq_true, if_true, decide_eq_true_eq]
    by_cases h : |arr.strides.getD (out_strideperm.getD n 0) 0| < |arr.strides.getD ax 0|
    · rw [if_pos h]
      obtain ⟨h1, h2, h3⟩ := ih
      refine ⟨by omega, ?_, h3⟩
      intro i hi hin
      by_cases hin2 : i < n
      · exact h2 i hi hin2
      · have : i = n := by omega
        rw [this]; exact h
    · rw [if_neg h]
      refine ⟨le_refl _, fun i hi hin => by omega, Or.inr ?_⟩
      rw [Nat.add_sub_cancel]
      exact not_lt.mp h

theorem getD_at (X Y : List Nat) (x : Nat) (i : Nat) (h : X.length = i) :
    (X ++ x :: Y).getD i 0 = x := by
  subst h
  rw [List.getD_eq_getElem?_getD, List.getElem?_append_right (le_refl _)]
  simp

theorem set_at (X Y : List Nat) (x z : Nat) (i : Nat) (h : X.length = i) :
    (X ++ x :: Y).set i z = X ++ z :: Y := by
  subst h
  rw [List.set_append_right _ _ (le_refl _)]
  simp

theorem shift_loop_spec (ipos : Nat) (n : Nat) :
    ∀ (A W : List Nat) (l : Nat) (C : List Nat), A.length = ipos → W.length = n →
      shift_loop ipos n (A ++ W ++ l :: C) = A ++ (W ++ [l]).headD 0 :: W ++ C := by
  induction n with
  | zero =>
    intro A W l C _ hW
    rw [List.length_eq_zero.mp hW]
    simp [shift_loop]
  | succ n ih =>
    intro A W l C hA hW
    obtain ⟨W2, w, rfl⟩ : ∃ W2 w, W = W2 ++ [w] := by
      rcases List.eq_nil_or_concat W with h | ⟨W2, w, h⟩
      · rw [h] at hW; cases hW
      · exact ⟨W2, w, by rw [h, List.concat_eq_append]⟩
    have hW2 : W2.length = n := by
      rw [List.length_append, List.length_singleton] at hW; omega
    unfold shift_loop
    have e1 : A ++ (W2 ++ [w]) ++ l :: C = (A ++ W2) ++ w :: (l :: C) := by simp
    have e2 : A ++ (W2 ++ [w]) ++ l :: C = (A ++ W2 ++ [w]) ++ l :: C := by simp
    have hget : (A ++ (W2 ++ [w]) ++ l :: C).getD (ipos + n) 0 = w := by
      rw [e1]; exact getD_at _ _ _ _ (by rw [List.length_append, hA, hW2])
    have hset : (A ++ (W2 ++ [w]) ++ l :: C).set (ipos + n + 1) w =
        A ++ W2 ++ w :: (w :: C) := by
      rw [e2, set_at _ _ _ _ _ (by simp [hA, hW2]; omega)]
      simp
    rw [hget, hset, ih A W2 w _ hA hW2]
    have hh : (W2 ++ [w] ++ [l]).headD 0 = (W2 ++ [w]).headD 0 := by
      cases W2 <;> rfl
    rw [hh]
    simp

theorem insert_axis_single (arr : PyArrayObject) (hone : ∀ d ∈ arr.dimensions, d ≠ 1)
    (P : List Nat) (ax : Nat) (C : List Nat) :
    insert_axis [arr] (P ++ ax :: C) P.length =
        P.take (find_ipos [arr] (P ++ ax :: C) ax P.length P.length) ++
          ax :: P.drop (find_ipos [arr] (P ++ ax :: C) ax P.length P.length) ++ C := by
  unfold insert_axis
  rw [getD_at P C ax P.length rfl]
  obtain ⟨hle, -, -⟩ := find_ipos_single arr hone (P ++ ax :: C) ax P.length
  generalize find_ipos [arr] (P ++ ax :: C) ax P.length P.length = p at hle ⊢
  by_cases hp : p = P.length
  · rw [if_neg (not_not.mpr hp), hp, List.take_length, List.drop_length]
    simp
  · rw [if_pos hp]
    have hsplit : P ++ ax :: C = P.take p ++ P.drop p ++ ax :: C := by
      rw [List.take_append_drop]
    rw [hsplit, shift_loop_spec p (P.length - p) (P.take p) (P.drop p) ax C
      (by rw [List.length_take]; omega) (by rw [List.length_drop])]
    rw [List.append_assoc, List.cons_append,
      set_at _ _ _ _ _ (by rw [List.length_take]; omega)]
    simp

theorem axis_order_trans (arr : PyArrayObject) (a b c : Nat) (h1 : axis_order arr a b)
    (h2 : axis_order arr b c) : axis_order arr a c := by
  unfold axis_order at *
  rcases h1 with h | ⟨h, h'⟩ <;> rcases h2 with g | ⟨g, g'⟩
  · left; omega
  · left; omega
  · left; omega
  · right; exact ⟨by omega, by omega⟩

theorem sort_loop_single (arr : PyArrayObject) (hone : ∀ d ∈ arr.dimensions, d ≠ 1) (n : Nat) :
    ∀ (i0 : Nat) (P : List Nat), P.Perm (List.range i0) → P.Pairwise (axis_order arr) →
      (sort_loop [arr] n i0 (P ++ List.range' i0 n)).Perm (List.range (i0 + n)) ∧
      (sort_loop [arr] n i0 (P ++ List.range' i0 n)).Pairwise (axis_order arr) := by
  induction n with
  | zero =>
    intro i0 P hP hs
    simp only [sort_loop, List.range'_zero, List.append_nil, Nat.add_zero]
    exact ⟨hP, hs⟩
  | succ n ih =>
    intro i0 P hP hs
    have hlen : P.length = i0 := by rw [hP.length_eq, List.length_range]
    rw [List.range'_succ]
    unfold sort_loop
    have hins := insert_axis_single arr hone P i0 (List.range' (i0 + 1) n)
    obtain ⟨hle, hlt, hge⟩ := find_ipos_single arr hone (P ++ i0 :: List.range' (i0 + 1) n)
      i0 P.length
    rw [hlen] at hins hle hlt hge
    rw [hins]
    generalize find_ipos [arr] (P ++ i0 :: List.range' (i0 + 1) n) i0 i0 i0 = p at hle hlt hge ⊢
    rw [show i0 + (n + 1) = (i0 + 1) + n by omega]
    have hgetP : ∀ i, i < i0 → (P ++ i0 :: List.range' (i0 + 1) n).getD i 0 = P.getD i 0 := by
      intro i hi
      rw [List.getD_eq_getElem?_getD, List.getD_eq_getElem?_getD,
        List.getElem?_append_left (by omega)]
    have hsplit : P.take p ++ P.drop p = P := List.take_append_drop p P
    have hpw := hs
    rw [← hsplit, List.pairwise_append] at hpw
    obtain ⟨hA, hB, hAB⟩ := hpw
    have hB2 : ∀ b ∈ P.drop p, axis_order arr i0 b := by
      intro b hb
      obtain ⟨i, hi, rfl⟩ := List.getElem_of_mem hb
      rw [List.length_drop] at hi
      rw [List.getElem_drop]
      have := hlt (p + i) (by omega) (by omega)
      rw [hgetP _ (by omega), List.getD_eq_getElem P 0 (by omega)] at this
      exact Or.inl this
    have hmemlt : ∀ a ∈ P, a < i0 := fun a ha => List.mem_range.mp (hP.subset ha)
    have hA2 : ∀ a ∈ P.take p, axis_order arr a i0 := by
      intro a ha
      have hai : a < i0 := hmemlt a (List.mem_of_mem_take ha)
      rcases hge with hp0 | hge
      · rw [hp0, List.take_zero] at ha; cases ha
      · by_cases hp0 : p = 0
        · rw [hp0, List.take_zero] at ha; cases ha
        · rw [hgetP _ (by omega), List.getD_eq_getElem P 0 (by omega)] at hge
          have hlast : axis_order arr (P[p - 1]) i0 := by
            unfold axis_order
            rcases lt_or_eq_of_le hge with h | h
            · exact Or.inl h
            · exact Or.inr ⟨h.symm, hmemlt _ (List.getElem_mem _)⟩
          obtain ⟨j, hj, rfl⟩ := List.getElem_of_mem ha
          rw [List.length_take] at hj
          rw [List.getElem_take]
          by_cases hjp : j = p - 1
          · subst hjp; exact hlast
          · exact axis_order_trans arr _ _ _
              (List.pairwise_iff_getElem.mp hs j (p - 1) (by omega) (by omega) (by omega)) hlast
    apply ih (i0 + 1) (P.take p ++ i0 :: P.drop p)
    · rw [List.range_succ]
      refine (List.perm_middle).trans ?_
      rw [hsplit]
      exact (List.Perm.cons i0 hP).trans (List.perm_append_singleton i0 _).symm
    · rw [List.pairwise_append]
      refine ⟨hA, List.Pairwise.cons hB2 hB, ?_⟩
      intro a ha b hb
      rcases List.mem_cons.mp hb with hb | hb
      · rw [hb]; exact hA2 a ha
      · exact hAB a ha b hb

/-- C14. For a single array all of whose axes have a size different from 1,
`PyArray_CreateMultiSortedStridePerm` returns a permutation of `0 .. ndim-1` along which the
absolute strides are non-increasing, and in which axes of equal absolute stride are in
ascending order of their numbers. -/
theorem multi_sorted_stride_perm_single (arr : PyArrayObject) (ndim : Nat)
    (hdims : arr.dimensions.length = ndim) (hstrides : arr.strides.length = ndim)
    (hone : ∀ d ∈ arr.dimensions, d ≠ 1) :
    (PyArray_CreateMultiSortedStridePerm [arr] ndim).Perm (List.range ndim) ∧
    (PyArray_CreateMultiSortedStridePerm [arr] ndim).Pairwise
      (fun a b => |arr.strides.getD b 0| ≤ |arr.strides.getD a 0|) ∧
    (PyArray_CreateMultiSortedStridePerm [arr] ndim).Pairwise
      (fun a b => |arr.strides.getD a 0| = |arr.strides.getD b 0| → a < b) := by
  have key : (PyArray_CreateMultiSortedStridePerm [arr] ndim).Perm (List.range ndim) ∧
      (PyArray_CreateMultiSortedStridePerm [arr] ndim).Pairwise (axis_order arr) := by
    unfold PyArray_CreateMultiSortedStridePerm
    cases ndim with
    | zero => exact ⟨List.Perm.refl _, List.Pairwise.nil⟩
    | succ m =>
      have h := sort_loop_single arr hone m 1 [0] (List.Perm.refl _) (List.pairwise_singleton _ _)
      have e : List.range (m + 1) = [0] ++ List.range' 1 m := by
        rw [List.range_eq_range', List.range'_succ]; rfl
      rw [Nat.add_sub_cancel, show 1 + m = m + 1 by omega] at *
      rw [← e] at h
      exact h
  refine ⟨key.1, key.2.imp ?_, key.2.imp ?_⟩
  · intro a b h
    unfold axis_order at h
    rcases h with h | ⟨h, -⟩ <;> omega
  · intro a b h he
    unfold axis_order at h
    rcases h with h | ⟨-, h⟩
    · omega
    · exact h

/-- C14 at the array of shape `(5, 5, 5, 5)` with the strides `(4, -2, 12, 2)`: the result is
`[2, 0, 1, 3]`, the axes 1 and 3 of absolute stride 2 in ascending order. -/
theorem multi_sorted_stride_perm_single_witness :
    PyArray_CreateMultiSortedStridePerm [⟨[5, 5, 5, 5], [4, -2, 12, 2]⟩] 4 = [2, 0, 1, 3] ∧
    (PyArray_CreateMultiSortedStridePerm [⟨[5, 5, 5, 5], [4, -2, 12, 2]⟩] 4).Perm
      (List.range 4) :=
  ⟨by decide,
    (multi_sorted_stride_perm_single ⟨[5, 5, 5, 5], [4, -2, 12, 2]⟩ 4 rfl rfl (by decide)).1⟩

/-! ## PyArray_Ravel: the flattened view of the KEEPORDER branch -/

theorem ravel_run_check_contiguous (arr : PyArrayObject)
    (strideperm : List npy_stride_sort_item) (n : Nat) :
    ∀ stride : Int, n ≤ strideperm.length →
      ravel_run_check arr strideperm n stride = true →
      (strideperm.map npy_stride_sort_item.stride).take n =
        c_contiguous_strides stride
          ((strideperm.map (fun e => arr.dimensions.getD e.perm 0)).take n) := by
  induction n with
  | zero => intro stride _ _; rfl
  | succ n ih =>
    intro stride hn h
    unfold ravel_run_check at h
    have hget : strideperm.getD n default = strideperm[n] :=
      List.getD_eq_getElem _ _ (by omega)
    rw [hget] at h
    by_cases hs : strideperm[n].stride ≠ stride
    · rw [if_pos hs] at h; cases h
    · rw [if_neg hs] at h
      have hs2 : strideperm[n].stride = stride := not_not.mp hs
      rw [List.take_succ, List.take_succ, ih _ (by omega) h]
      rw [List.getElem?_map, List.getElem?_map, List.getElem?_eq_getElem (by omega)]
      simp only [Option.map_some', Option.toList_some]
      rw [c_contiguous_append_singleton, hs2]

theorem byte_offset_c_unit_axes {α : Type} (f g1 g2 : α → Int) (l : List α) (k : Int)
    (h : ∀ e ∈ l, f e ≠ 1 → g1 e = g2 e) :
    byte_offset_c (l.map f) (l.map g1) k = byte_offset_c (l.map f) (l.map g2) k := by
  induction l with
  | nil => rfl
  | cons e l ih =>
    simp only [List.map_cons, byte_offset_c]
    rw [ih (fun x hx => h x (List.mem_cons_of_mem _ hx))]
    by_cases he : f e = 1
    · rw [he, Int.emod_one, zero_mul, zero_mul]
    · rw [h e (List.mem_cons_self _ _) he]

theorem pos_of_prod_pos (l : List Int) (hnn : ∀ d ∈ l, 0 ≤ d) (hp : 0 < l.prod) :
    ∀ d ∈ l, 0 < d := by
  intro d hd
  rcases lt_or_eq_of_le (hnn d hd) with h | h
  · exact h
  · have : l.prod = 0 := List.prod_eq_zero (h ▸ hd)
    omega

/-- C20. For every array of rank at least 1 and every rearrangement `strideperm` of the
entries set up by `PyArray_CreateSortedStridePerm`, if the run check of `PyArray_Ravel`
passes, the KEEPORDER branch returns the 1-D view of length `PyArray_SIZE(arr)` and stride
`s = strideperm[ndim-1].stride`, and for every `k` below that length `k * s` is the byte
offset in `arr` of the multi-index obtained by decomposing `k` in mixed radix over the
axes in `strideperm` order, the first entry slowest. -/
theorem ravel_keeporder_view_sound (arr : PyArrayObject)
    (strideperm : List npy_stride_sort_item)
    (hnn : ∀ d ∈ arr.dimensions, 0 ≤ d)
    (hrank : 1 ≤ PyArray_NDIM arr)
    (hperm : strideperm.Perm
      (strideperm_setup (PyArray_NDIM arr) arr.dimensions arr.strides))
    (hcheck : ravel_run_check arr strideperm (PyArray_NDIM arr)
      (strideperm.getD (PyArray_NDIM arr - 1) default).stride = true) :
    ravel_keeporder_view arr strideperm =
      some (some { dimensions := [PyArray_SIZE arr]
                   strides := [(strideperm.getD (PyArray_NDIM arr - 1) default).stride] }) ∧
    (strideperm.map (fun e => arr.dimensions.getD e.perm 0)).prod = PyArray_SIZE arr ∧
    ∀ k : Int, 0 ≤ k → k < PyArray_SIZE arr →
      k * (strideperm.getD (PyArray_NDIM arr - 1) default).stride =
        byte_offset_c (strideperm.map (fun e => arr.dimensions.getD e.perm 0))
          (strideperm.map (fun e => arr.strides.getD e.perm 0)) k := by
  have hlen : strideperm.length = PyArray_NDIM arr := by
    rw [hperm.length_eq]; unfold strideperm_setup; simp
  have hD : (strideperm.map (fun e => arr.dimensions.getD e.perm 0)).Perm arr.dimensions := by
    have h1 := hperm.map (fun e => arr.dimensions.getD e.perm 0)
    have h2 : (strideperm_setup (PyArray_NDIM arr) arr.dimensions arr.strides).map
        (fun e => arr.dimensions.getD e.perm 0) = arr.dimensions := by
      unfold strideperm_setup PyArray_NDIM
      rw [List.map_map]
      exact map_getD_range arr.dimensions
    rw [h2] at h1; exact h1
  have hprod : (strideperm.map (fun e => arr.dimensions.getD e.perm 0)).prod =
      PyArray_SIZE arr := hD.prod_eq
  refine ⟨?_, hprod, ?_⟩
  · unfold ravel_keeporder_view
    rw [if_neg (by omega), if_pos hcheck]
  · intro k hk0 hk
    have hc := ravel_run_check_contiguous arr strideperm (PyArray_NDIM arr) _ (by omega) hcheck
    rw [← hlen, ← List.length_map strideperm npy_stride_sort_item.stride, List.take_length,
      List.length_map, ← List.length_map strideperm (fun e => arr.dimensions.getD e.perm 0),
      List.take_length, List.length_map, hlen] at hc
    have hpos : ∀ d ∈ strideperm.map (fun e => arr.dimensions.getD e.perm 0), 0 < d := by
      apply pos_of_prod_pos
      · intro d hd; exact hnn d (hD.subset hd)
      · rw [hprod]; omega
    rw [byte_offset_c_unit_axes (fun e => arr.dimensions.getD e.perm 0)
      (fun e => arr.strides.getD e.perm 0) npy_stride_sort_item.stride strideperm k, hc,
      byte_offset_c_contiguous _ _ _ hpos, hprod, Int.emod_eq_of_lt hk0 hk]
    intro e he hne
    rw [(strideperm_setup_mem _ _ _ e (hperm.subset he)).2, if_neg hne]

/-- C20 at the array of shape `(3, 2)` with the strides `(8, 24)`: `strideperm` is
`[(1, 24), (0, 8)]`, the run check passes, the view has length 6 and stride 8, and element 4
of the view is at the byte offset 32 of the multi-index (1, 1), counted with axis 1
slowest. -/
theorem ravel_keeporder_view_sound_witness :
    PyArray_CreateSortedStridePerm 2 [3, 2] [8, 24] = [⟨1, 24⟩, ⟨0, 8⟩] ∧
    ravel_keeporder_view ⟨[3, 2], [8, 24]⟩ [⟨1, 24⟩, ⟨0, 8⟩] = some (some ⟨[6], [8]⟩) ∧
    byte_offset_c [2, 3] [24, 8] 4 = 32 ∧
    ravel_keeporder_view ⟨[3, 2], [8, 24]⟩ [⟨1, 24⟩, ⟨0, 8⟩] =
      some (some { dimensions := [PyArray_SIZE ⟨[3, 2], [8, 24]⟩]
                   strides := [(([⟨1, 24⟩, ⟨0, 8⟩] : List npy_stride_sort_item).getD
                     (PyArray_NDIM ⟨[3, 2], [8, 24]⟩ - 1) default).stride] }) :=
  ⟨by decide, by decide, by decide,
    (ravel_keeporder_view_sound ⟨[3, 2], [8, 24]⟩ [⟨1, 24⟩, ⟨0, 8⟩] (by decide)
      (by decide) (by decide) (by decide)).1⟩

/-! ## PyArray_Resize -/

theorem largest_le (elsize : Nat) : NPY_MAX_INTP / (elsize : Int) ≤ 9223372036854775807 :=
  Int.ediv_le_self _ (by decide)

/-- While the product of positive dimensions stays within `largest`, the loop of lines 67-80
computes it. -/
theorem newsize_loop_pos (largest : Int) (hl : largest ≤ 9223372036854775807) (l : List Int) :
    ∀ acc : Int, (∀ d ∈ l, 0 < d) → 0 < acc → acc * l.prod ≤ largest →
      newsize_loop largest l acc = some (acc * l.prod) := by
  induction l with
  | nil => intro acc _ _ _; simp [newsize_loop]
  | cons d l ih =>
    intro acc hpos hacc hfit
    have hd : 0 < d := hpos d (List.mem_cons_self _ _)
    have hl1 : 1 ≤ l.prod := prod_pos_of_pos l (fun x hx => hpos x (List.mem_cons_of_mem _ hx))
    have had : 0 < acc * d := mul_pos hacc hd
    rw [List.prod_cons, ← mul_assoc] at hfit
    have hle : acc * d ≤ acc * d * l.prod := le_mul_of_one_le_right (le_of_lt had) hl1
    have hw : wrap_intp (acc * d) = acc * d := wrap_intp_of_range _ (by omega) (by omega)
    unfold newsize_loop
    rw [if_neg (ne_of_gt hd), if_neg (not_lt.mpr (le_of_lt hd)), hw,
      if_neg (by omega), ih (acc * d) (fun x hx => hpos x (List.mem_cons_of_mem _ hx)) had hfit,
      List.prod_cons, mul_assoc]

theorem header_of_wf (self : PyArrayObject_fields) (hd : self.dimensions.length = self.nd)
    (hs : self.strides.length = self.nd) :
    header self = { dimensions := self.dimensions, strides := self.strides } := by
  unfold header
  rw [← hd, List.take_length, hd, ← hs, List.take_length]

/-- The growing step on the buffer: the reallocated block, cleared from the old end on, is
the old elements followed by zero bytes. -/
theorem renew_then_memset (env : resize_env) (data : List Nat) (o n e : Int) (ho : 0 ≤ o)
    (hon : o < n) (he : 0 < e) (hbuf : o * e ≤ data.length) (hok : env.data_ok = true) :
    ∃ d1, PyDataMem_RENEW env data (n * e) = some d1 ∧
      memset_zero d1 (o * e) ((n - o) * e) =
        some (data.take (o * e).toNat ++ List.replicate ((n - o) * e).toNat 0) := by
  have hoe : 0 ≤ o * e := mul_nonneg ho (le_of_lt he)
  have hcnt : 0 < (n - o) * e := mul_pos (by omega) he
  have hsum : o * e + (n - o) * e = n * e := by ring
  have hne : 0 < n * e := by omega
  refine ⟨_, by unfold PyDataMem_RENEW; rw [if_pos hok], ?_⟩
  unfold memset_zero
  have hlen : (data.take (n * e).toNat ++ (List.range ((n * e).toNat - data.length)).map
      (fun i : Nat => env.garbage (data.length + i))).length = (n * e).toNat := by
    simp only [List.length_append, List.length_take, List.length_map, List.length_range]
    omega
  rw [if_pos ⟨hoe, le_of_lt hcnt, by rw [hlen, hsum]; omega⟩, hsum]
  rw [List.drop_of_length_le (by rw [hlen]), List.append_nil,
    List.take_append_of_le_length (by rw [List.length_take]; omega), List.take_take]
  rw [Nat.min_eq_left (by omega)]

/-- C15. Growing resize: for a single-segment, writeable array that owns its data, has no
base and no weak references and whose element type has no object references, and for a
new shape of positive dimensions whose element count exceeds the old one and is at most
`NPY_MAX_INTP / elsize`, `PyArray_Resize` with `refcheck = 0` returns `None` when the two
reallocations succeed; afterwards the rank and shape are the requested ones and the buffer
is the first `oldsize` elements of the old buffer followed by zero bytes up to `newsize`
elements. -/
theorem resize_grow (env : resize_env) (self : PyArrayObject_fields) (newshape : List Int)
    (hseg : env.onesegment = true) (hdata : env.data_ok = true) (hdims : env.dims_ok = true)
    (hwr : self.flags.writeable = true) (hown : self.flags.owndata = true)
    (hbase : self.base = false) (hweak : self.weakreflist = false)
    (hobj : self.item_refcount = false) (hel : 0 < self.elsize)
    (hd : self.dimensions.length = self.nd) (hs : self.strides.length = self.nd)
    (hold : 0 ≤ PyArray_SIZE (header self))
    (hbuf : PyArray_SIZE (header self) * self.elsize ≤ self.data.length)
    (hpos : ∀ d ∈ newshape, 0 < d)
    (hfit : newshape.prod ≤ NPY_MAX_INTP / self.elsize)
    (hgrow : PyArray_SIZE (header self) < newshape.prod) :
    ∃ st, PyArray_Resize env self newshape false = some (true, st) ∧
      st.nd = newshape.length ∧ st.dimensions = newshape ∧
      st.data = self.data.take (PyArray_SIZE (header self) * self.elsize).toNat ++
        List.replicate ((newshape.prod - PyArray_SIZE (header self)) * self.elsize).toNat 0 := by
  have h1 : newsize_loop (NPY_MAX_INTP / self.elsize) newshape 1 = some newshape.prod := by
    rw [newsize_loop_pos _ (largest_le _) newshape 1 hpos one_pos (by rw [one_mul]; exact hfit),
      one_mul]
  obtain ⟨d1, hd1, hd2⟩ := renew_then_memset env self.data (PyArray_SIZE (header self))
    newshape.prod self.elsize hold hgrow (by exact_mod_cast hel) hbuf hdata
  have h2 : resize_data env self false (PyArray_SIZE (header self)) newshape.prod =
      some { self with data := d1 } := by
    unfold resize_data
    rw [if_pos (ne_of_lt hgrow), if_neg (by rw [hown]; simp),
      if_neg (by rw [hbase, hweak]; simp), if_neg (by omega), hd1]
  have h3 : resize_fill env { self with data := d1 } (PyArray_SIZE (header self))
      newshape.prod = some { self with data :=
        (self.data.take (PyArray_SIZE (header self) * self.elsize).toNat ++
        List.replicate ((newshape.prod - PyArray_SIZE (header self)) * self.elsize).toNat 0) } := by
    unfold resize_fill
    simp only
    rw [if_pos ⟨hgrow, hwr⟩, if_neg (by rw [hobj]; simp), hd2]
  unfold PyArray_Resize
  rw [if_neg (by rw [hseg]; simp), if_neg (by omega), h1]
  simp only
  rw [h2]
  simp only
  rw [h3]
  simp only
  unfold resize_header
  simp only
  by_cases hnd : self.nd = newshape.length
  · rw [if_neg (not_not.mpr hnd), if_neg (by omega)]
    refine ⟨_, rfl, hnd, ?_, rfl⟩
    simp only
    rw [List.drop_of_length_le (by omega), List.append_nil]
  · rw [if_pos hnd, if_neg (by rw [hdims]; simp)]
    exact ⟨_, rfl, rfl, rfl, rfl⟩

/-- C15 on the array of shape `(2, 3)` with one-byte elements 1 .. 6, resized to `(3, 4)`:
the first 6 elements are kept and the 6 new ones are zero. -/
theorem resize_grow_witness :
    ∃ st, PyArray_Resize
        ⟨true, true, true, fun _ => 255, fun d _ => d, fun d _ _ f => (d, f)⟩
        ⟨[1, 2, 3, 4, 5, 6], 2, [2, 3], [3, 1], false, ⟨true, false, true, true⟩, false, 1, 1,
          false⟩ [3, 4] false = some (true, st) ∧
      st.nd = 2 ∧ st.dimensions = [3, 4] ∧
      st.data = [1, 2, 3, 4, 5, 6, 0, 0, 0, 0, 0, 0] :=
  resize_grow ⟨true, true, true, fun _ => 255, fun d _ => d, fun d _ _ f => (d, f)⟩
    ⟨[1, 2, 3, 4, 5, 6], 2, [2, 3], [3, 1], false, ⟨true, false, true, true⟩, false, 1, 1,
      false⟩ [3, 4] rfl rfl rfl rfl rfl rfl rfl rfl (by decide) rfl rfl (by decide)
    (by decide) (by decide) (by decide) (by decide)

/-- A negative dimension that no zero dimension precedes stops the loop of lines 67-80 with
an error. -/
theorem newsize_loop_negative (largest : Int) (pre : List Int) (d : Int) (post : List Int)
    (hpre : ∀ x ∈ pre, x ≠ 0) (hd : d < 0) :
    ∀ acc : Int, newsize_loop largest (pre ++ d :: post) acc = none := by
  induction pre with
  | nil =>
    intro acc
    rw [List.nil_append]
    unfold newsize_loop
    rw [if_neg (ne_of_lt hd), if_pos hd]
  | cons x pre ih =>
    intro acc
    rw [List.cons_append]
    unfold newsize_loop
    rw [if_neg (hpre x (List.mem_cons_self _ _))]
    split_ifs
    · rfl
    · rfl
    · exact ih (fun y hy => hpre y (List.mem_cons_of_mem _ hy)) _

/-- C16. The claim fails at the requested shape `(0, -1)`: the loop of lines 67-80 leaves at
the zero dimension before it has looked at the negative one, and the array of shape
`(1, 1)` (one element, so nothing is reallocated) ends up with the shape `(0, -1)`,
`PyArray_Resize` returning `None`. In this
evaluation the stand-in for `_array_fill_strides` hands back the dimensions as strides. -/
theorem resize_accepts_negative_after_zero :
    newsize_loop (NPY_MAX_INTP / 8) [0, -1] 1 = some 1 ∧
    PyArray_Resize ⟨true, false, false, fun _ => 255, fun d _ => d, fun d _ _ f => (d, f)⟩
      ⟨[1, 2, 3, 4, 5, 6, 7, 8], 2, [1, 1], [8, 8], false, ⟨true, true, true, true⟩, false,
        1, 8, false⟩ [0, -1] true =
      some (true, ⟨[1, 2, 3, 4, 5, 6, 7, 8], 2, [0, -1], [0, -1], false,
        ⟨true, true, true, true⟩, false, 1, 8, false⟩) := by
  constructor <;> decide

/-- What holds of C16: a requested shape with a negative dimension that no zero dimension
precedes is refused, and the array is left as it was. -/
theorem resize_negative_before_zero (env : resize_env) (self : PyArrayObject_fields)
    (pre : List Int) (d : Int) (post : List Int) (refcheck : Bool)
    (hpre : ∀ x ∈ pre, x ≠ 0) (hd : d < 0) :
    PyArray_Resize env self (pre ++ d :: post) refcheck = some (false, self) := by
  unfold PyArray_Resize
  rw [newsize_loop_negative _ pre d post hpre hd]
  split_ifs <;> rfl

/-- The shape `(3, -1, 0)` is refused. -/
theorem resize_negative_before_zero_witness :
    PyArray_Resize ⟨true, true, true, fun _ => 255, fun d _ => d, fun d _ _ f => (d, f)⟩
      ⟨[1, 2, 3, 4, 5, 6], 2, [2, 3], [3, 1], false, ⟨true, false, true, true⟩, false, 1, 1,
        false⟩ ([3] ++ -1 :: [0]) false =
      some (false, ⟨[1, 2, 3, 4, 5, 6], 2, [2, 3], [3, 1], false, ⟨true, false, true, true⟩,
        false, 1, 1, false⟩) :=
  resize_negative_before_zero _ _ [3] (-1) [0] false (by decide) (by decide)

/-- C17, counterexample. An array that does not own its data and has a base object, of
shape `(2, 3)`, is resized to the shape `(3, 2)`: the element count is unchanged, so the
checks of lines 84-103 are not reached and `None` is returned. In this
evaluation the stand-in for `_array_fill_strides` hands back the dimensions as strides. -/
theorem resize_of_view_same_count_succeeds :
    PyArray_Resize ⟨true, false, false, fun _ => 255, fun d _ => d, fun d _ _ f => (d, f)⟩
      ⟨[1, 2, 3, 4, 5, 6], 2, [2, 3], [3, 1], true, ⟨true, false, false, true⟩, true, 5, 1,
        false⟩ [3, 2] true =
      some (true, ⟨[1, 2, 3, 4, 5, 6], 2, [3, 2], [3, 2], true, ⟨true, false, false, true⟩,
        true, 5, 1, false⟩) := by
  decide

/-- C17, amended. `PyArray_Resize` returns NULL and leaves the array as it was, for every
array that does not own its data, or has a base object, or has weak references, whatever
`refcheck`, and with `refcheck` set for every array whose reference count is above 2 (and
fits the `int` variable `refcnt`), whenever the requested shape has positive dimensions and
an element count that is at most `NPY_MAX_INTP / elsize` and differs from the array's. -/
theorem resize_refused_when_shared (env : resize_env) (self : PyArrayObject_fields)
    (newshape : List Int) (refcheck : Bool)
    (hshared : self.flags.owndata = false ∨ self.base = true ∨ self.weakreflist = true ∨
      (refcheck = true ∧ 2 < self.ob_refcnt ∧ self.ob_refcnt < 2147483648))
    (hpos : ∀ d ∈ newshape, 0 < d)
    (hfit : newshape.prod ≤ NPY_MAX_INTP / self.elsize)
    (hne : newshape.prod ≠ PyArray_SIZE (header self)) :
    PyArray_Resize env self newshape refcheck = some (false, self) := by
  unfold PyArray_Resize
  by_cases hseg : ¬ env.onesegment
  · rw [if_pos hseg]
  rw [if_neg hseg]
  by_cases hel : self.elsize = 0
  · rw [if_pos hel]
  rw [if_neg hel, newsize_loop_pos _ (largest_le _) newshape 1 hpos one_pos
    (by rw [one_mul]; exact hfit), one_mul]
  have h2 : resize_data env self refcheck (PyArray_SIZE (header self)) newshape.prod = none := by
    unfold resize_data
    rw [if_pos (Ne.symm hne)]
    rcases hshared with h | h | h | ⟨h1, h2, h3⟩
    · rw [if_pos (by rw [h]; simp)]
    · by_cases ho : ¬ self.flags.owndata
      · rw [if_pos ho]
      · rw [if_neg ho, if_pos (Or.inr (Or.inl h))]
    · by_cases ho : ¬ self.flags.owndata
      · rw [if_pos ho]
      · rw [if_neg ho, if_pos (Or.inr (Or.inr h))]
    · by_cases ho : ¬ self.flags.owndata
      · rw [if_pos ho]
      · rw [if_neg ho, if_pos (Or.inl (by
          rw [h1, if_pos rfl, toCInt_of_range _ (by omega) h3]; exact h2))]
  simp only
  rw [h2]

/-- C17, amended, on a view of shape `(2, 3)` asked to grow to `(3, 4)`, and on an owning
array with three references and `refcheck` set. -/
theorem resize_refused_when_shared_witness :
    PyArray_Resize ⟨true, true, true, fun _ => 255, fun d _ => d, fun d _ _ f => (d, f)⟩
      ⟨[1, 2, 3, 4, 5, 6], 2, [2, 3], [3, 1], true, ⟨true, false, false, true⟩, false, 1, 1,
        false⟩ [3, 4] false =
      some (false, ⟨[1, 2, 3, 4, 5, 6], 2, [2, 3], [3, 1], true, ⟨true, false, false, true⟩,
        false, 1, 1, false⟩) ∧
    PyArray_Resize ⟨true, true, true, fun _ => 255, fun d _ => d, fun d _ _ f => (d, f)⟩
      ⟨[1, 2, 3, 4, 5, 6], 2, [2, 3], [3, 1], false, ⟨true, false, true, true⟩, false, 3, 1,
        false⟩ [3, 4] true =
      some (false, ⟨[1, 2, 3, 4, 5, 6], 2, [2, 3], [3, 1], false, ⟨true, false, true, true⟩,
        false, 3, 1, false⟩) :=
  ⟨resize_refused_when_shared _ _ [3, 4] false (Or.inl rfl) (by decide) (by decide)
      (by decide),
    resize_refused_when_shared _ _ [3, 4] true
      (Or.inr (Or.inr (Or.inr ⟨rfl, by decide, by decide⟩))) (by decide) (by decide)
      (by decide)⟩


/-- C18. The claim fails when the reallocation of the dimension block fails: the array of
shape `(2, 3)` with one-byte elements is resized to the shape `(6)`, `PyDimMem_RENEW` returns
NULL, and `PyArray_Resize` returns NULL with the rank field already set to 1 (line 142); for
the shape `(12)` the buffer has been reallocated and cleared by then as well. In this
evaluation the stand-in for `_array_fill_strides` hands back the dimensions as strides. -/
theorem resize_failure_changes_rank :
    PyArray_Resize ⟨true, true, false, fun _ => 255, fun d _ => d, fun d _ _ f => (d, f)⟩
      ⟨[1, 2, 3, 4, 5, 6], 2, [2, 3], [3, 1], false, ⟨true, false, true, true⟩, false, 1, 1,
        false⟩ [6] true =
      some (false, ⟨[1, 2, 3, 4, 5, 6], 1, [2, 3], [3, 1], false, ⟨true, false, true, true⟩,
        false, 1, 1, false⟩) ∧
    PyArray_Resize ⟨true, true, false, fun _ => 255, fun d _ => d, fun d _ _ f => (d, f)⟩
      ⟨[1, 2, 3, 4, 5, 6], 2, [2, 3], [3, 1], false, ⟨true, false, true, true⟩, false, 1, 1,
        false⟩ [12] true =
      some (false, ⟨[1, 2, 3, 4, 5, 6, 0, 0, 0, 0, 0, 0], 1, [2, 3], [3, 1], false,
        ⟨true, false, true, true⟩, false, 1, 1, false⟩) := by
  constructor <;> decide

theorem resize_data_nd (env : resize_env) (self s1 : PyArrayObject_fields) (refcheck : Bool)
    (oldsize newsize : Int) (h : resize_data env self refcheck oldsize newsize = some s1) :
    s1.nd = self.nd := by
  unfold resize_data at h
  by_cases h1 : oldsize ≠ newsize
  · rw [if_pos h1] at h
    by_cases h2 : ¬ self.flags.owndata
    · rw [if_pos h2] at h; cases h
    · rw [if_neg h2] at h
      by_cases h3 : (if refcheck then toCInt self.ob_refcnt else 1) > 2 ∨ self.base ∨
          self.weakreflist
      · rw [if_pos h3] at h; cases h
      · rw [if_neg h3] at h
        generalize (if newsize = 0 then (self.elsize : Int) else newsize * self.elsize) = sd at h
        cases hren : PyDataMem_RENEW env self.data sd with
        | none => rw [hren] at h; cases h
        | some d => rw [hren] at h; cases h; rfl
  · rw [if_neg h1] at h; cases h; rfl

theorem resize_fill_nd (env : resize_env) (self s2 : PyArrayObject_fields)
    (oldsize newsize : Int) (h : resize_fill env self oldsize newsize = some s2) :
    s2.nd = self.nd := by
  unfold resize_fill at h
  by_cases h1 : newsize > oldsize ∧ self.flags.writeable
  · rw [if_pos h1] at h
    by_cases h2 : self.item_refcount
    · rw [if_pos h2] at h; cases h; rfl
    · rw [if_neg h2] at h
      cases hm : memset_zero self.data (oldsize * self.elsize)
          ((newsize - oldsize) * self.elsize) with
      | none => rw [hm] at h; cases h
      | some d => rw [hm] at h; cases h; rfl
  · rw [if_neg h1] at h; cases h; rfl


/-- What holds of C18: when the dimension block is not reallocated (the rank stays) or its
reallocation succeeds, a call that returns NULL leaves the array as it was. -/
theorem resize_failure_atomic (env : resize_env) (self st : PyArrayObject_fields)
    (newshape : List Int) (refcheck : Bool)
    (hdims : env.dims_ok = true ∨ self.nd = newshape.length)
    (hfail : PyArray_Resize env self newshape refcheck = some (false, st)) : st = self := by
  have hhead : ∀ s2 : PyArrayObject_fields, s2.nd = self.nd →
      resize_header env s2 newshape ≠ some (false, st) := by
    intro s2 hs2 h
    unfold resize_header at h
    by_cases h1 : s2.nd ≠ newshape.length
    · rw [if_pos h1] at h
      by_cases h2 : ¬ env.dims_ok
      · rcases hdims with hd | hd
        · exact h2 hd
        · exact h1 (hs2.trans hd)
      · rw [if_neg h2] at h
        cases h
    · rw [if_neg h1] at h
      split_ifs at h
      cases h
  have hsame : ∀ s : PyArrayObject_fields, some (false, s) = some (false, st) → st = s :=
    fun s h => ((Prod.mk.inj (Option.some.inj h)).2).symm
  unfold PyArray_Resize at hfail
  by_cases h1 : ¬ env.onesegment
  · rw [if_pos h1] at hfail
    exact hsame self hfail
  rw [if_neg h1] at hfail
  by_cases h2 : self.elsize = 0
  · rw [if_pos h2] at hfail
    exact hsame self hfail
  rw [if_neg h2] at hfail
  split at hfail
  · exact hsame self hfail
  · split at hfail
    · exact hsame self hfail
    · rename_i self1 hdata
      split at hfail
      · cases hfail
      · rename_i self2 hfill
        exfalso
        refine hhead self2 ?_ hfail
        have e1 : self1.nd = self.nd := resize_data_nd _ _ _ _ _ _ hdata
        have e2 : self2.nd = self1.nd := resize_fill_nd _ _ _ _ _ hfill
        exact e2.trans e1

/-- A resize refused for aliasing (`refcheck` set, three references) leaves the array as it
was. -/
theorem resize_failure_atomic_witness :
    PyArray_Resize ⟨true, true, true, fun _ => 255, fun d _ => d, fun d _ _ f => (d, f)⟩
      ⟨[1, 2, 3, 4, 5, 6], 2, [2, 3], [3, 1], false, ⟨true, false, true, true⟩, false, 3, 1,
        false⟩ [3, 4] true =
      some (false, ⟨[1, 2, 3, 4, 5, 6], 2, [2, 3], [3, 1], false, ⟨true, false, true, true⟩,
        false, 3, 1, false⟩) ∧
    (⟨[1, 2, 3, 4, 5, 6], 2, [2, 3], [3, 1], false, ⟨true, false, true, true⟩, false, 3, 1,
        false⟩ : PyArrayObject_fields) =
      ⟨[1, 2, 3, 4, 5, 6], 2, [2, 3], [3, 1], false, ⟨true, false, true, true⟩, false, 3, 1,
        false⟩ :=
  ⟨by decide,
    resize_failure_atomic
      ⟨true, true, true, fun _ => 255, fun d _ => d, fun d _ _ f => (d, f)⟩ _ _ [3, 4] true
      (Or.inl rfl) (by decide)⟩

/-- Without wrap-around the test of line 77 does its work: a product of positive dimensions
that exceeds `largest` and stays below `2 ^ 63` stops the loop with an error. -/
theorem newsize_loop_overflow (largest : Int) (l : List Int) :
    ∀ acc : Int, (∀ d ∈ l, 0 < d) → 0 < acc → acc ≤ largest → largest < acc * l.prod →
      acc * l.prod < 9223372036854775808 → newsize_loop largest l acc = none := by
  induction l with
  | nil =>
    intro acc _ _ hle hgt _
    rw [List.prod_nil, mul_one] at hgt
    omega
  | cons d l ih =>
    intro acc hpos hacc hle hgt hlt
    have hd : 0 < d := hpos d (List.mem_cons_self _ _)
    have hl1 : 1 ≤ l.prod := prod_pos_of_pos l (fun x hx => hpos x (List.mem_cons_of_mem _ hx))
    have had : 0 < acc * d := mul_pos hacc hd
    rw [List.prod_cons, ← mul_assoc] at hgt hlt
    have hle2 : acc * d ≤ acc * d * l.prod := le_mul_of_one_le_right (le_of_lt had) hl1
    have hw : wrap_intp (acc * d) = acc * d := wrap_intp_of_range _ (by omega) (by omega)
    unfold newsize_loop
    rw [if_neg (ne_of_gt hd), if_neg (not_lt.mpr (le_of_lt hd)), hw]
    by_cases hover : acc * d ≤ 0 ∨ acc * d > largest
    · rw [if_pos hover]
    · rw [if_neg hover]
      exact ih (acc * d) (fun x hx => hpos x (List.mem_cons_of_mem _ hx)) had (by omega) hgt hlt

/-- C19. The claim fails at the requested shape `(274177, 67280421310721)`, whose element
count is `2 ^ 64 + 1`: the wrapped product is 1, the test of line 77 passes, and the
one-element array with 8-byte elements is given that shape, `PyArray_Resize` returning
`None`. In this
evaluation the stand-in for `_array_fill_strides` hands back the dimensions as strides. -/
theorem resize_accepts_wrapped_product :
    (274177 : Int) * 67280421310721 = 2 ^ 64 + 1 ∧
    NPY_MAX_INTP / 8 < (274177 : Int) * 67280421310721 ∧
    newsize_loop (NPY_MAX_INTP / 8) [274177, 67280421310721] 1 = some 1 ∧
    PyArray_Resize ⟨true, true, true, fun _ => 255, fun d _ => d, fun d _ _ f => (d, f)⟩
      ⟨[1, 2, 3, 4, 5, 6, 7, 8], 1, [1], [8], false, ⟨true, true, true, true⟩, false, 1, 8,
        false⟩ [274177, 67280421310721] false =
      some (true, ⟨[1, 2, 3, 4, 5, 6, 7, 8], 2, [274177, 67280421310721],
        [274177, 67280421310721], false, ⟨true, true, true, true⟩, false, 1, 8, false⟩) := by
  refine ⟨by decide, by decide, by decide, by decide⟩

/-- What holds of C19: a requested shape of positive dimensions whose element count exceeds
`NPY_MAX_INTP / elsize` and is below `2 ^ 63`, so that the running product does not wrap, is
refused, and the array is left as it was. -/
theorem resize_overflow_refused_without_wrap (env : resize_env) (self : PyArrayObject_fields)
    (newshape : List Int) (refcheck : Bool)
    (helsize : self.elsize < 2147483648)
    (hpos : ∀ d ∈ newshape, 0 < d)
    (hbig : NPY_MAX_INTP / self.elsize < newshape.prod)
    (hword : newshape.prod < 9223372036854775808) :
    PyArray_Resize env self newshape refcheck = some (false, self) := by
  unfold PyArray_Resize
  by_cases hseg : ¬ env.onesegment
  · rw [if_pos hseg]
  rw [if_neg hseg]
  by_cases hel : self.elsize = 0
  · rw [if_pos hel]
  have h1 : (1 : Int) ≤ NPY_MAX_INTP / self.elsize := by
    apply Int.le_ediv_of_mul_le (by omega)
    unfold NPY_MAX_INTP
    omega
  rw [if_neg hel, newsize_loop_overflow _ newshape 1 hpos one_pos h1
    (by rw [one_mul]; exact hbig) (by rw [one_mul]; exact hword)]

/-- The shape `(2 ^ 31, 2 ^ 31)` is refused for 8-byte elements. -/
theorem resize_overflow_refused_without_wrap_witness :
    PyArray_Resize ⟨true, true, true, fun _ => 255, fun d _ => d, fun d _ _ f => (d, f)⟩
      ⟨[1, 2, 3, 4, 5, 6, 7, 8], 1, [1], [8], false, ⟨true, true, true, true⟩, false, 1, 8,
        false⟩ [2147483648, 2147483648] false =
      some (false, ⟨[1, 2, 3, 4, 5, 6, 7, 8], 1, [1], [8], false, ⟨true, true, true, true⟩,
        false, 1, 8, false⟩) :=
  resize_overflow_refused_without_wrap _ _ [2147483648, 2147483648] false (by decide)
    (by decide) (by decide) (by decide)

/-! ## `_check_ones`: which target shapes are accepted, and the strides written -/

theorem getD_of_drop_eq_cons (l : List Int) (k : Nat) (a : Int) (rest : List Int)
    (h : l.drop k = a :: rest) : l.getD k 0 = a := by
  rw [List.getD_eq_getElem?_getD, (getElem?_of_drop_eq_cons l k a rest h).1]
  rfl

theorem filter_cons_one (l : List Int) :
    (1 :: l).filter (fun d => decide (d ≠ 1)) = l.filter (fun d => decide (d ≠ 1)) :=
  List.filter_cons_of_neg (by simp)

theorem filter_cons_ne_one (d : Int) (l : List Int) (hd : d ≠ 1) :
    (d :: l).filter (fun d => decide (d ≠ 1)) = d :: l.filter (fun d => decide (d ≠ 1)) :=
  List.filter_cons_of_pos (by simpa using hd)

theorem strip_ones_cons_one (T out : List Int) (s : Int) :
    (strip_ones (1 :: T) (s :: out)).2 = (strip_ones T out).2 := by
  rw [strip_ones, if_neg (by simp)]

theorem strip_ones_cons_ne (d : Int) (T : List Int) (s : Int) (out : List Int) (hd : d ≠ 1) :
    (strip_ones (d :: T) (s :: out)).2 = s :: (strip_ones T out).2 := by
  rw [strip_ones, if_pos hd]

/-- The loop of `_check_ones` from a state `(j, k)`, with `DJ`, `SJ` the source dimensions
and strides still to be read and `TK` the target dimensions still to be read: it returns 0
exactly when `DJ` and `TK` agree once the entries 1 are deleted, and then it has written one
stride for each entry of `TK`, those of the entries other than 1 being the source strides
of the entries of `DJ` other than 1. -/
theorem check_ones_loop_spec (dims srcstrides newdims : List Int) (fuel : Nat) :
    ∀ (j k : Nat) (strides DJ SJ TK : List Int), dims.drop j = DJ → srcstrides.drop j = SJ →
      newdims.drop k = TK → SJ.length = DJ.length → DJ.length + TK.length ≤ fuel →
      (DJ.filter (fun d => decide (d ≠ 1)) = TK.filter (fun d => decide (d ≠ 1)) →
        ∃ out, check_ones_loop dims srcstrides newdims fuel j k strides = (0, strides ++ out) ∧
          out.length = TK.length ∧ (strip_ones TK out).2 = (strip_ones DJ SJ).2) ∧
      (DJ.filter (fun d => decide (d ≠ 1)) ≠ TK.filter (fun d => decide (d ≠ 1)) →
        (check_ones_loop dims srcstrides newdims fuel j k strides).1 = -1) := by
  induction fuel with
  | zero =>
    intro j k strides DJ SJ TK hD hS hT hlen hfuel
    have hDJ : DJ = [] := List.length_eq_zero.mp (by omega)
    have hTK : TK = [] := List.length_eq_zero.mp (by omega)
    subst hDJ hTK
    have hj : dims.length ≤ j := List.drop_eq_nil_iff.mp hD
    have hk : newdims.length ≤ k := List.drop_eq_nil_iff.mp hT
    rw [check_ones_loop, if_pos (by omega)]
    exact ⟨fun _ => ⟨[], by simp, rfl, by cases SJ <;> rfl⟩, fun h => absurd rfl h⟩
  | succ fuel ih =>
    intro j k strides DJ SJ TK hD hS hT hlen hfuel
    rw [check_ones_loop]
    cases DJ with
    | nil =>
      have hSJ : SJ = [] := List.length_eq_zero.mp hlen
      subst hSJ
      have hj : dims.length ≤ j := List.drop_eq_nil_iff.mp hD
      cases TK with
      | nil =>
        have hk : newdims.length ≤ k := List.drop_eq_nil_iff.mp hT
        rw [if_pos (by omega)]
        exact ⟨fun _ => ⟨[], by simp, rfl, rfl⟩, fun h => absurd rfl h⟩
      | cons t TK1 =>
        obtain ⟨-, hT1, hk⟩ := getElem?_of_drop_eq_cons newdims k t TK1 hT
        have ht := getD_of_drop_eq_cons newdims k t TK1 hT
        rw [if_neg (not_not.mpr (Or.inr hk)), if_neg (by omega), ht]
        by_cases h1 : t = 1
        · subst h1
          rw [if_pos ⟨hk, rfl⟩, filter_cons_one]
          obtain ⟨ihA, ihB⟩ := ih j (k + 1) (strides ++ [0]) [] [] TK1 hD hS hT1 rfl
            (by simp only [List.length_cons] at hfuel; simpa using by omega)
          refine ⟨fun h => ?_, ihB⟩
          obtain ⟨out, ho1, ho2, ho3⟩ := ihA h
          refine ⟨0 :: out, by rw [ho1, List.append_assoc]; rfl,
            by rw [List.length_cons, List.length_cons, ho2], ?_⟩
          rw [strip_ones_cons_one]; exact ho3
        · rw [if_neg (fun h => h1 h.2), if_neg (by omega), filter_cons_ne_one t TK1 h1]
          exact ⟨fun h => by simp at h, fun _ => rfl⟩
    | cons d DJ1 =>
      obtain ⟨s, SJ1, rfl⟩ : ∃ s SJ1, SJ = s :: SJ1 := by
        cases SJ with
        | nil => simp at hlen
        | cons s SJ1 => exact ⟨s, SJ1, rfl⟩
      have hlen1 : SJ1.length = DJ1.length := by simpa using hlen
      obtain ⟨-, hD1, hj⟩ := getElem?_of_drop_eq_cons dims j d DJ1 hD
      obtain ⟨-, hS1, -⟩ := getElem?_of_drop_eq_cons srcstrides j s SJ1 hS
      have hd := getD_of_drop_eq_cons dims j d DJ1 hD
      have hs := getD_of_drop_eq_cons srcstrides j s SJ1 hS
      rw [if_neg (not_not.mpr (Or.inl hj)), hd, hs]
      cases TK with
      | nil =>
        have hk : newdims.length ≤ k := List.drop_eq_nil_iff.mp hT
        rw [if_neg (by omega), if_neg (by omega)]
        by_cases h1 : d = 1
        · subst h1
          rw [if_pos ⟨hj, rfl⟩, filter_cons_one]
          obtain ⟨ihA, ihB⟩ := ih (j + 1) k strides DJ1 SJ1 [] hD1 hS1 hT hlen1
            (by simp only [List.length_cons, List.length_nil] at hfuel ⊢; omega)
          refine ⟨fun h => ?_, ihB⟩
          obtain ⟨out, ho1, ho2, ho3⟩ := ihA h
          refine ⟨out, ho1, ho2, ?_⟩
          rw [ho3, strip_ones_cons_one]
        · rw [if_neg (fun h => h1 h.2), filter_cons_ne_one d DJ1 h1]
          exact ⟨fun h => by simp at h, fun _ => rfl⟩
      | cons t TK1 =>
        obtain ⟨-, hT1, hk⟩ := getElem?_of_drop_eq_cons newdims k t TK1 hT
        have ht := getD_of_drop_eq_cons newdims k t TK1 hT
        rw [ht]
        by_cases h0 : t = d
        · subst h0
          rw [if_pos ⟨hj, hk, rfl⟩]
          obtain ⟨ihA, ihB⟩ := ih (j + 1) (k + 1) (strides ++ [s]) DJ1 SJ1 TK1 hD1 hS1 hT1 hlen1
            (by simp only [List.length_cons] at hfuel; omega)
          by_cases h1 : t = 1
          · subst h1
            rw [filter_cons_one, filter_cons_one]
            refine ⟨fun h => ?_, ihB⟩
            obtain ⟨out, ho1, ho2, ho3⟩ := ihA h
            refine ⟨s :: out, by rw [ho1, List.append_assoc]; rfl,
              by rw [List.length_cons, List.length_cons, ho2], ?_⟩
            rw [strip_ones_cons_one, strip_ones_cons_one]; exact ho3
          · rw [filter_cons_ne_one t DJ1 h1, filter_cons_ne_one t TK1 h1]
            refine ⟨fun h => ?_, fun h => ihB (fun h2 => h (by rw [h2]))⟩
            obtain ⟨out, ho1, ho2, ho3⟩ := ihA (List.cons_injective h)
            refine ⟨s :: out, by rw [ho1, List.append_assoc]; rfl,
              by rw [List.length_cons, List.length_cons, ho2], ?_⟩
            rw [strip_ones_cons_ne t TK1 s out h1, strip_ones_cons_ne t DJ1 s SJ1 h1, ho3]
        · rw [if_neg (fun h => h0 h.2.2)]
          by_cases h1 : t = 1
          · subst h1
            rw [if_pos ⟨hk, rfl⟩, filter_cons_one]
            obtain ⟨ihA, ihB⟩ := ih j (k + 1) (strides ++ [0]) (d :: DJ1) (s :: SJ1) TK1 hD hS hT1
              hlen (by simp only [List.length_cons] at hfuel ⊢; omega)
            refine ⟨fun h => ?_, ihB⟩
            obtain ⟨out, ho1, ho2, ho3⟩ := ihA h
            refine ⟨0 :: out, by rw [ho1, List.append_assoc]; rfl,
              by rw [List.length_cons, List.length_cons, ho2], ?_⟩
            rw [strip_ones_cons_one]; exact ho3
          · rw [if_neg (fun h => h1 h.2)]
            by_cases h2 : d = 1
            · subst h2
              rw [if_pos ⟨hj, rfl⟩, filter_cons_one]
              obtain ⟨ihA, ihB⟩ := ih (j + 1) k strides DJ1 SJ1 (t :: TK1) hD1 hS1 hT hlen1
                (by simp only [List.length_cons] at hfuel ⊢; omega)
              refine ⟨fun h => ?_, ihB⟩
              obtain ⟨out, ho1, ho2, ho3⟩ := ihA h
              refine ⟨out, ho1, ho2, ?_⟩
              rw [ho3, strip_ones_cons_one]
            · rw [if_neg (fun h => h2 h.2), filter_cons_ne_one d DJ1 h2,
                filter_cons_ne_one t TK1 h1]
              refine ⟨fun h => absurd (List.cons.inj h).1.symm h0, fun _ => rfl⟩

/-- The fuel of the loop of `_check_ones` is only a bound on the number of iterations: with
as much fuel as there are entries left to read, the result does not depend on it. -/
theorem check_ones_loop_fuel (dims srcstrides newdims : List Int) (f1 : Nat) :
    ∀ (f2 j k : Nat) (strides : List Int), (dims.length - j) + (newdims.length - k) ≤ f1 →
      (dims.length - j) + (newdims.length - k) ≤ f2 →
      check_ones_loop dims srcstrides newdims f1 j k strides =
        check_ones_loop dims srcstrides newdims f2 j k strides := by
  induction f1 with
  | zero =>
    intro f2 j k strides h1 h2
    cases f2 with
    | zero => rfl
    | succ f2 => rw [check_ones_loop, check_ones_loop, if_pos (by omega), if_pos (by omega)]
  | succ f1 ih =>
    intro f2 j k strides h1 h2
    cases f2 with
    | zero => rw [check_ones_loop, check_ones_loop, if_pos (by omega), if_pos (by omega)]
    | succ f2 =>
      rw [check_ones_loop, check_ones_loop]
      by_cases hex : ¬ (j < dims.length ∨ k < newdims.length)
      · rw [if_pos hex, if_pos hex]
      · rw [if_neg hex, if_neg hex]
        by_cases c1 : j < dims.length ∧ k < newdims.length ∧ newdims.getD k 0 = dims.getD j 0
        · rw [if_pos c1, if_pos c1]
          exact ih f2 _ _ _ (by omega) (by omega)
        · rw [if_neg c1, if_neg c1]
          by_cases c2 : k < newdims.length ∧ newdims.getD k 0 = 1
          · rw [if_pos c2, if_pos c2]
            exact ih f2 _ _ _ (by omega) (by omega)
          · rw [if_neg c2, if_neg c2]
            by_cases c3 : j < dims.length ∧ dims.getD j 0 = 1
            · rw [if_pos c3, if_pos c3]
              exact ih f2 _ _ _ (by omega) (by omega)
            · rw [if_neg c3, if_neg c3]

/-- C22. For every source and every target shape, `_check_ones` returns 0 if and only if
the two shapes are equal once all entries equal to 1 are deleted from each, and -1
otherwise; when it returns 0 it has written one stride for each target axis, and the
strides written for the target axes of size different from 1 are, in order, the source
strides of the source axes of size different from 1. -/
theorem check_ones_spec (self : PyArrayObject) (newdims : List Int)
    (hwf : self.strides.length = self.dimensions.length) :
    ((_check_ones self newdims).1 = 0 ↔
      self.dimensions.filter (fun d => decide (d ≠ 1)) =
        newdims.filter (fun d => decide (d ≠ 1))) ∧
    ((_check_ones self newdims).1 = 0 ∨ (_check_ones self newdims).1 = -1) ∧
    ((_check_ones self newdims).1 = 0 →
      (_check_ones self newdims).2.length = newdims.length ∧
      (strip_ones newdims (_check_ones self newdims).2).2 =
        (strip_ones self.dimensions self.strides).2) := by
  obtain ⟨hA, hB⟩ := check_ones_loop_spec self.dimensions self.strides newdims
    (self.dimensions.length + newdims.length) 0 0 [] self.dimensions self.strides newdims
    rfl rfl rfl hwf (le_refl _)
  unfold _check_ones
  by_cases h : self.dimensions.filter (fun d => decide (d ≠ 1)) =
      newdims.filter (fun d => decide (d ≠ 1))
  · obtain ⟨out, ho1, ho2, ho3⟩ := hA h
    rw [ho1]
    exact ⟨⟨fun _ => h, fun _ => rfl⟩, Or.inl rfl, fun _ => ⟨by simpa using ho2, by simpa using ho3⟩⟩
  · have hm := hB h
    refine ⟨⟨fun h0 => ?_, fun h1 => absurd h1 h⟩, Or.inr hm, fun h0 => ?_⟩
    · rw [hm] at h0; cases h0
    · rw [hm] at h0; cases h0

/-- C22 at the source of shape `(1, 2, 3)` with strides `(24, 12, 4)`: the target
`(2, 1, 3, 1)` is accepted with the strides `(12, 0, 4, 0)`, the target `(3, 2)` is not. -/
theorem check_ones_spec_witness :
    _check_ones ⟨[1, 2, 3], [24, 12, 4]⟩ [2, 1, 3, 1] = (0, [12, 0, 4, 0]) ∧
    (_check_ones ⟨[1, 2, 3], [24, 12, 4]⟩ [3, 2]).1 = -1 ∧
    ((_check_ones ⟨[1, 2, 3], [24, 12, 4]⟩ [2, 1, 3, 1]).1 = 0 ↔
      ([1, 2, 3] : List Int).filter (fun d => decide (d ≠ 1)) =
        ([2, 1, 3, 1] : List Int).filter (fun d => decide (d ≠ 1))) :=
  ⟨by decide, by decide, (check_ones_spec ⟨[1, 2, 3], [24, 12, 4]⟩ [2, 1, 3, 1] rfl).1⟩

/-! ## The fix-up of the unit-axis shortcut keeps contiguity -/

theorem strip_c_values (e : Int) :
    ∀ (T S : List Int), S.length = T.length →
      (strip_ones T S).2 = c_contiguous_strides e (T.filter (fun d => decide (d ≠ 1))) →
      ∀ i : Nat, i < T.length → T.getD i 0 ≠ 1 → S[i]? = some (e * (T.drop (i + 1)).prod) := by
  intro T
  induction T with
  | nil => intro S _ _ i hi; simp at hi
  | cons d T ih =>
    intro S hlen h i hi hne
    cases S with
    | nil => simp at hlen
    | cons s S =>
      have hlen1 : S.length = T.length := by simpa using hlen
      by_cases hd : d = 1
      · subst hd
        rw [strip_ones_cons_one, filter_cons_one] at h
        cases i with
        | zero => exact absurd rfl hne
        | succ i =>
          rw [List.getElem?_cons_succ, List.drop_succ_cons]
          exact ih S hlen1 h i (by simpa using hi) (by simpa using hne)
      · rw [strip_ones_cons_ne d T s S hd, filter_cons_ne_one d T hd, c_contiguous_strides] at h
        obtain ⟨h1, h2⟩ := List.cons.inj h
        cases i with
        | zero =>
          rw [List.getElem?_cons_zero, h1, prod_filter_ne_one]
          rfl
        | succ i =>
          rw [List.getElem?_cons_succ, List.drop_succ_cons]
          exact ih S hlen1 h2 i (by simpa using hi) (by simpa using hne)

theorem strip_f_values :
    ∀ (T S : List Int) (e : Int), S.length = T.length →
      (strip_ones T S).2 = f_contiguous_strides e (T.filter (fun d => decide (d ≠ 1))) →
      ∀ i : Nat, i < T.length → T.getD i 0 ≠ 1 → S[i]? = some (e * (T.take i).prod) := by
  intro T
  induction T with
  | nil => intro S e _ _ i hi; simp at hi
  | cons d T ih =>
    intro S e hlen h i hi hne
    cases S with
    | nil => simp at hlen
    | cons s S =>
      have hlen1 : S.length = T.length := by simpa using hlen
      by_cases hd : d = 1
      · subst hd
        rw [strip_ones_cons_one, filter_cons_one] at h
        cases i with
        | zero => exact absurd rfl hne
        | succ i =>
          rw [List.getElem?_cons_succ, List.take_succ_cons, List.prod_cons, one_mul]
          exact ih S e hlen1 h i (by simpa using hi) (by simpa using hne)
      · rw [strip_ones_cons_ne d T s S hd, filter_cons_ne_one d T hd, f_contiguous_strides] at h
        obtain ⟨h1, h2⟩ := List.cons.inj h
        cases i with
        | zero =>
          rw [List.getElem?_cons_zero, h1]
          simp
        | succ i =>
          rw [List.getElem?_cons_succ, List.take_succ_cons, List.prod_cons, ← mul_assoc]
          exact ih S (e * d) hlen1 h2 i (by simpa using hi) (by simpa using hne)

theorem eq_c_contiguous_of_values (e : Int) (T strides : List Int)
    (hlen : strides.length = T.length)
    (h : ∀ i : Nat, i < T.length → strides[i]? = some (e * (T.drop (i + 1)).prod)) :
    strides = c_contiguous_strides e T := by
  apply List.ext_getElem?
  intro i
  by_cases hi : i < T.length
  · rw [h i hi, c_contiguous_getElem? e T i hi]
  · rw [List.getElem?_eq_none (by omega),
      List.getElem?_eq_none (by rw [c_contiguous_length]; omega)]

theorem eq_f_contiguous_of_values (e : Int) (T strides : List Int)
    (hlen : strides.length = T.length)
    (h : ∀ i : Nat, i < T.length → strides[i]? = some (e * (T.take i).prod)) :
    strides = f_contiguous_strides e T := by
  apply List.ext_getElem?
  intro i
  by_cases hi : i < T.length
  · rw [h i hi, f_contiguous_getElem? e T i hi]
  · rw [List.getElem?_eq_none (by omega),
      List.getElem?_eq_none (by rw [f_contiguous_length]; omega)]

/-- The C-order fix-up loop, started below a contiguous tail, makes the strides the
C-contiguous strides when the strides of the axes of length other than 1 already are. -/
theorem fix_strides_c_contiguous (T : List Int) (e : Int) (m : Nat) :
    ∀ strides : List Int, strides.length = T.length → m < T.length →
      (∀ i : Nat, i < T.length → (m ≤ i ∨ T.getD i 0 ≠ 1) →
        strides[i]? = some (e * (T.drop (i + 1)).prod)) →
      fix_strides_c T m strides = c_contiguous_strides e T := by
  induction m with
  | zero =>
    intro strides hlen _ h
    rw [fix_strides_c]
    exact eq_c_contiguous_of_values e T strides hlen (fun i hi => h i hi (Or.inl (Nat.zero_le _)))
  | succ m ih =>
    intro strides hlen hm h
    rw [fix_strides_c]
    by_cases hd : T.getD m 0 = 1
    · rw [if_pos hd]
      apply ih _ (by rw [List.length_set]; exact hlen) (by omega)
      intro i hi hcond
      rw [List.getElem?_set]
      by_cases him : m = i
      · subst him
        rw [if_pos rfl, if_pos (by omega)]
        have h1 := h (m + 1) hm (Or.inl (le_refl _))
        rw [List.getD_eq_getElem?_getD, h1, Option.getD_some, List.getD_eq_getElem T 0 hm,
          List.drop_eq_getElem_cons hm, List.prod_cons]
        congr 1
        ring
      · rw [if_neg him]
        rcases hcond with hc | hc
        · exact h i hi (Or.inl (by omega))
        · exact h i hi (Or.inr hc)
    · rw [if_neg hd]
      apply ih strides hlen (by omega)
      intro i hi hcond
      rcases hcond with hc | hc
      · by_cases him : m = i
        · subst him; exact h m hi (Or.inr hd)
        · exact h i hi (Or.inl (by omega))
      · exact h i hi (Or.inr hc)

/-- The Fortran-order fix-up loop, started above a contiguous head, makes the strides the
Fortran-contiguous strides when the strides of the axes of length other than 1 already
are. -/
theorem fix_strides_f_contiguous (T : List Int) (e : Int) (n : Nat) :
    ∀ (i0 : Nat) (strides : List Int), strides.length = T.length → 1 ≤ i0 →
      i0 + n = T.length →
      (∀ i : Nat, i < T.length → (i < i0 ∨ T.getD i 0 ≠ 1) →
        strides[i]? = some (e * (T.take i).prod)) →
      fix_strides_f T n i0 strides = f_contiguous_strides e T := by
  induction n with
  | zero =>
    intro i0 strides hlen _ hn h
    rw [fix_strides_f]
    exact eq_f_contiguous_of_values e T strides hlen (fun i hi => h i hi (Or.inl (by omega)))
  | succ n ih =>
    intro i0 strides hlen h1 hn h
    rw [fix_strides_f]
    have hi0 : i0 < T.length := by omega
    by_cases hd : T.getD i0 0 = 1
    · rw [if_pos hd]
      apply ih (i0 + 1) _ (by rw [List.length_set]; exact hlen) (by omega) (by omega)
      intro i hi hcond
      rw [List.getElem?_set]
      by_cases him : i0 = i
      · subst him
        rw [if_pos rfl, if_pos (by omega)]
        have h2 := h (i0 - 1) (by omega) (Or.inl (by omega))
        rw [List.getD_eq_getElem?_getD, h2, Option.getD_some,
          List.getD_eq_getElem T 0 (show i0 - 1 < T.length by omega)]
        have ht : T.take i0 = T.take (i0 - 1) ++ [T[i0 - 1]] := by
          conv_lhs => rw [show i0 = (i0 - 1) + 1 by omega]
          rw [List.take_succ, List.getElem?_eq_getElem (by omega)]
          rfl
        rw [ht, List.prod_append, List.prod_singleton]
        congr 1
        ring
      · rw [if_neg him]
        rcases hcond with hc | hc
        · exact h i hi (Or.inl (by omega))
        · exact h i hi (Or.inr hc)
    · rw [if_neg hd]
      apply ih (i0 + 1) strides hlen (by omega) (by omega)
      intro i hi hcond
      rcases hcond with hc | hc
      · by_cases him : i0 = i
        · subst him; exact h i0 hi (Or.inr hd)
        · exact h i hi (Or.inl (by omega))
      · exact h i hi (Or.inr hc)

/-- What an accepting call of `_check_ones` says about the shapes and the strides written. -/
theorem check_ones_accepted (self : PyArrayObject) (newdims : List Int)
    (hwf : self.strides.length = self.dimensions.length)
    (h0 : (_check_ones self newdims).1 = 0) :
    self.dimensions.filter (fun d => decide (d ≠ 1)) =
      newdims.filter (fun d => decide (d ≠ 1)) ∧
    (_check_ones self newdims).2.length = newdims.length ∧
    (strip_ones newdims (_check_ones self newdims).2).2 =
      (strip_ones self.dimensions self.strides).2 := by
  obtain ⟨hA, hB⟩ := check_ones_loop_spec self.dimensions self.strides newdims
    (self.dimensions.length + newdims.length) 0 0 [] self.dimensions self.strides newdims
    rfl rfl rfl hwf (le_refl _)
  unfold _check_ones at h0 ⊢
  by_cases h : self.dimensions.filter (fun d => decide (d ≠ 1)) =
      newdims.filter (fun d => decide (d ≠ 1))
  · obtain ⟨out, ho1, ho2, ho3⟩ := hA h
    rw [ho1]
    exact ⟨h, by simpa using ho2, by simpa using ho3⟩
  · rw [hB h] at h0; cases h0

theorem fix_unit_strides_c_contiguous (T S : List Int) (e : Int) (hlen : S.length = T.length)
    (h : ∀ i : Nat, i < T.length → T.getD i 0 ≠ 1 → S[i]? = some (e * (T.drop (i + 1)).prod)) :
    fix_unit_strides T S e false = c_contiguous_strides e T := by
  unfold fix_unit_strides
  simp only
  by_cases hn : T.length > 0
  · rw [if_pos hn, if_neg (by simp)]
    by_cases hd : T.getD (T.length - 1) 0 = 1
    · rw [if_pos hd]
      apply fix_strides_c_contiguous T e (T.length - 1) _ (by rw [List.length_set]; exact hlen)
        (by omega)
      intro i hi hcond
      rw [List.getElem?_set]
      by_cases him : T.length - 1 = i
      · subst him
        rw [if_pos rfl, if_pos (by omega), List.drop_of_length_le (by omega), List.prod_nil,
          mul_one]
      · rw [if_neg him]
        rcases hcond with hc | hc
        · omega
        · exact h i hi hc
    · rw [if_neg hd]
      apply fix_strides_c_contiguous T e (T.length - 1) S hlen (by omega)
      intro i hi hcond
      rcases hcond with hc | hc
      · have him : i = T.length - 1 := by omega
        subst him
        exact h _ hi hd
      · exact h i hi hc
  · rw [if_neg hn]
    have hT : T = [] := List.length_eq_zero.mp (by omega)
    subst hT
    rw [List.length_eq_zero.mp hlen]
    rfl

theorem fix_unit_strides_f_contiguous (T S : List Int) (e : Int) (hlen : S.length = T.length)
    (h : ∀ i : Nat, i < T.length → T.getD i 0 ≠ 1 → S[i]? = some (e * (T.take i).prod)) :
    fix_unit_strides T S e true = f_contiguous_strides e T := by
  unfold fix_unit_strides
  simp only
  by_cases hn : T.length > 0
  · rw [if_pos hn, if_pos trivial]
    by_cases hd : T.getD 0 0 = 1
    · rw [if_pos hd]
      apply fix_strides_f_contiguous T e (T.length - 1) 1 _
        (by rw [List.length_set]; exact hlen) (le_refl _) (by omega)
      intro i hi hcond
      rw [List.getElem?_set]
      by_cases him : 0 = i
      · subst him
        rw [if_pos rfl, if_pos (by omega), List.take_zero, List.prod_nil, mul_one]
      · rw [if_neg him]
        rcases hcond with hc | hc
        · omega
        · exact h i hi hc
    · rw [if_neg hd]
      apply fix_strides_f_contiguous T e (T.length - 1) 1 S hlen (le_refl _) (by omega)
      intro i hi hcond
      rcases hcond with hc | hc
      · have him : i = 0 := by omega
        subst him
        exact h _ hi hd
      · exact h i hi hc
  · rw [if_neg hn]
    have hT : T = [] := List.length_eq_zero.mp (by omega)
    subst hT
    rw [List.length_eq_zero.mp hlen]
    rfl

/-- C23. For a source whose strides are the contiguous strides of its shape in C order,
respectively Fortran order, and every target shape accepted by `_check_ones`, the strides
after the fix-up of lines 270-295 in the same order are exactly the contiguous strides of
the target shape in that order, and the fix-up does not change the stride of a target axis
of size different from 1. -/
theorem shortcut_keeps_contiguity (dims newdims : List Int) (elsize : Int) :
    ((_check_ones ⟨dims, c_contiguous_strides elsize dims⟩ newdims).1 = 0 →
      fix_unit_strides newdims (_check_ones ⟨dims, c_contiguous_strides elsize dims⟩ newdims).2
        elsize false = c_contiguous_strides elsize newdims ∧
      ∀ m : Nat, newdims.getD m 0 ≠ 1 →
        (fix_unit_strides newdims
          (_check_ones ⟨dims, c_contiguous_strides elsize dims⟩ newdims).2 elsize false)[m]? =
          (_check_ones ⟨dims, c_contiguous_strides elsize dims⟩ newdims).2[m]?) ∧
    ((_check_ones ⟨dims, f_contiguous_strides elsize dims⟩ newdims).1 = 0 →
      fix_unit_strides newdims (_check_ones ⟨dims, f_contiguous_strides elsize dims⟩ newdims).2
        elsize true = f_contiguous_strides elsize newdims ∧
      ∀ m : Nat, newdims.getD m 0 ≠ 1 →
        (fix_unit_strides newdims
          (_check_ones ⟨dims, f_contiguous_strides elsize dims⟩ newdims).2 elsize true)[m]? =
          (_check_ones ⟨dims, f_contiguous_strides elsize dims⟩ newdims).2[m]?) := by
  constructor
  · intro h0
    obtain ⟨hf, hl, hs⟩ := check_ones_accepted ⟨dims, c_contiguous_strides elsize dims⟩ newdims
      (c_contiguous_length elsize dims) h0
    refine ⟨?_, (fix_unit_strides_keeps newdims _ elsize false).2⟩
    apply fix_unit_strides_c_contiguous newdims _ elsize hl
    apply strip_c_values elsize newdims _ hl
    rw [hs, strip_ones_c_contiguous]
    simp only
    rw [show (PyArrayObject.mk dims (c_contiguous_strides elsize dims)).dimensions = dims
      from rfl] at hf
    rw [hf]
  · intro h0
    obtain ⟨hf, hl, hs⟩ := check_ones_accepted ⟨dims, f_contiguous_strides elsize dims⟩ newdims
      (f_contiguous_length elsize dims) h0
    refine ⟨?_, (fix_unit_strides_keeps newdims _ elsize true).2⟩
    apply fix_unit_strides_f_contiguous newdims _ elsize hl
    apply strip_f_values newdims _ elsize hl
    rw [hs, strip_ones_f_contiguous]
    simp only
    rw [show (PyArrayObject.mk dims (f_contiguous_strides elsize dims)).dimensions = dims
      from rfl] at hf
    rw [hf]

/-- C23 at the C-contiguous source of shape `(2, 3)` with 8-byte elements and the target
`(1, 2, 1, 3, 1)`: `_check_ones` writes `(0, 24, 0, 8, 0)` and the fix-up turns it into the
contiguous strides `(48, 24, 24, 8, 8)`; in Fortran order the result is `(8, 8, 16, 16, 48)`. -/
theorem shortcut_keeps_contiguity_witness :
    _check_ones ⟨[2, 3], c_contiguous_strides 8 [2, 3]⟩ [1, 2, 1, 3, 1] =
      (0, [0, 24, 0, 8, 0]) ∧
    c_contiguous_strides 8 [1, 2, 1, 3, 1] = [48, 24, 24, 8, 8] ∧
    f_contiguous_strides 8 [1, 2, 1, 3, 1] = [8, 8, 16, 16, 48] ∧
    fix_unit_strides [1, 2, 1, 3, 1]
      (_check_ones ⟨[2, 3], c_contiguous_strides 8 [2, 3]⟩ [1, 2, 1, 3, 1]).2 8 false =
      c_contiguous_strides 8 [1, 2, 1, 3, 1] ∧
    fix_unit_strides [1, 2, 1, 3, 1]
      (_check_ones ⟨[2, 3], f_contiguous_strides 8 [2, 3]⟩ [1, 2, 1, 3, 1]).2 8 true =
      f_contiguous_strides 8 [1, 2, 1, 3, 1] :=
  ⟨by decide, by decide, by decide,
    ((shortcut_keeps_contiguity [2, 3] [1, 2, 1, 3, 1] 8).1 (by decide)).1,
    ((shortcut_keeps_contiguity [2, 3] [1, 2, 1, 3, 1] 8).2 (by decide)).1⟩

/-! ## PyArray_CreateMultiSortedStridePerm: the votes of several arrays -/

theorem vote_step_eq (a b : Nat) (st : Bool × Bool) (arr : PyArrayObject) :
    vote_step a b st arr =
      if casts_vote a b arr then
        (if larger_stride a b arr then (false, st.1 || st.2) else (false, false))
      else st := by
  unfold vote_step casts_vote larger_stride s_intp_abs
  rw [abs_eq_ite, abs_eq_ite]
  by_cases hv : arr.dimensions.getD a 0 ≠ 1 ∧ arr.dimensions.getD b 0 ≠ 1
  · rw [if_pos hv, decide_eq_true hv, if_pos rfl]
    by_cases hl : |arr.strides.getD a 0| ≤ |arr.strides.getD b 0|
    · rw [if_pos hl, decide_eq_false (not_lt.mpr hl), if_neg (by simp)]
    · rw [if_neg hl, decide_eq_true (not_le.mp hl), if_pos rfl]
      cases h1 : st.1 <;> simp
  · rw [if_neg hv, decide_eq_false hv, if_neg (by simp)]

theorem vote_foldl (a b : Nat) (arrays : List PyArrayObject) :
    ∀ st : Bool × Bool, arrays.foldl (vote_step a b) st =
      (st.1 && !(arrays.any (casts_vote a b)),
        (st.2 || (st.1 && arrays.any (casts_vote a b))) &&
          arrays.all (fun arr => !(casts_vote a b arr) || larger_stride a b arr)) := by
  induction arrays with
  | nil => intro st; simp
  | cons arr arrays ih =>
    intro st
    rw [List.foldl_cons, ih, vote_step_eq, List.any_cons, List.all_cons]
    obtain ⟨s1, s2⟩ := st
    cases casts_vote a b arr <;> cases larger_stride a b arr <;> cases s1 <;> cases s2 <;>
      simp

/-- The outcome of the votes on a pair of axes: the comparison is ambiguous when no array
casts a vote, and the axes are swapped when an array casts a vote and every array that
does has the larger absolute stride on `ax_j0`. -/
theorem vote_eq (arrays : List PyArrayObject) (a b : Nat) :
    vote arrays a b =
      (!(arrays.any (casts_vote a b)),
        arrays.any (casts_vote a b) &&
          arrays.all (fun arr => !(casts_vote a b arr) || larger_stride a b arr)) := by
  unfold vote
  rw [vote_foldl]
  simp

theorem vote_perm (A B : List PyArrayObject) (h : A.Perm B) (a b : Nat) :
    vote A a b = vote B a b := by
  rw [vote_eq, vote_eq, List.any_eq, List.any_eq, List.all_eq, List.all_eq]
  simp only [h.mem_iff]

/-- C24. For `ndim = 2` and any list of arrays, the result of
`PyArray_CreateMultiSortedStridePerm` is `[1, 0]` exactly when at least one array has both
axes of size different from 1 and every such array has `|stride[1]| > |stride[0]|`; in
every other case it is the identity `[0, 1]`. -/
theorem multi_sorted_stride_perm_two_axes (arrays : List PyArrayObject) :
    PyArray_CreateMultiSortedStridePerm arrays 2 =
      if (∃ arr ∈ arrays, arr.dimensions.getD 0 0 ≠ 1 ∧ arr.dimensions.getD 1 0 ≠ 1) ∧
          (∀ arr ∈ arrays, arr.dimensions.getD 0 0 ≠ 1 ∧ arr.dimensions.getD 1 0 ≠ 1 →
            |arr.strides.getD 1 0| > |arr.strides.getD 0 0|) then [1, 0]
      else [0, 1] := by
  have hv := vote_eq arrays 1 0
  have hany : arrays.any (casts_vote 1 0) = true ↔
      ∃ arr ∈ arrays, arr.dimensions.getD 0 0 ≠ 1 ∧ arr.dimensions.getD 1 0 ≠ 1 := by
    rw [List.any_eq_true]
    constructor
    · rintro ⟨arr, hm, hc⟩
      unfold casts_vote at hc
      exact ⟨arr, hm, (of_decide_eq_true hc).symm⟩
    · rintro ⟨arr, hm, hc⟩
      exact ⟨arr, hm, by unfold casts_vote; exact decide_eq_true hc.symm⟩
  have hall : arrays.all (fun arr => !(casts_vote 1 0 arr) || larger_stride 1 0 arr) = true ↔
      ∀ arr ∈ arrays, arr.dimensions.getD 0 0 ≠ 1 ∧ arr.dimensions.getD 1 0 ≠ 1 →
        |arr.strides.getD 1 0| > |arr.strides.getD 0 0| := by
    rw [List.all_eq_true]
    constructor
    · intro h arr hm hc
      have := h arr hm
      unfold casts_vote larger_stride at this
      rw [decide_eq_true hc.symm] at this
      simpa using this
    · intro h arr hm
      unfold casts_vote larger_stride
      by_cases hc : arr.dimensions.getD 1 0 ≠ 1 ∧ arr.dimensions.getD 0 0 ≠ 1
      · rw [decide_eq_true hc, decide_eq_true (h arr hm hc.symm)]; rfl
      · rw [decide_eq_false hc]; rfl
  have hres : PyArray_CreateMultiSortedStridePerm arrays 2 =
      if (vote arrays 1 0).1 = false ∧ (vote arrays 1 0).2 = true then [1, 0] else [0, 1] := by
    unfold PyArray_CreateMultiSortedStridePerm
    show sort_loop arrays 1 1 [0, 1] = _
    rw [sort_loop, sort_loop]
    unfold insert_axis
    have hg1 : ([0, 1] : List Nat).getD 1 0 = 1 := rfl
    have hg0 : ([0, 1] : List Nat).getD 0 0 = 0 := rfl
    rw [hg1]
    have hf : find_ipos arrays [0, 1] 1 1 1 =
        if (vote arrays 1 0).1 = false ∧ (vote arrays 1 0).2 = true then 0 else 1 := by
      rw [find_ipos, hg0]
      cases h1 : (vote arrays 1 0).1 <;> cases h2 : (vote arrays 1 0).2 <;> simp [find_ipos]
    rw [hf]
    by_cases hc : (vote arrays 1 0).1 = false ∧ (vote arrays 1 0).2 = true
    · rw [if_pos hc, if_pos hc]; rfl
    · rw [if_neg hc, if_neg hc]; rfl
  rw [hres, hv]
  simp only [Bool.not_eq_false', Bool.and_eq_true]
  by_cases hcond : (∃ arr ∈ arrays, arr.dimensions.getD 0 0 ≠ 1 ∧ arr.dimensions.getD 1 0 ≠ 1) ∧
      (∀ arr ∈ arrays, arr.dimensions.getD 0 0 ≠ 1 ∧ arr.dimensions.getD 1 0 ≠ 1 →
        |arr.strides.getD 1 0| > |arr.strides.getD 0 0|)
  · rw [if_pos hcond, if_pos ⟨hany.mpr hcond.1, hany.mpr hcond.1, hall.mpr hcond.2⟩]
  · rw [if_neg hcond, if_neg]
    rintro ⟨h1, -, h3⟩
    exact hcond ⟨hany.mp h1, hall.mp h3⟩

/-- The two-axis consensus on examples: one array that votes for the swap; two arrays in
conflict, in both orders of the list; one array that cannot vote. -/
theorem multi_sorted_stride_perm_two_axes_examples :
    PyArray_CreateMultiSortedStridePerm [⟨[2, 2], [4, 8]⟩] 2 = [1, 0] ∧
    PyArray_CreateMultiSortedStridePerm [⟨[2, 2], [4, 8]⟩, ⟨[2, 2], [8, 4]⟩] 2 = [0, 1] ∧
    PyArray_CreateMultiSortedStridePerm [⟨[2, 2], [8, 4]⟩, ⟨[2, 2], [4, 8]⟩] 2 = [0, 1] ∧
    PyArray_CreateMultiSortedStridePerm [⟨[1, 2], [4, 8]⟩] 2 = [0, 1] ∧
    PyArray_CreateMultiSortedStridePerm [⟨[1, 2], [4, 8]⟩, ⟨[2, 2], [4, 8]⟩] 2 = [1, 0] := by
  refine ⟨by decide, by decide, by decide, by decide, by decide⟩

theorem find_ipos_le (arrays : List PyArrayObject) (out_strideperm : List Nat) (ax : Nat)
    (n : Nat) : ∀ ipos : Nat, n ≤ ipos → find_ipos arrays out_strideperm ax n ipos ≤ ipos := by
  induction n with
  | zero => intro ipos _; rw [find_ipos]
  | succ n ih =>
    intro ipos h
    rw [find_ipos]
    by_cases h1 : ¬ (vote arrays ax (out_strideperm.getD n 0)).1
    · rw [if_pos h1]
      by_cases h2 : (vote arrays ax (out_strideperm.getD n 0)).2
      · rw [if_pos h2]
        exact le_trans (ih n (le_refl _)) (by omega)
      · rw [if_neg h2]
    · rw [if_neg h1]
      exact ih ipos (by omega)

/-- The body of the loop over `i0` moves the axis at position `i0` to the position `ipos`
found for it, among the axes before it. -/
theorem insert_axis_eq (arrays : List PyArrayObject) (P : List Nat) (ax : Nat) (C : List Nat) :
    insert_axis arrays (P ++ ax :: C) P.length =
        P.take (find_ipos arrays (P ++ ax :: C) ax P.length P.length) ++
          ax :: P.drop (find_ipos arrays (P ++ ax :: C) ax P.length P.length) ++ C := by
  unfold insert_axis
  rw [getD_at P C ax P.length rfl]
  have hle := find_ipos_le arrays (P ++ ax :: C) ax P.length P.length (le_refl _)
  generalize find_ipos arrays (P ++ ax :: C) ax P.length P.length = p at hle ⊢
  by_cases hp : p = P.length
  · rw [if_neg (not_not.mpr hp), hp, List.take_length, List.drop_length]
    simp
  · rw [if_pos hp]
    have hsplit : P ++ ax :: C = P.take p ++ P.drop p ++ ax :: C := by
      rw [List.take_append_drop]
    rw [hsplit, shift_loop_spec p (P.length - p) (P.take p) (P.drop p) ax C
      (by rw [List.length_take]; omega) (by rw [List.length_drop])]
    rw [List.append_assoc, List.cons_append,
      set_at _ _ _ _ _ (by rw [List.length_take]; omega)]
    simp

theorem sort_loop_perm (arrays : List PyArrayObject) (n : Nat) :
    ∀ (i0 : Nat) (P : List Nat), P.Perm (List.range i0) →
      (sort_loop arrays n i0 (P ++ List.range' i0 n)).Perm (List.range (i0 + n)) := by
  induction n with
  | zero =>
    intro i0 P hP
    simp only [sort_loop, List.range'_zero, List.append_nil, Nat.add_zero]
    exact hP
  | succ n ih =>
    intro i0 P hP
    have hlen : P.length = i0 := by rw [hP.length_eq, List.length_range]
    rw [List.range'_succ]
    unfold sort_loop
    have hins := insert_axis_eq arrays P i0 (List.range' (i0 + 1) n)
    rw [hlen] at hins
    rw [hins, show i0 + (n + 1) = (i0 + 1) + n by omega]
    apply ih (i0 + 1)
    rw [List.range_succ]
    refine (List.perm_middle).trans ?_
    rw [List.take_append_drop]
    exact (List.Perm.cons i0 hP).trans (List.perm_append_singleton i0 _).symm

theorem find_ipos_congr (A B : List PyArrayObject) (h : ∀ a b, vote A a b = vote B a b)
    (out_strideperm : List Nat) (ax : Nat) (n : Nat) :
    ∀ ipos : Nat, find_ipos A out_strideperm ax n ipos = find_ipos B out_strideperm ax n ipos := by
  induction n with
  | zero => intro ipos; rw [find_ipos, find_ipos]
  | succ n ih =>
    intro ipos
    rw [find_ipos, find_ipos, h, ih, ih]

theorem insert_axis_congr (A B : List PyArrayObject) (h : ∀ a b, vote A a b = vote B a b)
    (out_strideperm : List Nat) (i0 : Nat) :
    insert_axis A out_strideperm i0 = insert_axis B out_strideperm i0 := by
  unfold insert_axis
  rw [find_ipos_congr A B h]

theorem sort_loop_congr (A B : List PyArrayObject) (h : ∀ a b, vote A a b = vote B a b)
    (n : Nat) : ∀ (i0 : Nat) (out_strideperm : List Nat),
      sort_loop A n i0 out_strideperm = sort_loop B n i0 out_strideperm := by
  induction n with
  | zero => intro i0 p; rw [sort_loop, sort_loop]
  | succ n ih =>
    intro i0 p
    rw [sort_loop, sort_loop, insert_axis_congr A B h, ih]

/-- C26. For every `ndim` and every list of arrays, the output of
`PyArray_CreateMultiSortedStridePerm` is a permutation of `0 .. ndim-1`, and it is the same
for every reordering of the list of arrays. -/
theorem multi_sorted_stride_perm_order_independent (arrays arrays2 : List PyArrayObject)
    (ndim : Nat) (hperm : arrays.Perm arrays2) :
    (PyArray_CreateMultiSortedStridePerm arrays ndim).Perm (List.range ndim) ∧
    PyArray_CreateMultiSortedStridePerm arrays2 ndim =
      PyArray_CreateMultiSortedStridePerm arrays ndim := by
  constructor
  · unfold PyArray_CreateMultiSortedStridePerm
    cases ndim with
    | zero => exact List.Perm.refl _
    | succ m =>
      have h := sort_loop_perm arrays m 1 [0] (List.Perm.refl _)
      have e : List.range (m + 1) = [0] ++ List.range' 1 m := by
        rw [List.range_eq_range', List.range'_succ]; rfl
      rw [Nat.add_sub_cancel, e]
      rw [show 1 + m = m + 1 by omega, e] at h
      exact h
  · unfold PyArray_CreateMultiSortedStridePerm
    exact sort_loop_congr arrays2 arrays (fun a b => vote_perm arrays2 arrays hperm.symm a b) _ _ _

/-- C26 on two arrays of shape `(2, 3, 4)`, one in C order and one with its axes 0 and 1
exchanged: in both orders of the list the result is `[0, 1, 2]`. -/
theorem multi_sorted_stride_perm_order_independent_witness :
    PyArray_CreateMultiSortedStridePerm
      [⟨[2, 3, 4], [48, 16, 4]⟩, ⟨[2, 3, 4], [16, 32, 4]⟩] 3 = [0, 1, 2] ∧
    PyArray_CreateMultiSortedStridePerm
      [⟨[2, 3, 4], [16, 32, 4]⟩, ⟨[2, 3, 4], [48, 16, 4]⟩] 3 =
    PyArray_CreateMultiSortedStridePerm
      [⟨[2, 3, 4], [48, 16, 4]⟩, ⟨[2, 3, 4], [16, 32, 4]⟩] 3 :=
  ⟨by decide,
    (multi_sorted_stride_perm_order_independent
      [⟨[2, 3, 4], [48, 16, 4]⟩, ⟨[2, 3, 4], [16, 32, 4]⟩]
      [⟨[2, 3, 4], [16, 32, 4]⟩, ⟨[2, 3, 4], [48, 16, 4]⟩] 3
      (List.Perm.swap _ _ _)).2⟩

/-! ## `_attempt_nocopy_reshape`: index safety and termination -/

theorem filter_eq_cons_decomp (L : List Int) :
    ∀ (d : Int) (R : List Int), L.filter (fun d => decide (d ≠ 1)) = d :: R →
      ∃ (a : Nat) (rest : List Int), L = List.replicate a 1 ++ d :: rest ∧
        rest.filter (fun d => decide (d ≠ 1)) = R := by
  induction L with
  | nil => intro d R h; simp at h
  | cons x L ih =>
    intro d R h
    by_cases hx : x = 1
    · subst hx
      rw [filter_cons_one] at h
      obtain ⟨a, rest, h1, h2⟩ := ih d R h
      exact ⟨a + 1, rest, by rw [h1, List.replicate_succ, List.cons_append], h2⟩
    · rw [filter_cons_ne_one x L hx] at h
      obtain ⟨h1, h2⟩ := List.cons.inj h
      exact ⟨0, L, by rw [h1]; rfl, h2⟩

theorem strip_ones_append (l1 s1 l2 s2 : List Int) (h : l1.length = s1.length) :
    (strip_ones (l1 ++ l2) (s1 ++ s2)).2 = (strip_ones l1 s1).2 ++ (strip_ones l2 s2).2 := by
  induction l1 generalizing s1 with
  | nil =>
    have : s1 = [] := List.length_eq_zero.mp h.symm
    subst this
    cases l2 <;> rfl
  | cons d l1 ih =>
    cases s1 with
    | nil => simp at h
    | cons s s1 =>
      have h1 : l1.length = s1.length := by simpa using h
      rw [List.cons_append, List.cons_append]
      by_cases hd : d = 1
      · subst hd
        rw [strip_ones_cons_one, strip_ones_cons_one, ih s1 h1]
      · rw [strip_ones_cons_ne d _ s _ hd, strip_ones_cons_ne d _ s _ hd, ih s1 h1,
          List.cons_append]

theorem strip_ones_no_axis (L S : List Int)
    (h : L.filter (fun d => decide (d ≠ 1)) = []) : (strip_ones L S).2 = [] := by
  induction L generalizing S with
  | nil => cases S <;> rfl
  | cons d L ih =>
    cases S with
    | nil => rfl
    | cons s S =>
      by_cases hd : d = 1
      · subst hd
        rw [filter_cons_one] at h
        rw [strip_ones_cons_one, ih S h]
      · rw [filter_cons_ne_one d L hd] at h
        cases h

theorem strip_run_c (a : Nat) (d s : Int) (hd : d ≠ 1) :
    (strip_ones (List.replicate a 1 ++ [d])
      (c_contiguous_strides s (List.replicate a 1 ++ [d]))).2 = [s] := by
  induction a with
  | zero =>
    simp only [List.replicate_zero, List.nil_append, c_contiguous_strides, List.prod_nil, mul_one]
    rw [strip_ones_cons_ne d [] s [] hd]
    rfl
  | succ a ih =>
    rw [List.replicate_succ, List.cons_append, c_contiguous_strides, strip_ones_cons_one, ih]

theorem strip_run_f (a : Nat) (d s : Int) (hd : d ≠ 1) :
    (strip_ones (List.replicate a 1 ++ [d])
      (f_contiguous_strides s (List.replicate a 1 ++ [d]))).2 = [s] := by
  induction a with
  | zero =>
    simp only [List.replicate_zero, List.nil_append, f_contiguous_strides]
    rw [strip_ones_cons_ne d [] s [] hd]
    rfl
  | succ a ih =>
    rw [List.replicate_succ, List.cons_append, f_contiguous_strides, strip_ones_cons_one,
      mul_one, ih]

/-- The loop that extends the runs, started with `np = 1` in front of `a` target axes of
length 1 followed by an axis of the length `op = d`: it reads these `a + 1` axes and stops. -/
theorem extend_runs_ones (newdims olddims : List Int) (d : Int) (hd1 : 1 < d)
    (hd2 : d < 2147483648) (oj : Nat) (a : Nat) :
    ∀ (nj fuel : Nat) (rest : List Int), newdims.drop nj = List.replicate a 1 ++ d :: rest →
      a + 1 ≤ fuel → extend_runs newdims olddims fuel 1 d nj oj = some (nj + a + 1, oj) := by
  induction a with
  | zero =>
    intro nj fuel rest h hfuel
    obtain ⟨fuel, rfl⟩ : ∃ f, fuel = f + 1 := ⟨fuel - 1, by omega⟩
    rw [List.replicate_zero, List.nil_append] at h
    rw [extend_runs, if_neg (by omega), if_pos hd1, (getElem?_of_drop_eq_cons _ _ _ _ h).1]
    simp only
    rw [one_mul, toCInt_of_range d (by omega) hd2]
    cases fuel <;> rw [extend_runs, if_pos rfl]
  | succ a ih =>
    intro nj fuel rest h hfuel
    obtain ⟨fuel, rfl⟩ : ∃ f, fuel = f + 1 := ⟨fuel - 1, by omega⟩
    rw [List.replicate_succ, List.cons_append] at h
    obtain ⟨h1, h2, -⟩ := getElem?_of_drop_eq_cons _ _ _ _ h
    rw [extend_runs, if_neg (by omega), if_pos hd1, h1]
    simp only
    rw [one_mul, toCInt_of_range 1 (by omega) (by omega), ih (nj + 1) fuel rest h2 (by omega)]
    congr 2
    omega

theorem extend_runs_eq (newdims olddims : List Int) (fuel : Nat) (np : Int) (nj oj : Nat) :
    extend_runs newdims olddims fuel np np nj oj = some (nj, oj) := by
  cases fuel <;> rw [extend_runs, if_pos rfl]

theorem unit_axes_exit (olddims oldstrides newdims buf : List Int) (oi ni : Nat)
    (hlen : oldstrides.length = olddims.length)
    (hni : ni ≤ newdims.length) (hoi : oi ≤ olddims.length)
    (hfilter : (newdims.drop ni).filter (fun d => decide (d ≠ 1)) = olddims.drop oi)
    (hbuf : newdims.length ≤ buf.length)
    (hinv : (strip_ones (newdims.take ni) (buf.take ni)).2 = oldstrides.take oi)
    (hc : ¬ (ni < newdims.length ∧ oi < olddims.length)) :
    (strip_ones newdims buf).2 = oldstrides := by
  have hoi2 : olddims.length ≤ oi := by
    by_contra hlt
    have hn : newdims.length ≤ ni := by
      by_contra h2
      exact hc ⟨by omega, by omega⟩
    rw [List.drop_of_length_le hn, List.filter_nil] at hfilter
    have := List.drop_eq_nil_iff.mp hfilter.symm
    omega
  rw [List.drop_of_length_le hoi2] at hfilter
  conv_lhs => rw [← List.take_append_drop ni newdims, ← List.take_append_drop ni buf]
  rw [strip_ones_append _ _ _ _ (by rw [List.length_take, List.length_take]; omega), hinv,
    strip_ones_no_axis _ _ hfilter, List.append_nil, List.take_of_length_le (by omega)]

/-- The main loop when the target shape is the old shape with axes of length 1 inserted:
every old axis is a run of its own, no contiguity check is made, the loop returns 1, and the
target axes of length other than 1 get the old strides, in order. -/
theorem reshape_loop_unit_axes (olddims oldstrides newdims : List Int) (is_f_order : Bool)
    (hlen : oldstrides.length = olddims.length)
    (hbig : ∀ d ∈ olddims, 1 < d ∧ d < 2147483648)
    (fuel oi ni : Nat) (buf : List Int)
    (hni : ni ≤ newdims.length) (hoi : oi ≤ olddims.length)
    (hfilter : (newdims.drop ni).filter (fun d => decide (d ≠ 1)) = olddims.drop oi)
    (hbuf : newdims.length ≤ buf.length)
    (hfuel : newdims.length - ni ≤ fuel)
    (hinv : (strip_ones (newdims.take ni) (buf.take ni)).2 = oldstrides.take oi) :
    ∃ ns, reshape_loop olddims oldstrides newdims is_f_order fuel oi (oi + 1) ni (ni + 1) buf =
        some (1, ns) ∧ ns.length = buf.length ∧ (strip_ones newdims ns).2 = oldstrides := by
  induction fuel generalizing oi ni buf with
  | zero =>
    rw [reshape_loop, if_pos (by omega)]
    exact ⟨buf, rfl, rfl,
      unit_axes_exit olddims oldstrides newdims buf oi ni hlen hni hoi hfilter hbuf hinv
        (by omega)⟩
  | succ fuel ih =>
    rw [reshape_loop]
    by_cases hc : ni < newdims.length ∧ oi < olddims.length
    swap
    · rw [if_pos hc]
      exact ⟨buf, rfl, rfl,
        unit_axes_exit olddims oldstrides newdims buf oi ni hlen hni hoi hfilter hbuf hinv hc⟩
    obtain ⟨hc1, hc2⟩ := hc
    rw [if_neg (not_not.mpr ⟨hc1, hc2⟩)]
    rw [List.drop_eq_getElem_cons hc2] at hfilter
    obtain ⟨a, rest, hL, hrest⟩ := filter_eq_cons_decomp _ _ _ hfilter
    obtain ⟨hd1, hd2⟩ := hbig _ (List.getElem_mem hc2)
    have hlenL : newdims.length - ni = a + 1 + rest.length := by
      have := congrArg List.length hL
      rw [List.length_drop, List.length_append, List.length_replicate, List.length_cons] at this
      omega
    have hext : ∀ x, newdims[ni]? = some x →
        extend_runs newdims olddims (newdims.length + olddims.length) (toCInt x)
          (toCInt olddims[oi]) (ni + 1) (oi + 1) = some (ni + a + 1, oi + 1) := by
      intro x hx
      rw [toCInt_of_range olddims[oi] (by omega) hd2]
      cases a with
      | zero =>
        rw [List.replicate_zero, List.nil_append] at hL
        rw [(getElem?_of_drop_eq_cons _ _ _ _ hL).1] at hx
        obtain rfl : olddims[oi] = x := by simpa using hx
        rw [toCInt_of_range _ (by omega) hd2, extend_runs_eq]
      | succ a =>
        rw [List.replicate_succ, List.cons_append] at hL
        obtain ⟨h1, h2, -⟩ := getElem?_of_drop_eq_cons _ _ _ _ hL
        rw [h1] at hx
        obtain rfl : 1 = x := by simpa using hx
        rw [toCInt_of_range 1 (by omega) (by omega),
          extend_runs_ones newdims olddims _ hd1 hd2 (oi + 1) a (ni + 1) _ rest h2 (by omega)]
        congr 2
        omega
    rw [List.getElem?_eq_getElem hc1, List.getElem?_eq_getElem hc2]
    simp only
    rw [hext _ (List.getElem?_eq_getElem hc1)]
    simp only
    rw [show oi + 1 - 1 - oi = 0 by omega, check_run]
    simp only
    obtain ⟨buf1, e1, e2⟩ := fill_run_some newdims oldstrides is_f_order oi (oi + 1) ni
      (ni + a + 1) buf (by omega) (by omega) (by omega) (by omega) hbuf
    rw [e1]
    simp only
    have hrunL : (newdims.drop ni).take (ni + a + 1 - ni) = List.replicate a 1 ++ [olddims[oi]] := by
      rw [hL, show ni + a + 1 - ni = a + 1 by omega,
        List.take_append_eq_append_take, List.length_replicate,
        List.take_of_length_le (by rw [List.length_replicate]; omega),
        show a + 1 - a = 1 by omega]
      rfl
    have hrun : ∃ run, buf1 = buf.take ni ++ run ++ buf.drop (ni + a + 1) ∧
        run.length = ni + a + 1 - ni ∧
        (strip_ones (List.replicate a 1 ++ [olddims[oi]]) run).2 = [oldstrides.getD oi 0] := by
      cases is_f_order with
      | true =>
        have hspec := fill_run_f_spec newdims oldstrides oi (oi + 1) ni (ni + a + 1) buf buf1
          (by omega) (by omega) (by omega) hbuf e1
        rw [hrunL] at hspec
        exact ⟨_, hspec, by rw [f_contiguous_length]; simp; omega,
          strip_run_f a _ _ (by omega)⟩
      | false =>
        have hspec := fill_run_c_spec newdims oldstrides oi (oi + 1) ni (ni + a + 1) buf buf1
          (by omega) (by omega) (by omega) (by omega) hbuf e1
        rw [hrunL, Nat.add_sub_cancel] at hspec
        exact ⟨_, hspec, by rw [c_contiguous_length]; simp; omega,
          strip_run_c a _ _ (by omega)⟩
    obtain ⟨run, hb1, hrl, hrs⟩ := hrun
    have hrestdrop : newdims.drop (ni + a + 1) = rest := by
      rw [show ni + a + 1 = ni + (a + 1) by omega, ← List.drop_drop, hL,
        List.drop_append_eq_append_drop, List.length_replicate,
        List.drop_of_length_le (by rw [List.length_replicate]; omega),
        show a + 1 - a = 1 by omega]
      rfl
    obtain ⟨ns, e3, e4, e5⟩ := ih (oi + 1) (ni + a + 1) buf1 (by omega) (by omega)
      (by rw [hrestdrop]; exact hrest) (by omega) (by omega)
      (by
        rw [hb1, take_filled _ _ _ _ (by omega) (by omega) hrl,
          take_split newdims ni (ni + a + 1) (by omega), hrunL,
          strip_ones_append _ _ _ _ (by rw [List.length_take, List.length_take]; omega),
          hinv, hrs, List.take_succ, List.getElem?_eq_getElem (by omega),
          List.getD_eq_getElem _ _ (by omega)]
        rfl)
    exact ⟨ns, e3, by omega, e5⟩

theorem mem_le_prod (l : List Int) (h : ∀ d ∈ l, 0 < d) : ∀ d ∈ l, d ≤ l.prod := by
  induction l with
  | nil => intro d hd; cases hd
  | cons x l ih =>
    intro d hd
    have hx : 0 < x := h x (List.mem_cons_self _ _)
    have hl : 0 < l.prod := prod_pos_of_pos l (fun y hy => h y (List.mem_cons_of_mem _ hy))
    rw [List.prod_cons]
    rcases List.mem_cons.mp hd with rfl | hd
    · exact le_mul_of_one_le_right hx.le hl
    · exact le_trans (ih (fun y hy => h y (List.mem_cons_of_mem _ hy)) d hd)
        (le_mul_of_one_le_left hl.le hx)

/-- C28. The claim fails at the source of shape `(65536, 65536)` with the strides
`(65536, 1)` and the same target shape: `_check_ones` returns 0 with the strides
`(65536, 1)`, and `_attempt_nocopy_reshape` returns 0 in both orders, because the element
count `2^32` is 0 in the `int` variable `np`. -/
theorem planner_refuses_what_check_ones_accepts :
    _check_ones ⟨[65536, 65536], [65536, 1]⟩ [65536, 65536] = (0, [65536, 1]) ∧
    int_product [65536, 65536] = 0 ∧
    _attempt_nocopy_reshape ⟨[65536, 65536], [65536, 1]⟩ [65536, 65536] [0, 0] false =
      some (0, [0, 0]) ∧
    _attempt_nocopy_reshape ⟨[65536, 65536], [65536, 1]⟩ [65536, 65536] [0, 0] true =
      some (0, [0, 0]) := by
  refine ⟨by decide, by decide, by decide, by decide⟩

/-- What holds of C28: while the element count fits in `int`, for a source of positive
dimensions with arbitrary strides and a target shape for which `_check_ones` returns 0,
`_attempt_nocopy_reshape` returns 1 in both orders, whatever the prior contents of the
buffer, and gives every target axis of size different from 1 the stride that `_check_ones`
gives it. -/
theorem check_ones_agrees_with_planner_in_range (self : PyArrayObject)
    (newdims buf : List Int) (is_f_order : Bool)
    (hwf : self.strides.length = self.dimensions.length)
    (hd : ∀ d ∈ self.dimensions, 0 < d) (hfit : self.dimensions.prod < 2147483648)
    (hbuf : newdims.length ≤ buf.length)
    (h0 : (_check_ones self newdims).1 = 0) :
    ∃ ns, _attempt_nocopy_reshape self newdims buf is_f_order = some (1, ns) ∧
      (strip_ones newdims ns).2 = (strip_ones newdims (_check_ones self newdims).2).2 := by
  obtain ⟨hf, -, hs⟩ := check_ones_accepted self newdims hwf h0
  have hs1 := strip_ones_dims self.dimensions self.strides hwf
  have ho : ∀ d ∈ (strip_ones self.dimensions self.strides).1, 0 < d := by
    rw [hs1]; exact fun d hd1 => hd d (List.mem_of_mem_filter hd1)
  have hpo : (strip_ones self.dimensions self.strides).1.prod = self.dimensions.prod := by
    rw [hs1]; exact prod_filter_ne_one _
  have hn : ∀ d ∈ newdims, 0 < d := by
    intro d hdn
    by_cases h1 : d = 1
    · omega
    · have : d ∈ newdims.filter (fun d => decide (d ≠ 1)) :=
        List.mem_filter.mpr ⟨hdn, by simpa using h1⟩
      rw [← hf] at this
      exact hd d (List.mem_of_mem_filter this)
  have hprod : newdims.prod = self.dimensions.prod := by
    rw [← prod_filter_ne_one newdims, ← hf, prod_filter_ne_one]
  have hnp : int_product newdims = newdims.prod := int_product_eq newdims hn (by omega)
  have hop : int_product (strip_ones self.dimensions self.strides).1 = self.dimensions.prod := by
    rw [int_product_eq _ ho (by omega), hpo]
  have hpos : 0 < self.dimensions.prod := prod_pos_of_pos _ hd
  have hbig : ∀ d ∈ (strip_ones self.dimensions self.strides).1, 1 < d ∧ d < 2147483648 := by
    intro d hd1
    have hle := mem_le_prod _ ho d hd1
    rw [hs1] at hd1
    have hne : d ≠ 1 := by simpa using (List.mem_filter.mp hd1).2
    have := hd d (List.mem_of_mem_filter hd1)
    exact ⟨by omega, by omega⟩
  unfold _attempt_nocopy_reshape
  simp only
  rw [hnp, hop, if_neg (not_not.mpr hprod), if_neg (by omega)]
  obtain ⟨ns, e1, -, e3⟩ := reshape_loop_unit_axes (strip_ones self.dimensions self.strides).1
    (strip_ones self.dimensions self.strides).2 newdims is_f_order (strip_ones_length _ _) hbig
    newdims.length 0 0 buf (Nat.zero_le _) (Nat.zero_le _)
    (by rw [List.drop_zero, List.drop_zero, hs1, hf]) hbuf (by omega) rfl
  exact ⟨ns, e1, by rw [e3, hs]⟩

/-- The in-range agreement at the source of shape `(2, 3)` with the strides `(100, 7)` and
the target `(1, 2, 1, 3, 1)`: `_check_ones` writes `(0, 100, 0, 7, 0)`, the planner in C
order `(200, 100, 21, 7, 9)` over a buffer filled with 9, the last entry untouched. -/
theorem check_ones_agrees_with_planner_in_range_witness :
    _check_ones ⟨[2, 3], [100, 7]⟩ [1, 2, 1, 3, 1] = (0, [0, 100, 0, 7, 0]) ∧
    _attempt_nocopy_reshape ⟨[2, 3], [100, 7]⟩ [1, 2, 1, 3, 1] [9, 9, 9, 9, 9] false =
      some (1, [200, 100, 21, 7, 9]) ∧
    ∃ ns, _attempt_nocopy_reshape ⟨[2, 3], [100, 7]⟩ [1, 2, 1, 3, 1] [9, 9, 9, 9, 9] true =
      some (1, ns) ∧
      (strip_ones [1, 2, 1, 3, 1] ns).2 =
        (strip_ones [1, 2, 1, 3, 1] (_check_ones ⟨[2, 3], [100, 7]⟩ [1, 2, 1, 3, 1]).2).2 :=
  ⟨by decide, by decide,
    check_ones_agrees_with_planner_in_range ⟨[2, 3], [100, 7]⟩ [1, 2, 1, 3, 1] [9, 9, 9, 9, 9]
      true rfl (by decide) (by decide) (by decide) (by decide)⟩

/-! ## `_attempt_nocopy_reshape`: which entries of `newstrides` are assigned -/

/-- C21. The claim fails at the source of shape `(2, 3)` with the strides `(48, 16)` (every
other element of a buffer of 8-byte elements) and the target `(6, 1)`: the function returns
1 and has assigned `newstrides[0]` only; the entry of the trailing axis of size 1 is what
the buffer held before the call, so two calls that differ in the prior contents of the
buffer return different strides, in both orders. The same happens for the source of shape
`(6)` and, with nothing assigned at all, for a source that has only axes of size 1. -/
theorem attempt_nocopy_reshape_leaves_trailing_unit_axis :
    _attempt_nocopy_reshape ⟨[2, 3], [48, 16]⟩ [6, 1] [0, 0] false = some (1, [16, 0]) ∧
    _attempt_nocopy_reshape ⟨[2, 3], [48, 16]⟩ [6, 1] [0, 7] false = some (1, [16, 7]) ∧
    _attempt_nocopy_reshape ⟨[3, 2], [16, 48]⟩ [6, 1] [0, 0] true = some (1, [16, 0]) ∧
    _attempt_nocopy_reshape ⟨[3, 2], [16, 48]⟩ [6, 1] [0, 7] true = some (1, [16, 7]) ∧
    _attempt_nocopy_reshape ⟨[6], [8]⟩ [6, 1] [0, 7] false = some (1, [8, 7]) ∧
    _attempt_nocopy_reshape ⟨[1, 1], [8, 8]⟩ [1] [5] false = some (1, [5]) := by
  refine ⟨by decide, by decide, by decide, by decide, by decide, by decide⟩

theorem drop_filled (buf run : List Int) (ni nj : Nat) (hni : ni ≤ nj) (hnj : nj ≤ buf.length)
    (hrun : run.length = nj - ni) :
    (buf.take ni ++ run ++ buf.drop nj).drop nj = buf.drop nj := by
  rw [List.drop_append_eq_append_drop, List.drop_of_length_le
    (by rw [List.length_append, List.length_take]; omega)]
  rw [List.length_append, List.length_take, hrun, Nat.min_eq_left (by omega),
    show nj - (ni + (nj - ni)) = 0 by omega, List.drop_zero, List.nil_append]

/-- The strides written for a run do not depend on the buffer: a fill replaces the entries
`ni .. nj-1` by a list `run` that is determined by the dimensions and the old strides. -/
theorem fill_run_spec (newdims oldstrides : List Int) (is_f_order : Bool) (oi oj ni nj : Nat)
    (hoi : oi < oj) (hoj : oj ≤ oldstrides.length) (hni : ni < nj)
    (hnj : nj ≤ newdims.length) :
    ∃ run : List Int, run.length = nj - ni ∧
      ∀ buf buf1 : List Int, newdims.length ≤ buf.length →
        fill_run newdims oldstrides is_f_order oi oj ni nj buf = some buf1 →
        buf1 = buf.take ni ++ run ++ buf.drop nj := by
  cases is_f_order with
  | true =>
    refine ⟨f_contiguous_strides (oldstrides.getD oi 0) ((newdims.drop ni).take (nj - ni)),
      by rw [f_contiguous_length, List.length_take, List.length_drop]; omega, ?_⟩
    intro buf buf1 hbuf h
    exact fill_run_f_spec newdims oldstrides oi oj ni nj buf buf1 (by omega) hni hnj hbuf h
  | false =>
    refine ⟨c_contiguous_strides (oldstrides.getD (oj - 1) 0) ((newdims.drop ni).take (nj - ni)),
      by rw [c_contiguous_length, List.length_take, List.length_drop]; omega, ?_⟩
    intro buf buf1 hbuf h
    exact fill_run_c_spec newdims oldstrides oi oj ni nj buf buf1 (by omega) hoj hni hnj hbuf h

/-- The main loop run on two buffers, on shapes of positive dimensions whose products fit
in `int`: if it returns 1 on the first it returns 1 on the second, and there is a point
`ni1` where the loop ends such that the two results agree before `ni1` and each is its own
buffer from `ni1` on. -/
theorem reshape_loop_two_buffers (olddims oldstrides newdims : List Int) (is_f_order : Bool)
    (hn : ∀ d ∈ newdims, 0 < d) (ho : ∀ d ∈ olddims, 0 < d)
    (hlen : oldstrides.length = olddims.length)
    (fuel oi ni : Nat) (b1 b2 ns1 : List Int)
    (hni : ni ≤ newdims.length) (hoi : oi ≤ olddims.length)
    (heq : (newdims.drop ni).prod = (olddims.drop oi).prod)
    (hfit : (newdims.drop ni).prod < 2147483648)
    (hb1 : newdims.length ≤ b1.length) (hb2 : b2.length = b1.length)
    (hpre : b1.take ni = b2.take ni)
    (h : reshape_loop olddims oldstrides newdims is_f_order fuel oi (oi + 1) ni (ni + 1) b1 =
      some (1, ns1)) :
    ∃ ns2 ni1 oi1, reshape_loop olddims oldstrides newdims is_f_order fuel oi (oi + 1) ni
        (ni + 1) b2 = some (1, ns2) ∧
      ni ≤ ni1 ∧ ni1 ≤ newdims.length ∧ oi1 ≤ olddims.length ∧
      ¬ (ni1 < newdims.length ∧ oi1 < olddims.length) ∧
      (newdims.drop ni1).prod = (olddims.drop oi1).prod ∧
      ns1.take ni1 = ns2.take ni1 ∧ ns1.drop ni1 = b1.drop ni1 ∧ ns2.drop ni1 = b2.drop ni1 := by
  induction fuel generalizing oi ni b1 b2 with
  | zero =>
    rw [reshape_loop] at h ⊢
    by_cases hc : ni < newdims.length ∧ oi < olddims.length
    · rw [if_neg (not_not.mpr hc)] at h
      simp at h
    · rw [if_pos hc] at h ⊢
      obtain rfl : b1 = ns1 := by simpa using h
      exact ⟨b2, ni, oi, rfl, le_refl _, hni, hoi, hc, heq, hpre, rfl, rfl⟩
  | succ fuel ih =>
    rw [reshape_loop] at h ⊢
    by_cases hc : ni < newdims.length ∧ oi < olddims.length
    swap
    · rw [if_pos hc] at h ⊢
      obtain rfl : b1 = ns1 := by simpa using h
      exact ⟨b2, ni, oi, rfl, le_refl _, hni, hoi, hc, heq, hpre, rfl, rfl⟩
    obtain ⟨hc1, hc2⟩ := hc
    rw [if_neg (not_not.mpr ⟨hc1, hc2⟩), List.getElem?_eq_getElem hc1,
      List.getElem?_eq_getElem hc2] at h ⊢
    simp only at h ⊢
    have hdn : 0 < newdims[ni] := hn _ (List.getElem_mem hc1)
    have hdo : 0 < olddims[oi] := ho _ (List.getElem_mem hc2)
    have hrn : 0 < (newdims.drop (ni + 1)).prod :=
      prod_pos_of_pos _ (fun d hd => hn d (List.mem_of_mem_drop hd))
    have hro : 0 < (olddims.drop (oi + 1)).prod :=
      prod_pos_of_pos _ (fun d hd => ho d (List.mem_of_mem_drop hd))
    have heq' := heq
    have hfit' := hfit
    rw [List.drop_eq_getElem_cons hc1, List.prod_cons] at heq' hfit'
    rw [List.drop_eq_getElem_cons hc2, List.prod_cons] at heq'
    have hle1 : newdims[ni] ≤ newdims[ni] * (newdims.drop (ni + 1)).prod :=
      le_mul_of_one_le_right hdn.le hrn
    have hle2 : olddims[oi] ≤ olddims[oi] * (olddims.drop (oi + 1)).prod :=
      le_mul_of_one_le_right hdo.le hro
    rw [toCInt_of_range _ hdn.le (by omega), toCInt_of_range _ hdo.le (by omega)] at h ⊢
    obtain ⟨nj1, oj1, e, c1, c2, c3, c4, c5⟩ :=
      extend_runs_spec newdims olddims hn ho (newdims.length + olddims.length)
        newdims[ni] olddims[oi] (ni + 1) (oi + 1) (by omega) (by omega) hdn hdo heq' hfit'
        (by omega)
    rw [e] at h ⊢
    simp only at h ⊢
    cases hck : check_run olddims oldstrides is_f_order (oj1 - 1 - oi) oi with
    | none => rw [hck] at h; simp at h
    | some b =>
      cases b with
      | false => rw [hck] at h; simp at h
      | true =>
        rw [hck] at h
        simp only at h ⊢
        cases hfill : fill_run newdims oldstrides is_f_order oi oj1 ni nj1 b1 with
        | none => rw [hfill] at h; simp at h
        | some buf1 =>
          rw [hfill] at h
          simp only at h
          obtain ⟨buf2, f1, f2⟩ := fill_run_some newdims oldstrides is_f_order oi oj1 ni nj1 b2
            (by omega) (by omega) (by omega) c2 (by omega)
          rw [f1]
          simp only
          obtain ⟨run, hrl, hrun⟩ := fill_run_spec newdims oldstrides is_f_order oi oj1 ni nj1
            (by omega) (by omega) (by omega) c2
          have hs1 := hrun b1 buf1 hb1 hfill
          have hs2 := hrun b2 buf2 (by omega) f1
          have hl1 : buf1.length = b1.length := by
            rw [hs1, length_filled _ _ _ _ (by omega) (by omega) hrl]
          obtain ⟨ns2, ni1, oi1, g1, g2, g3, g4, g5, g6, g7, g8, g9⟩ :=
            ih oj1 nj1 buf1 buf2 c2 c4 c5
              (lt_of_le_of_lt (prod_drop_le newdims hn ni nj1 (by omega)) hfit)
              (by omega) (by omega)
              (by rw [hs1, hs2, take_filled _ _ _ _ (by omega) (by omega) hrl,
                take_filled _ _ _ _ (by omega) (by omega) hrl, hpre]) h
          refine ⟨ns2, ni1, oi1, g1, by omega, g3, g4, g5, g6, g7, ?_, ?_⟩
          · rw [g8, show ni1 = nj1 + (ni1 - nj1) by omega, ← List.drop_drop, hs1,
              drop_filled _ _ _ _ (by omega) (by omega) hrl, List.drop_drop]
          · rw [g9, show ni1 = nj1 + (ni1 - nj1) by omega, ← List.drop_drop, hs2,
              drop_filled _ _ _ _ (by omega) (by omega) hrl, List.drop_drop]

/-- What holds of C21: while the products fit in `int`, a call that returns 1 returns 1 for
every other buffer of the same length, and there is a point `ni1`, with only target axes of
size 1 from `ni1` on, such that the entries before `ni1` are assigned and do not depend on
the buffer, while the entries from `ni1` on are left as the buffer held them. When the last
target axis has a size other than 1, `ni1 = newnd` and every entry is assigned. -/
theorem attempt_nocopy_reshape_assigned_prefix (self : PyArrayObject)
    (hwf : self.strides.length = self.dimensions.length) (newdims b1 b2 ns1 : List Int)
    (is_f_order : Bool)
    (hd : ∀ d ∈ self.dimensions, 0 ≤ d) (hn : ∀ d ∈ newdims, 0 < d)
    (hfitn : newdims.prod < 2147483648) (hfitd : self.dimensions.prod < 2147483648)
    (hb1 : newdims.length ≤ b1.length) (hb2 : b2.length = b1.length)
    (h : _attempt_nocopy_reshape self newdims b1 is_f_order = some (1, ns1)) :
    ∃ ns2 ni1, _attempt_nocopy_reshape self newdims b2 is_f_order = some (1, ns2) ∧
      ni1 ≤ newdims.length ∧ (∀ d ∈ newdims.drop ni1, d = 1) ∧
      ns1.take ni1 = ns2.take ni1 ∧ ns1.drop ni1 = b1.drop ni1 ∧ ns2.drop ni1 = b2.drop ni1 ∧
      (∀ d, newdims.getLast? = some d → d ≠ 1 → ni1 = newdims.length) := by
  obtain ⟨ho, hprod, hloop⟩ := attempt_nocopy_reshape_one self hwf newdims b1 ns1 is_f_order hd hn
    hfitn hfitd h
  obtain ⟨ns2, ni1, oi1, g1, -, g3, g4, g5, g6, g7, g8, g9⟩ :=
    reshape_loop_two_buffers (strip_ones self.dimensions self.strides).1
      (strip_ones self.dimensions self.strides).2 newdims is_f_order hn (fun d hd1 => (ho d hd1).1)
      (strip_ones_length _ _) newdims.length 0 0 b1 b2 ns1 (Nat.zero_le _) (Nat.zero_le _)
      (by rw [List.drop_zero, List.drop_zero]; exact hprod)
      (by rw [List.drop_zero]; exact hfitn) hb1 hb2 rfl hloop
  obtain ⟨-, -, hones⟩ := loop_exit_state newdims (strip_ones self.dimensions self.strides).1 hn ho
    ni1 oi1 g4 g5 g6
  refine ⟨ns2, ni1, ?_, g3, hones, g7, g8, g9, ?_⟩
  · unfold _attempt_nocopy_reshape at h ⊢
    simp only at h ⊢
    by_cases c1 : int_product newdims ≠ int_product (strip_ones self.dimensions self.strides).1
    · rw [if_pos c1] at h; simp at h
    · rw [if_neg c1] at h ⊢
      by_cases c2 : int_product newdims = 0
      · rw [if_pos c2] at h; simp at h
      · rw [if_neg c2]
        exact g1
  · intro d hlast hne
    by_contra hlt
    have hmem : d ∈ newdims.drop ni1 := by
      have h1 : (newdims.drop ni1).getLast? = some d := by
        rw [List.getLast?_drop, if_neg (by omega), hlast]
      exact List.mem_of_getLast?_eq_some h1
    exact hne (hones d hmem)

/-- The source of shape `(2, 3)` with the strides `(24, 8)` and the target `(1, 6)`: both
entries are assigned, whatever the buffer held. -/
theorem attempt_nocopy_reshape_assigned_prefix_witness :
    _attempt_nocopy_reshape ⟨[2, 3], [24, 8]⟩ [1, 6] [5, 5] false = some (1, [48, 8]) ∧
    ∃ ns2 ni1, _attempt_nocopy_reshape ⟨[2, 3], [24, 8]⟩ [1, 6] [0, 7] false = some (1, ns2) ∧
      ni1 ≤ ([1, 6] : List Int).length ∧ (∀ d ∈ ([1, 6] : List Int).drop ni1, d = 1) ∧
      ([48, 8] : List Int).take ni1 = ns2.take ni1 ∧
      ([48, 8] : List Int).drop ni1 = ([5, 5] : List Int).drop ni1 ∧
      ns2.drop ni1 = ([0, 7] : List Int).drop ni1 ∧
      (∀ d, ([1, 6] : List Int).getLast? = some d → d ≠ 1 → ni1 = ([1, 6] : List Int).length) :=
  ⟨by decide,
    attempt_nocopy_reshape_assigned_prefix ⟨[2, 3], [24, 8]⟩ rfl [1, 6] [5, 5] [0, 7] [48, 8]
      false (by decide) (by decide) (by decide) (by decide) (by decide) rfl (by decide)⟩

/-! ## `_npy_stride_sort_item_comparator` as an ordering -/

/-- C25. The claim fails on the entries set up for the Fortran-contiguous array of shape
`(2, 1, 2)` with 4-byte elements, strides `(4, 8, 8)`: the entries are `(0, 4)`, `(1, 0)`,
`(2, 8)`, with pairwise distinct `perm`; the comparator puts `(0, 4)` before `(1, 0)` and
`(1, 0)` before `(2, 8)`, but `(2, 8)` before `(0, 4)`, so it is not transitive, and both
`[(0, 4), (1, 0), (2, 8)]` and `[(2, 8), (0, 4), (1, 0)]` are outputs in which the comparator
puts no entry after its successor. -/
theorem comparator_cycle_at_unit_axis :
    f_contiguous_strides 4 [2, 1, 2] = [4, 8, 8] ∧
    strideperm_setup 3 [2, 1, 2] [4, 8, 8] = [⟨0, 4⟩, ⟨1, 0⟩, ⟨2, 8⟩] ∧
    _npy_stride_sort_item_comparator ⟨0, 4⟩ ⟨1, 0⟩ < 0 ∧
    _npy_stride_sort_item_comparator ⟨1, 0⟩ ⟨2, 8⟩ < 0 ∧
    ¬ (_npy_stride_sort_item_comparator ⟨0, 4⟩ ⟨2, 8⟩ < 0) ∧
    is_qsort_output _npy_stride_sort_item_comparator (strideperm_setup 3 [2, 1, 2] [4, 8, 8])
      [⟨0, 4⟩, ⟨1, 0⟩, ⟨2, 8⟩] ∧
    is_qsort_output _npy_stride_sort_item_comparator (strideperm_setup 3 [2, 1, 2] [4, 8, 8])
      [⟨2, 8⟩, ⟨0, 4⟩, ⟨1, 0⟩] := by
  have hs : strideperm_setup 3 [2, 1, 2] [4, 8, 8] = [⟨0, 4⟩, ⟨1, 0⟩, ⟨2, 8⟩] := by decide
  refine ⟨by decide, hs, by decide, by decide, by decide, ?_, ?_⟩
  · rw [hs]
    exact ⟨List.Perm.refl _,
      List.Chain'.cons (by decide) (List.Chain'.cons (by decide) (List.chain'_singleton _))⟩
  · rw [hs]
    refine ⟨?_,
      List.Chain'.cons (by decide) (List.Chain'.cons (by decide) (List.chain'_singleton _))⟩
    exact (List.Perm.swap _ _ _).trans (List.Perm.cons _ (List.Perm.swap _ _ _))

/-- What holds of C25: the comparator is antisymmetric on entries with distinct `perm`, and
it is transitive on entries whose strides are not 0. -/
theorem comparator_order_without_zero (a b c : npy_stride_sort_item) :
    (a.perm ≠ b.perm →
      _npy_stride_sort_item_comparator a b = - _npy_stride_sort_item_comparator b a) ∧
    (a.stride ≠ 0 → b.stride ≠ 0 → c.stride ≠ 0 →
      _npy_stride_sort_item_comparator a b < 0 → _npy_stride_sort_item_comparator b c < 0 →
      _npy_stride_sort_item_comparator a c < 0) := by
  constructor
  · intro hne
    unfold _npy_stride_sort_item_comparator
    simp only [abs_eq_ite]
    split_ifs <;> omega
  · intro ha hb hc h1 h2
    have ha2 : |a.stride| ≠ 0 := abs_ne_zero.mpr ha
    have hb2 : |b.stride| ≠ 0 := abs_ne_zero.mpr hb
    have hc2 : |c.stride| ≠ 0 := abs_ne_zero.mpr hc
    unfold _npy_stride_sort_item_comparator at h1 h2 ⊢
    simp only [abs_eq_ite] at h1 h2 ⊢
    split_ifs at h1 h2 ⊢ <;> omega

/-- The entries `(0, 4)`, `(1, -2)`, `(2, 12)`. -/
theorem comparator_order_without_zero_witness :
    _npy_stride_sort_item_comparator ⟨2, 12⟩ ⟨0, 4⟩ =
      - _npy_stride_sort_item_comparator ⟨0, 4⟩ ⟨2, 12⟩ ∧
    _npy_stride_sort_item_comparator ⟨2, 12⟩ ⟨1, -2⟩ < 0 :=
  ⟨(comparator_order_without_zero ⟨2, 12⟩ ⟨0, 4⟩ ⟨1, -2⟩).1 (by decide),
    (comparator_order_without_zero ⟨2, 12⟩ ⟨0, 4⟩ ⟨1, -2⟩).2 (by decide) (by decide)
      (by decide) (by decide) (by decide)⟩

end Shape
